import Mathlib

/-!
Verification of the `vector` package: Sequence, Order, Set and the priority queue.

A shallow embedding of `vector.go`, `order.go`, `set.go`, `priorityqueue.go`,
`comparefunc.go` and `utils.go`.

* A Go slice `[]T` is a `List T`; a container held through a pointer and mutated in place is
  passed explicitly: an operation takes the container and returns the container after the call.
* A Go `panic` is an `Except.error`.  The sequence operations that reset their storage before
  they validate their index return the outcome together with the storage left behind.
* The lock is the injected `sync.Locker`; with the default `LockerStub` both `Lock` and `Unlock`
  are empty, so the exported method is the lock-free variant it wraps.  Where real mutexes
  matter, a call is the sequence of its lock operations and concurrent calls interleave them.
* `sort.Search` and `sort.SliceStable` are the functions of the Go standard library.
* Lengths are `Nat` and comparator results are `Int`.  An index parameter of type `uint` is a
  `Nat`; where the source converts it with `int(index)` the conversion is `intOfUint`, the
  64-bit two's complement reinterpretation, so an index from `2^63` on converts to a negative
  number.
-/

namespace vector

/-! ## Panics -/

/-- Values a call can panic with. -/
inductive Error where
  /-- The value `ErrIndexOutOfRange` of `vector.go`. -/
  | ErrIndexOutOfRange
  /-- The value `ErrEmptyVector` of `vector.go`. -/
  | ErrEmptyVector
  /-- The string panic `"unsupported order kind"` of `order.go`. -/
  | UnsupportedOrderKind
  /-- The Go runtime panic of indexing or slicing a slice outside its bounds. -/
  | RuntimeIndexOutOfRange
  /-- The value `ErrEmptyPriorityQueue` of `priorityqueue.go`. -/
  | ErrEmptyPriorityQueue
  deriving DecidableEq, Repr

/-! ## comparefunc.go -/

/-- Embeds `CompareFunc[T]`: a three-way comparison, negative / zero / positive. -/
abbrev CompareFunc (T : Type) := T → T → Int

/-- Embeds `CompareNumber`, at the integers. -/
def CompareNumber (lhs rhs : Int) : Int :=
  if lhs < rhs then -1
  else if lhs > rhs then 1
  else 0

/-- Embeds `CompareString`: `strings.Compare` of the Go standard library, the lexicographic
three-way comparison of two strings. -/
def CompareString (lhs rhs : String) : Int :=
  if lhs.data < rhs.data then -1
  else if rhs.data < lhs.data then 1
  else 0

/-! ## vector.go -/

/-- Embeds `Impl[T]`: the backing storage of a sequence (the locker is the no-op stub). -/
structure Impl (T : Type) where
  /-- The field `data`. -/
  data : List T

/-- Embeds `NewVector`: a fresh empty sequence. -/
def NewVector {T : Type} : Impl T := ⟨[]⟩

/-- Embeds `Impl.Data`. -/
def Impl.Data {T : Type} (v : Impl T) : List T := v.data

/-- Embeds `Impl.len`. -/
def Impl.len {T : Type} (v : Impl T) : Nat := v.data.length

/-- The conversion `int(index)` of a `uint` on a 64-bit platform: the two's complement
reinterpretation of the low 64 bits. -/
def intOfUint (index : Nat) : Int :=
  if index % 2 ^ 64 < 2 ^ 63 then ((index % 2 ^ 64 : Nat) : Int)
  else ((index % 2 ^ 64 : Nat) : Int) - 2 ^ 64

/-- Embeds `Impl.get`: panics with `ErrIndexOutOfRange` when `int(index) > len(v.data)-1`,
otherwise indexes the slice. -/
def Impl.get {T : Type} (v : Impl T) (index : Nat) : Except Error T :=
  if intOfUint index > (v.data.length : Int) - 1 then .error .ErrIndexOutOfRange
  else
    match v.data[index]? with
    | some x => .ok x
    | none => .error .RuntimeIndexOutOfRange

/-- Embeds `Impl.append`. -/
def Impl.append {T : Type} (v : Impl T) (args : List T) : Impl T := ⟨v.data ++ args⟩

/-- Embeds `Impl.insert`: the storage is replaced by an empty slice first, then rebuilt
according to the position of `index`; in the default case the slice expressions
`oldData[:index]` and `oldData[index:]` panic at runtime when `index` is beyond the slice.
The pair is the outcome and the storage after the call. -/
def Impl.insert {T : Type} (v : Impl T) (index : Nat) (args : List T) :
    Except Error Unit × Impl T :=
  let oldData := v.data
  if index = 0 then (.ok (), ⟨args ++ oldData⟩)
  else if intOfUint index = (oldData.length : Int) then (.ok (), ⟨oldData ++ args⟩)
  else if intOfUint index > (oldData.length : Int) then (.error .ErrIndexOutOfRange, ⟨[]⟩)
  else if index ≤ oldData.length then
    (.ok (), ⟨oldData.take index ++ args ++ oldData.drop index⟩)
  else (.error .RuntimeIndexOutOfRange, ⟨[]⟩)

/-- Embeds `Impl.Insert`. -/
def Impl.Insert {T : Type} (v : Impl T) (index : Nat) (args : List T) :
    Except Error Unit × Impl T :=
  v.insert index args

/-- Embeds `Impl.remove`: panics with `ErrEmptyVector` on empty storage, reads `v.data[index]`
(a runtime panic outside the length), then rebuilds the storage without that position; the
pair is the outcome and the storage after the call. -/
def Impl.remove {T : Type} (v : Impl T) (index : Nat) : Except Error T × Impl T :=
  if v.data.length = 0 then (.error .ErrEmptyVector, v)
  else
    match v.data[index]? with
    | none => (.error .RuntimeIndexOutOfRange, v)
    | some ret =>
      let oldData := v.data
      if index = 0 then (.ok ret, ⟨oldData.drop 1⟩)
      else if intOfUint index = (oldData.length : Int) - 1 then
        (.ok ret, ⟨oldData.take (oldData.length - 1)⟩)
      else if intOfUint index ≥ (oldData.length : Int) then (.error .ErrIndexOutOfRange, ⟨[]⟩)
      else (.ok ret, ⟨oldData.take index ++ oldData.drop (index + 1)⟩)

/-- Embeds `Impl.Remove`. -/
def Impl.Remove {T : Type} (v : Impl T) (index : Nat) : Except Error T × Impl T :=
  v.remove index

/-! ## sort.Search (Go standard library) -/

/-- The loop of `sort.Search`: `for i < j { h := int(uint(i+j) >> 1); if !f(h) { i = h + 1 }
else { j = h } }; return i`.  The first argument bounds the number of iterations. -/
def searchLoop (f : Nat → Except Error Bool) : Nat → Nat → Nat → Except Error Nat
  | 0, i, _ => pure i
  | fuel + 1, i, j =>
    if i < j then do
      let h := (i + j) / 2
      let b ← f h
      if !b then searchLoop f fuel (h + 1) j else searchLoop f fuel i h
    else pure i

/-- Embeds `sort.Search(n, f)`: binary search over `[0, n)` with `i, j := 0, n`; `n` iterations are
enough since `j - i` strictly decreases (see `searchLoop_fuel`). -/
def Search (n : Nat) (f : Nat → Except Error Bool) : Except Error Nat :=
  searchLoop f n 0 n

/-! ## order.go -/

/-- Embeds `OrderKind`, a Go `int`. -/
abbrev OrderKind := Int

/-- Embeds `OrderKindIncreasing`. -/
def OrderKindIncreasing : OrderKind := 1

/-- Embeds `OrderKindDecreasing`. -/
def OrderKindDecreasing : OrderKind := -1

/-- Embeds `OrderImpl[T, C]`. -/
structure OrderImpl (T : Type) where
  /-- The backing sequence. -/
  Vector : Impl T
  /-- The comparator. -/
  compare : CompareFunc T
  /-- The direction. -/
  kind : OrderKind

/-- Embeds `NewOrder` (and `MakeOrder`). -/
def NewOrder {T : Type} (compareFunc : CompareFunc T) (kind : OrderKind) : OrderImpl T :=
  ⟨NewVector, compareFunc, kind⟩

/-- Embeds `OrderImpl.Data`. -/
def OrderImpl.Data {T : Type} (o : OrderImpl T) : List T := o.Vector.Data

/-- The body of the `range values` loop of `OrderImpl.add` for one value: binary search
for the insertion index, clamp it, insert, count. -/
def OrderImpl.addStep {T : Type} (st : OrderImpl T × Nat) (value : T) :
    Except Error (OrderImpl T × Nat) := do
  let o := st.1
  let index ← Search o.Vector.len (fun i =>
    if o.kind = OrderKindIncreasing then do
      let x ← o.Vector.get i
      pure (decide (o.compare x value > 0))
    else if o.kind = OrderKindDecreasing then do
      let x ← o.Vector.get i
      pure (decide (o.compare x value < 0))
    else throw Error.UnsupportedOrderKind)
  let index := if (index : Int) > (o.Vector.len : Int) - 1 then o.Vector.len else index
  match o.Vector.insert index [value] with
  | (.ok _, v) => pure ({ o with Vector := v }, st.2 + 1)
  | (.error e, _) => throw e

/-- Embeds `OrderImpl.add`: the order after the call and the returned count. -/
def OrderImpl.add {T : Type} (o : OrderImpl T) (values : List T) :
    Except Error (OrderImpl T × Nat) :=
  values.foldlM OrderImpl.addStep (o, 0)

/-- Embeds `OrderImpl.Add`. -/
def OrderImpl.Add {T : Type} (o : OrderImpl T) (values : List T) :
    Except Error (OrderImpl T × Nat) :=
  o.add values

/-- Embeds `OrderImpl.firstIndexOf`. -/
def OrderImpl.firstIndexOf {T : Type} (o : OrderImpl T) (value : T) : Except Error Int :=
  if o.Vector.len = 0 then pure (-1)
  else do
    let index ← Search o.Vector.len (fun i =>
      if o.kind = OrderKindIncreasing then do
        let x ← o.Vector.get i
        pure (decide (o.compare x value ≥ 0))
      else if o.kind = OrderKindDecreasing then do
        let x ← o.Vector.get i
        pure (decide (o.compare x value ≤ 0))
      else throw Error.UnsupportedOrderKind)
    if index < o.Vector.len then do
      let x ← o.Vector.get index
      if o.compare x value = 0 then pure (index : Int) else pure (-1)
    else pure (-1)

/-- Embeds `OrderImpl.FirstIndexOf`. -/
def OrderImpl.FirstIndexOf {T : Type} (o : OrderImpl T) (value : T) : Except Error Int :=
  o.firstIndexOf value

/-- The guard of `combine` before it emits a value: `prevValue == nil ||
o.compare(*prevValue, value) != 0`. -/
def OrderImpl.differsFromPrev {T : Type} (o : OrderImpl T) (prevValue : Option T) (value : T) :
    Bool :=
  match prevValue with
  | none => true
  | some prev => decide (o.compare prev value ≠ 0)

/-- The two-pointer loop of `OrderImpl.merge`, `for lhsIndex < o.Vector.len() && rhsIndex <
rhs.Vector.len()`, on the state `(lhsIndex, rhsIndex, ret.Vector)`.  The first argument bounds
the number of iterations. -/
def OrderImpl.mergeLoop {T : Type} (o rhs : OrderImpl T) :
    Nat → Nat → Nat → Impl T → Except Error (Nat × Nat × Impl T)
  | 0, lhsIndex, rhsIndex, ret => pure (lhsIndex, rhsIndex, ret)
  | fuel + 1, lhsIndex, rhsIndex, ret =>
    if lhsIndex < o.Vector.len ∧ rhsIndex < rhs.Vector.len then do
      let lhsValue ← o.Vector.get lhsIndex
      let rhsValue ← rhs.Vector.get rhsIndex
      let compareRes := o.compare lhsValue rhsValue
      if (o.kind = OrderKindIncreasing ∧ compareRes ≤ 0) ∨
          (o.kind = OrderKindDecreasing ∧ compareRes ≥ 0) then
        OrderImpl.mergeLoop o rhs fuel (lhsIndex + 1) rhsIndex (ret.append [lhsValue])
      else
        OrderImpl.mergeLoop o rhs fuel lhsIndex (rhsIndex + 1) (ret.append [rhsValue])
    else pure (lhsIndex, rhsIndex, ret)

/-- Embeds `OrderImpl.merge`: the loop, then the bulk append of the unexhausted tail.  Each
iteration advances one index, so `len + len` iterations are enough. -/
def OrderImpl.merge {T : Type} (o rhs : OrderImpl T) : Except Error (OrderImpl T) := do
  let ret : OrderImpl T := NewOrder o.compare o.kind
  let st ← o.mergeLoop rhs (o.Vector.len + rhs.Vector.len) 0 0 ret.Vector
  let lhsIndex := st.1
  let rhsIndex := st.2.1
  let vec := st.2.2
  if lhsIndex < o.Vector.len then
    pure { ret with Vector := vec.append (o.Vector.Data.drop lhsIndex) }
  else if rhsIndex < rhs.Vector.len then
    pure { ret with Vector := vec.append (rhs.Vector.Data.drop rhsIndex) }
  else pure { ret with Vector := vec }

/-- Embeds `OrderImpl.Merge`. -/
def OrderImpl.Merge {T : Type} (o rhs : OrderImpl T) : Except Error (OrderImpl T) :=
  o.merge rhs

/-- The two-pointer loop of `OrderImpl.combine` on the state
`(lhsIndex, rhsIndex, prevValue, ret.Vector)`.  The first argument bounds the number of
iterations. -/
def OrderImpl.combineLoop {T : Type} (o rhs : OrderImpl T) :
    Nat → Nat → Nat → Option T → Impl T → Except Error (Nat × Nat × Option T × Impl T)
  | 0, lhsIndex, rhsIndex, prevValue, ret => pure (lhsIndex, rhsIndex, prevValue, ret)
  | fuel + 1, lhsIndex, rhsIndex, prevValue, ret =>
    if lhsIndex < o.Vector.len ∧ rhsIndex < rhs.Vector.len then do
      let lhsValue ← o.Vector.get lhsIndex
      let rhsValue ← rhs.Vector.get rhsIndex
      let compareRes := o.compare lhsValue rhsValue
      if (o.kind = OrderKindIncreasing ∧ compareRes ≤ 0) ∨
          (o.kind = OrderKindDecreasing ∧ compareRes ≥ 0) then
        if o.differsFromPrev prevValue lhsValue then
          OrderImpl.combineLoop o rhs fuel (lhsIndex + 1) rhsIndex (some lhsValue)
            (ret.append [lhsValue])
        else
          OrderImpl.combineLoop o rhs fuel (lhsIndex + 1) rhsIndex prevValue ret
      else
        if o.differsFromPrev prevValue rhsValue then
          OrderImpl.combineLoop o rhs fuel lhsIndex (rhsIndex + 1) (some rhsValue)
            (ret.append [rhsValue])
        else
          OrderImpl.combineLoop o rhs fuel lhsIndex (rhsIndex + 1) prevValue ret
    else pure (lhsIndex, rhsIndex, prevValue, ret)

/-- The body of the `range rest` loop of `OrderImpl.combine` on the state
`(prevValue, ret.Vector)`. -/
def OrderImpl.restStep {T : Type} (o : OrderImpl T) (st : Option T × Impl T) (restValue : T) :
    Option T × Impl T :=
  if o.differsFromPrev st.1 restValue then (some restValue, st.2.append [restValue]) else st

/-- Embeds `OrderImpl.combine`: the loop, the choice of `rest`, then the filtered copy of `rest`. -/
def OrderImpl.combine {T : Type} (o rhs : OrderImpl T) : Except Error (OrderImpl T) := do
  let ret : OrderImpl T := NewOrder o.compare o.kind
  let st ← o.combineLoop rhs (o.Vector.len + rhs.Vector.len) 0 0 none ret.Vector
  let lhsIndex := st.1
  let rhsIndex := st.2.1
  let prevValue := st.2.2.1
  let vec := st.2.2.2
  let rest : List T :=
    if lhsIndex ≥ o.Vector.len ∧ rhsIndex < rhs.Vector.len then rhs.Vector.Data.drop rhsIndex
    else if rhsIndex ≥ rhs.Vector.len ∧ lhsIndex < o.Vector.len then o.Vector.Data.drop lhsIndex
    else []
  let fin := rest.foldl o.restStep (prevValue, vec)
  pure { ret with Vector := fin.2 }

/-- Embeds `OrderImpl.Combine`. -/
def OrderImpl.Combine {T : Type} (o rhs : OrderImpl T) : Except Error (OrderImpl T) :=
  o.combine rhs

/-! ## set.go -/

/-- Embeds `SetImpl[T, C]`. -/
structure SetImpl (T : Type) where
  /-- The order holding the elements. -/
  Order : OrderImpl T
  /-- The comparator. -/
  compare : CompareFunc T

/-- Embeds `NewSet` (and `MakeSet`). -/
def NewSet {T : Type} (compareFunc : CompareFunc T) : SetImpl T :=
  ⟨NewOrder compareFunc OrderKindIncreasing, compareFunc⟩

/-- Embeds `SetImpl.Data`. -/
def SetImpl.Data {T : Type} (s : SetImpl T) : List T := s.Order.Data

/-- The body of the `range values` loop of `SetImpl.add` for one value. -/
def SetImpl.addStep {T : Type} (st : SetImpl T × Nat) (v : T) :
    Except Error (SetImpl T × Nat) := do
  let s := st.1
  let index ← s.Order.firstIndexOf v
  if index = -1 then do
    let r ← s.Order.add [v]
    pure ({ s with Order := r.1 }, st.2 + 1)
  else pure st

/-- Embeds `SetImpl.add`: the set after the call and the returned count. -/
def SetImpl.add {T : Type} (s : SetImpl T) (values : List T) : Except Error (SetImpl T × Nat) :=
  values.foldlM SetImpl.addStep (s, 0)

/-- Embeds `SetImpl.Add`. -/
def SetImpl.Add {T : Type} (s : SetImpl T) (values : List T) : Except Error (SetImpl T × Nat) :=
  s.add values

/-- The body of the `range values` loop of `SetImpl.remove` for one value; `uint(index)` is
`index.toNat` as `index` is not `-1` there. -/
def SetImpl.removeStep {T : Type} (st : SetImpl T × Nat) (v : T) :
    Except Error (SetImpl T × Nat) := do
  let s := st.1
  let index ← s.Order.firstIndexOf v
  if index ≠ -1 then
    match s.Order.Vector.remove index.toNat with
    | (.ok _, vec) => pure ({ s with Order := { s.Order with Vector := vec } }, st.2 + 1)
    | (.error e, _) => throw e
  else pure st

/-- Embeds `SetImpl.remove`: the set after the call and the returned count. -/
def SetImpl.remove {T : Type} (s : SetImpl T) (values : List T) :
    Except Error (SetImpl T × Nat) :=
  values.foldlM SetImpl.removeStep (s, 0)

/-- Embeds `SetImpl.Remove`. -/
def SetImpl.Remove {T : Type} (s : SetImpl T) (values : List T) :
    Except Error (SetImpl T × Nat) :=
  s.remove values

/-- Embeds `SetImpl.Has`. -/
def SetImpl.Has {T : Type} (s : SetImpl T) (value : T) : Except Error Bool := do
  let index ← s.Order.firstIndexOf value
  pure (decide (index ≠ -1))

/-- The loops `for _, v := range xs { if o.firstIndexOf(v) == -1 { values = append(values, v) } }`
(`wantFound = false`) and `... != -1 ...` (`wantFound = true`) of the set algebra, started
from the slice `values`. -/
def collect {T : Type} (o : OrderImpl T) (wantFound : Bool) (values xs : List T) :
    Except Error (List T) :=
  xs.foldlM (fun (values : List T) v => do
    let index ← o.firstIndexOf v
    if decide (index ≠ -1) = wantFound then pure (values ++ [v]) else pure values) values

/-- Embeds `SetImpl.Union`. -/
def SetImpl.Union {T : Type} (s rhs : SetImpl T) : Except Error (SetImpl T) := do
  let ret := NewSet s.compare
  let o ← s.Order.combine rhs.Order
  pure { ret with Order := o }

/-- Embeds `SetImpl.LeftDifference`. -/
def SetImpl.LeftDifference {T : Type} (s rhs : SetImpl T) : Except Error (SetImpl T) := do
  let ret := NewSet s.compare
  let values ← collect rhs.Order false [] s.Data
  let r ← ret.add values
  pure r.1

/-- Embeds `SetImpl.RightDifference`. -/
def SetImpl.RightDifference {T : Type} (s rhs : SetImpl T) : Except Error (SetImpl T) := do
  let ret := NewSet s.compare
  let values ← collect s.Order false [] rhs.Data
  let r ← ret.add values
  pure r.1

/-- Embeds `SetImpl.Intersection`. -/
def SetImpl.Intersection {T : Type} (s rhs : SetImpl T) : Except Error (SetImpl T) := do
  let ret := NewSet s.compare
  let values ← collect s.Order true [] rhs.Data
  let values ← collect rhs.Order true values s.Data
  let r ← ret.add values
  pure r.1

/-! ## utils.go -/

/-- Embeds `NewStringsSet`. -/
def NewStringsSet (data : List String) : Except Error (SetImpl String) := do
  let ret := NewSet CompareString
  let r ← ret.Add data
  pure r.1

/-! ## Specification vocabulary -/

/-- A consistent total order presented as a three-way comparator: swapping the arguments
flips the sign, and "not greater" is transitive. -/
structure IsTotalOrder {T : Type} (cmp : CompareFunc T) : Prop where
  /-- Swapping the arguments flips the sign. -/
  antisymm : ∀ a b, cmp a b < 0 ↔ 0 < cmp b a
  /-- The relation "not greater" is transitive. -/
  trans : ∀ a b c, cmp a b ≤ 0 → cmp b c ≤ 0 → cmp a c ≤ 0

/-- The two directions an order supports. -/
def ValidKind (kind : OrderKind) : Prop :=
  kind = OrderKindIncreasing ∨ kind = OrderKindDecreasing

/-- An adjacent pair respects the direction: `compare a b ≤ 0` when ascending and
`compare a b ≥ 0` when descending. -/
def AdjOK {T : Type} (cmp : CompareFunc T) (kind : OrderKind) (a b : T) : Prop :=
  (kind = OrderKindIncreasing → cmp a b ≤ 0) ∧ (kind = OrderKindDecreasing → cmp a b ≥ 0)

/-- The data of an order is sorted: every adjacent pair respects the direction. -/
def OrderImpl.Sorted {T : Type} (o : OrderImpl T) : Prop :=
  List.Chain' (AdjOK o.compare o.kind) o.Data

/-- The comparator seen through the direction: itself when ascending, negated when
descending. -/
def dirCmp {T : Type} (kind : OrderKind) (cmp : CompareFunc T) : CompareFunc T :=
  fun a b => kind * cmp a b

/-- The test of `merge` and `combine` for emitting the left value first:
`(kind == Increasing && compare(a, b) <= 0) || (kind == Decreasing && compare(a, b) >= 0)`. -/
def OrderImpl.takesLeft {T : Type} (o : OrderImpl T) (a b : T) : Bool :=
  decide ((o.kind = OrderKindIncreasing ∧ o.compare a b ≤ 0) ∨
    (o.kind = OrderKindDecreasing ∧ o.compare a b ≥ 0))

/-- Runs a sequence of `Add` calls, each with its own list of values. -/
def runAdds {T : Type} (o : OrderImpl T) (calls : List (List T)) : Except Error (OrderImpl T) :=
  calls.foldlM (fun o values => do
    let r ← o.Add values
    pure r.1) o

/-- Left-to-right duplicate suppression: a value is kept unless it compares equal to the last
value kept (`prev`, if any). -/
def OrderImpl.dedupFrom {T : Type} (o : OrderImpl T) : Option T → List T → List T
  | _, [] => []
  | prev, x :: xs =>
    if o.differsFromPrev prev x then x :: OrderImpl.dedupFrom o (some x) xs
    else OrderImpl.dedupFrom o prev xs

/-- Some element of the data compares equal to `x`. -/
def HasEq {T : Type} (cmp : CompareFunc T) (d : List T) (x : T) : Prop :=
  ∃ y ∈ d, cmp y x = 0

/-- The invariant of a set over the comparator `cmp`: both comparator fields are `cmp`, the
order is ascending, and the data is strictly ascending. -/
structure SetImpl.WF {T : Type} (cmp : CompareFunc T) (s : SetImpl T) : Prop where
  /-- The set's comparator. -/
  compare_eq : s.compare = cmp
  /-- The order's comparator. -/
  order_compare : s.Order.compare = cmp
  /-- The order's direction. -/
  kind_eq : s.Order.kind = OrderKindIncreasing
  /-- Strictly ascending data. -/
  strict : s.Order.Vector.data.Pairwise (fun a b => cmp a b < 0)

/-- A way of obtaining a set: `NewSet`, then any calls of `Add`, `Remove` and of the four
binary operations on sets obtained in the same way. -/
inductive SetExpr (T : Type) where
  /-- The call `NewSet(compare)`. -/
  | new : SetExpr T
  /-- The call `s.Add(values...)`. -/
  | add : SetExpr T → List T → SetExpr T
  /-- The call `s.Remove(values...)`. -/
  | remove : SetExpr T → List T → SetExpr T
  /-- The call `s.Union(rhs)`. -/
  | union : SetExpr T → SetExpr T → SetExpr T
  /-- The call `s.Intersection(rhs)`. -/
  | intersection : SetExpr T → SetExpr T → SetExpr T
  /-- The call `s.LeftDifference(rhs)`. -/
  | leftDifference : SetExpr T → SetExpr T → SetExpr T
  /-- The call `s.RightDifference(rhs)`. -/
  | rightDifference : SetExpr T → SetExpr T → SetExpr T

/-- Runs the calls of a `SetExpr` over the comparator `cmp`. -/
def SetExpr.eval {T : Type} (cmp : CompareFunc T) : SetExpr T → Except Error (SetImpl T)
  | .new => pure (NewSet cmp)
  | .add e values => do
    let s ← SetExpr.eval cmp e
    let r ← s.Add values
    pure r.1
  | .remove e values => do
    let s ← SetExpr.eval cmp e
    let r ← s.Remove values
    pure r.1
  | .union e1 e2 => do
    let s ← SetExpr.eval cmp e1
    let rhs ← SetExpr.eval cmp e2
    s.Union rhs
  | .intersection e1 e2 => do
    let s ← SetExpr.eval cmp e1
    let rhs ← SetExpr.eval cmp e2
    s.Intersection rhs
  | .leftDifference e1 e2 => do
    let s ← SetExpr.eval cmp e1
    let rhs ← SetExpr.eval cmp e2
    s.LeftDifference rhs
  | .rightDifference e1 e2 => do
    let s ← SetExpr.eval cmp e1
    let rhs ← SetExpr.eval cmp e2
    s.RightDifference rhs

/-- The set `S0` of the set tests: `{1,2,3,4,5}` over `CompareNumber`. -/
def testSet0 : SetImpl Int :=
  ⟨⟨⟨[1, 2, 3, 4, 5]⟩, CompareNumber, OrderKindIncreasing⟩, CompareNumber⟩

/-- The set `S1` of the set tests: `{4,5,6,7,8}` over `CompareNumber`. -/
def testSet1 : SetImpl Int :=
  ⟨⟨⟨[4, 5, 6, 7, 8]⟩, CompareNumber, OrderKindIncreasing⟩, CompareNumber⟩

/-- The loop shared by `SetImpl.HasAny` and `SetImpl.HasAll`: `for _, v := range values
{ if s.Order.firstIndexOf(v) != -1 { counter++ } }`, returning `counter`. -/
def SetImpl.countFound {T : Type} (s : SetImpl T) (values : List T) : Except Error Nat :=
  values.foldlM (fun (counter : Nat) v => do
    let index ← s.Order.firstIndexOf v
    if index ≠ -1 then pure (counter + 1) else pure counter) 0

/-- Embeds `SetImpl.HasAny`. -/
def SetImpl.HasAny {T : Type} (s : SetImpl T) (values : List T) : Except Error Bool := do
  let counter ← s.countFound values
  pure (decide (counter > 0))

/-- Embeds `SetImpl.HasAll`. -/
def SetImpl.HasAll {T : Type} (s : SetImpl T) (values : List T) : Except Error Bool := do
  let counter ← s.countFound values
  pure (decide (values.length = counter))

/-- Some element of the data compares equal to `v`, as a boolean. -/
def hasEqB {T : Type} (cmp : CompareFunc T) (d : List T) (v : T) : Bool :=
  d.any (fun y => decide (cmp y v = 0))

/-- The number of values of the list that compare equal neither to an element of `d` nor to
an earlier value; `earlier` holds the values already passed. -/
def countNew {T : Type} (cmp : CompareFunc T) (d : List T) : List T → List T → Nat
  | _, [] => 0
  | earlier, v :: vs =>
    (if hasEqB cmp d v || hasEqB cmp earlier v then 0 else 1) +
      countNew cmp d (earlier ++ [v]) vs

/-- The number of values of the list that are present at the moment they are processed,
when each present value is deleted before the next value is processed. -/
def countRemoved {T : Type} (cmp : CompareFunc T) : List T → List T → Nat
  | _, [] => 0
  | d, v :: vs =>
    if hasEqB cmp d v then
      1 + countRemoved cmp (d.filter (fun y => decide (cmp y v ≠ 0))) vs
    else countRemoved cmp d vs

/-- A comparator that is not injective on its values: pairs compared by their first
component only. -/
def compareFirst (lhs rhs : Int × Int) : Int := CompareNumber lhs.1 rhs.1

/-- The set holding the single pair `(1, 0)` over `compareFirst`. -/
def pairSet0 : SetImpl (Int × Int) :=
  ⟨⟨⟨[(1, 0)]⟩, compareFirst, OrderKindIncreasing⟩, compareFirst⟩

/-- The set holding the single pair `(1, 1)` over `compareFirst`. -/
def pairSet1 : SetImpl (Int × Int) :=
  ⟨⟨⟨[(1, 1)]⟩, compareFirst, OrderKindIncreasing⟩, compareFirst⟩

/-! ## Containers held through pointers

The binary operations receive their operands as pointers and build their result in a
sequence made by `NewVector`.  To state what a call leaves in the sequences of its operands,
the sequences live in a store and a container refers to its sequence by a pointer. -/

/-- A store of sequences: cell `p` holds the sequence that the pointer `p` refers to. -/
structure Store (T : Type) where
  /-- The sequences, by pointer. -/
  cells : List (Impl T)

/-- The sequence a pointer refers to (an empty one for a pointer outside the store). -/
def Store.read {T : Type} (st : Store T) (p : Nat) : Impl T := st.cells.getD p ⟨[]⟩

/-- The store after the sequence under `p` is replaced. -/
def Store.write {T : Type} (st : Store T) (p : Nat) (v : Impl T) : Store T :=
  ⟨st.cells.set p v⟩

/-- Embeds `NewVector` in a store: a fresh empty sequence under a pointer not in use. -/
def Store.NewVector {T : Type} (st : Store T) : Store T × Nat :=
  (⟨st.cells ++ [⟨[]⟩]⟩, st.cells.length)

/-- A pointer to an `OrderImpl`: its fields, with `Vector` the pointer to its sequence. -/
structure OrderRef (T : Type) where
  /-- The pointer to the backing sequence. -/
  Vector : Nat
  /-- The comparator. -/
  compare : CompareFunc T
  /-- The direction. -/
  kind : OrderKind

/-- The order a pointer refers to in a store. -/
def OrderRef.deref {T : Type} (o : OrderRef T) (st : Store T) : OrderImpl T :=
  ⟨st.read o.Vector, o.compare, o.kind⟩

/-- A pointer to a `SetImpl`: its fields, with `Order` the pointer to its order. -/
structure SetRef (T : Type) where
  /-- The order holding the elements. -/
  Order : OrderRef T
  /-- The comparator. -/
  compare : CompareFunc T

/-- The set a pointer refers to in a store. -/
def SetRef.deref {T : Type} (s : SetRef T) (st : Store T) : SetImpl T :=
  ⟨s.Order.deref st, s.compare⟩

/-- Embeds `NewOrder` in a store. -/
def Store.NewOrder {T : Type} (st : Store T) (compareFunc : CompareFunc T) (kind : OrderKind) :
    Store T × OrderRef T :=
  ((st.NewVector).1, ⟨(st.NewVector).2, compareFunc, kind⟩)

/-- Embeds `NewSet` in a store. -/
def Store.NewSet {T : Type} (st : Store T) (compareFunc : CompareFunc T) :
    Store T × SetRef T :=
  ((st.NewOrder compareFunc OrderKindIncreasing).1,
    ⟨(st.NewOrder compareFunc OrderKindIncreasing).2, compareFunc⟩)

/-- The loop of `OrderImpl.merge` on a store: each iteration reads the operands through
their pointers and appends to the sequence of `ret`. -/
def OrderRef.mergeLoop {T : Type} (o rhs ret : OrderRef T) :
    Nat → Store T → Nat → Nat → Except Error (Store T × Nat × Nat)
  | 0, st, lhsIndex, rhsIndex => pure (st, lhsIndex, rhsIndex)
  | fuel + 1, st, lhsIndex, rhsIndex =>
    if lhsIndex < (st.read o.Vector).len ∧ rhsIndex < (st.read rhs.Vector).len then do
      let lhsValue ← (st.read o.Vector).get lhsIndex
      let rhsValue ← (st.read rhs.Vector).get rhsIndex
      let compareRes := o.compare lhsValue rhsValue
      if (o.kind = OrderKindIncreasing ∧ compareRes ≤ 0) ∨
          (o.kind = OrderKindDecreasing ∧ compareRes ≥ 0) then
        OrderRef.mergeLoop o rhs ret fuel
          (st.write ret.Vector ((st.read ret.Vector).append [lhsValue])) (lhsIndex + 1) rhsIndex
      else
        OrderRef.mergeLoop o rhs ret fuel
          (st.write ret.Vector ((st.read ret.Vector).append [rhsValue])) lhsIndex (rhsIndex + 1)
    else pure (st, lhsIndex, rhsIndex)

/-- Embeds `OrderImpl.merge` on a store: the store after the call and the pointer to the
new order. -/
def OrderRef.merge {T : Type} (o rhs : OrderRef T) (st : Store T) :
    Except Error (Store T × OrderRef T) := do
  let ret := (st.NewOrder o.compare o.kind).2
  let st := (st.NewOrder o.compare o.kind).1
  let r ← OrderRef.mergeLoop o rhs ret ((st.read o.Vector).len + (st.read rhs.Vector).len)
    st 0 0
  let st := r.1
  let lhsIndex := r.2.1
  let rhsIndex := r.2.2
  if lhsIndex < (st.read o.Vector).len then
    pure (st.write ret.Vector
      ((st.read ret.Vector).append ((st.read o.Vector).Data.drop lhsIndex)), ret)
  else if rhsIndex < (st.read rhs.Vector).len then
    pure (st.write ret.Vector
      ((st.read ret.Vector).append ((st.read rhs.Vector).Data.drop rhsIndex)), ret)
  else pure (st, ret)

/-- Embeds `OrderImpl.Merge` on a store. -/
def OrderRef.Merge {T : Type} (o rhs : OrderRef T) (st : Store T) :
    Except Error (Store T × OrderRef T) :=
  o.merge rhs st

/-- The loop of `OrderImpl.combine` on a store: each iteration reads the operands through
their pointers and appends to the sequence of `ret`. -/
def OrderRef.combineLoop {T : Type} (o rhs ret : OrderRef T) :
    Nat → Store T → Nat → Nat → Option T → Except Error (Store T × Nat × Nat × Option T)
  | 0, st, lhsIndex, rhsIndex, prevValue => pure (st, lhsIndex, rhsIndex, prevValue)
  | fuel + 1, st, lhsIndex, rhsIndex, prevValue =>
    if lhsIndex < (st.read o.Vector).len ∧ rhsIndex < (st.read rhs.Vector).len then do
      let lhsValue ← (st.read o.Vector).get lhsIndex
      let rhsValue ← (st.read rhs.Vector).get rhsIndex
      let compareRes := o.compare lhsValue rhsValue
      if (o.kind = OrderKindIncreasing ∧ compareRes ≤ 0) ∨
          (o.kind = OrderKindDecreasing ∧ compareRes ≥ 0) then
        if (o.deref st).differsFromPrev prevValue lhsValue then
          OrderRef.combineLoop o rhs ret fuel
            (st.write ret.Vector ((st.read ret.Vector).append [lhsValue]))
            (lhsIndex + 1) rhsIndex (some lhsValue)
        else
          OrderRef.combineLoop o rhs ret fuel st (lhsIndex + 1) rhsIndex prevValue
      else
        if (o.deref st).differsFromPrev prevValue rhsValue then
          OrderRef.combineLoop o rhs ret fuel
            (st.write ret.Vector ((st.read ret.Vector).append [rhsValue]))
            lhsIndex (rhsIndex + 1) (some rhsValue)
        else
          OrderRef.combineLoop o rhs ret fuel st lhsIndex (rhsIndex + 1) prevValue
    else pure (st, lhsIndex, rhsIndex, prevValue)

/-- The body of the `range rest` loop of `OrderImpl.combine` on a store, on the state
`(prevValue, store)`. -/
def OrderRef.restStep {T : Type} (o ret : OrderRef T) (acc : Option T × Store T)
    (restValue : T) : Option T × Store T :=
  if (o.deref acc.2).differsFromPrev acc.1 restValue then
    (some restValue, acc.2.write ret.Vector ((acc.2.read ret.Vector).append [restValue]))
  else acc

/-- Embeds `OrderImpl.combine` on a store: the store after the call and the pointer to the
new order. -/
def OrderRef.combine {T : Type} (o rhs : OrderRef T) (st : Store T) :
    Except Error (Store T × OrderRef T) := do
  let ret := (st.NewOrder o.compare o.kind).2
  let st := (st.NewOrder o.compare o.kind).1
  let r ← OrderRef.combineLoop o rhs ret ((st.read o.Vector).len + (st.read rhs.Vector).len)
    st 0 0 none
  let st := r.1
  let lhsIndex := r.2.1
  let rhsIndex := r.2.2.1
  let prevValue := r.2.2.2
  let rest : List T :=
    if lhsIndex ≥ (st.read o.Vector).len ∧ rhsIndex < (st.read rhs.Vector).len then
      (st.read rhs.Vector).Data.drop rhsIndex
    else if rhsIndex ≥ (st.read rhs.Vector).len ∧ lhsIndex < (st.read o.Vector).len then
      (st.read o.Vector).Data.drop lhsIndex
    else []
  let fin := rest.foldl (OrderRef.restStep o ret) (prevValue, st)
  pure (fin.2, ret)

/-- Embeds `OrderImpl.Combine` on a store. -/
def OrderRef.Combine {T : Type} (o rhs : OrderRef T) (st : Store T) :
    Except Error (Store T × OrderRef T) :=
  o.combine rhs st

/-- Embeds `SetImpl.add` through a pointer: the method reads and writes the sequence of its
receiver only, so the store after the call holds, under the receiver's pointer, the sequence
`SetImpl.add` leaves. -/
def SetRef.add {T : Type} (s : SetRef T) (values : List T) (st : Store T) :
    Except Error (Store T × Nat) := do
  let r ← (s.deref st).add values
  pure (st.write s.Order.Vector r.1.Order.Vector, r.2)

/-- Embeds `SetImpl.Union` on a store: `NewSet` makes the result with a sequence of its own,
then its `Order` is replaced by the order `combine` builds. -/
def SetRef.Union {T : Type} (s rhs : SetRef T) (st : Store T) :
    Except Error (Store T × SetRef T) := do
  let ret := (st.NewSet s.compare).2
  let st := (st.NewSet s.compare).1
  let r ← s.Order.combine rhs.Order st
  pure (r.1, { ret with Order := r.2 })

/-- Embeds `SetImpl.LeftDifference` on a store. -/
def SetRef.LeftDifference {T : Type} (s rhs : SetRef T) (st : Store T) :
    Except Error (Store T × SetRef T) := do
  let ret := (st.NewSet s.compare).2
  let st := (st.NewSet s.compare).1
  let values ← collect (rhs.Order.deref st) false [] (s.deref st).Data
  let r ← ret.add values st
  pure (r.1, ret)

/-- Embeds `SetImpl.RightDifference` on a store. -/
def SetRef.RightDifference {T : Type} (s rhs : SetRef T) (st : Store T) :
    Except Error (Store T × SetRef T) := do
  let ret := (st.NewSet s.compare).2
  let st := (st.NewSet s.compare).1
  let values ← collect (s.Order.deref st) false [] (rhs.deref st).Data
  let r ← ret.add values st
  pure (r.1, ret)

/-- Embeds `SetImpl.Intersection` on a store. -/
def SetRef.Intersection {T : Type} (s rhs : SetRef T) (st : Store T) :
    Except Error (Store T × SetRef T) := do
  let ret := (st.NewSet s.compare).2
  let st := (st.NewSet s.compare).1
  let values ← collect (s.Order.deref st) true [] (rhs.deref st).Data
  let values ← collect (rhs.Order.deref st) true values (s.deref st).Data
  let r ← ret.add values st
  pure (r.1, ret)

/-- The store of the set tests: the sequences `[1,2,3,4,5]` and `[4,5,6,7,8]`. -/
def testStore : Store Int := ⟨[⟨[1, 2, 3, 4, 5]⟩, ⟨[4, 5, 6, 7, 8]⟩]⟩

/-- The pointer to the order over the first sequence of `testStore`. -/
def testOrderRef0 : OrderRef Int := ⟨0, CompareNumber, OrderKindIncreasing⟩

/-- The pointer to the order over the second sequence of `testStore`. -/
def testOrderRef1 : OrderRef Int := ⟨1, CompareNumber, OrderKindIncreasing⟩

/-- The pointer to the set over the first sequence of `testStore`. -/
def testSetRef0 : SetRef Int := ⟨testOrderRef0, CompareNumber⟩

/-- The pointer to the set over the second sequence of `testStore`. -/
def testSetRef1 : SetRef Int := ⟨testOrderRef1, CompareNumber⟩

/-! ## Sequence accessors -/

/-- Embeds `Impl.first`: panics with `ErrEmptyVector` on empty storage. -/
def Impl.first {T : Type} (v : Impl T) : Except Error T :=
  match v.data with
  | [] => .error .ErrEmptyVector
  | x :: _ => .ok x

/-- Embeds `Impl.set`: panics with `ErrIndexOutOfRange` when `int(index) > len(v.data)-1`,
otherwise assigns `v.data[index]` (a runtime panic outside the length); the pair is the
outcome and the storage after the call. -/
def Impl.set {T : Type} (v : Impl T) (index : Nat) (value : T) : Except Error Unit × Impl T :=
  if intOfUint index > (v.data.length : Int) - 1 then (.error .ErrIndexOutOfRange, v)
  else if index < v.data.length then (.ok (), ⟨v.data.set index value⟩)
  else (.error .RuntimeIndexOutOfRange, v)

/-- Embeds `Impl.Set`. -/
def Impl.Set {T : Type} (v : Impl T) (index : Nat) (value : T) : Except Error Unit × Impl T :=
  v.set index value

/-- Embeds `Impl.Get`. -/
def Impl.Get {T : Type} (v : Impl T) (index : Nat) : Except Error T :=
  v.get index


/-- The position the specification gives to a value added to an order with data `d`: the
first index whose element compares greater than the value (ascending) or less than the value
(descending), the length of `d` when there is none. -/
def OrderImpl.addPosition {T : Type} (o : OrderImpl T) (value : T) : Nat :=
  o.Data.findIdx (fun x => decide ((o.kind = OrderKindIncreasing ∧ o.compare x value > 0) ∨
    (o.kind = OrderKindDecreasing ∧ o.compare x value < 0)))


/-! ## Iteration over a sequence -/

/-- The loop `for index, value := range v.data` of `Impl.xrange` from position `index` on
the remaining values.  The callback is a closure: `σ` is the state it captures, a call
returns the state after it and the error (`none` for `nil`).  The callback does not touch
the sequence it ranges over. -/
def Impl.xrangeLoop {T σ E : Type} (callback : σ → Nat → T → σ × Option E) :
    Nat → List T → σ → σ × Option E
  | _, [], s => (s, none)
  | index, value :: rest, s =>
    match callback s index value with
    | (s2, some err) => (s2, some err)
    | (s2, none) => Impl.xrangeLoop callback (index + 1) rest s2

/-- Embeds `Impl.xrange`: the state of the callback after the call and the returned error. -/
def Impl.xrange {T σ E : Type} (v : Impl T) (callback : σ → Nat → T → σ × Option E) (s : σ) :
    σ × Option E :=
  Impl.xrangeLoop callback 0 v.data s

/-- Embeds `Impl.Range`. -/
def Impl.Range {T σ E : Type} (v : Impl T) (callback : σ → Nat → T → σ × Option E) (s : σ) :
    σ × Option E :=
  v.xrange callback s

/-- A callback that behaves as `callback` and also records each call it receives: the
index, the value and the error it returned. -/
def recordCalls {T σ E : Type} (callback : σ → Nat → T → σ × Option E) :
    σ × List (Nat × T × Option E) → Nat → T → (σ × List (Nat × T × Option E)) × Option E :=
  fun st index value =>
    (((callback st.1 index value).1, st.2 ++ [(index, value, (callback st.1 index value).2)]),
      (callback st.1 index value).2)

/-- The callbacks of the iteration test: both check nothing here and count their calls; the
first returns `nil`, the second returns an error. -/
def countingCallback (fail : Bool) : Nat → Nat → Int → Nat × Option String :=
  fun counter _ _ => (counter + 1, if fail then some "error" else none)


/-! ## priorityqueue.go -/

/-- Embeds `PriorityQueueOrder`, a test on two priorities. -/
abbrev PriorityQueueOrder := Int → Int → Bool

/-- Embeds `PriorityQueueOrderDirect`: `lhs > rhs`. -/
def PriorityQueueOrderDirect : PriorityQueueOrder := fun lhs rhs => decide (lhs > rhs)

/-- Embeds `PriorityQueueOrderReverse`: `lhs < rhs`. -/
def PriorityQueueOrderReverse : PriorityQueueOrder := fun lhs rhs => decide (lhs < rhs)

/-- Embeds `PriorityQueueOrderDefault`. -/
def PriorityQueueOrderDefault : PriorityQueueOrder := PriorityQueueOrderDirect

/-- Embeds `PriorityQueueElement[T]`. -/
structure PriorityQueueElement (T : Type) where
  /-- The priority, a Go `int`; priorities are only compared. -/
  Priority : Int
  /-- The value. -/
  Value : T

/-- Embeds `PriorityQueueImpl[T]`. -/
structure PriorityQueueImpl (T : Type) where
  /-- The backing sequence. -/
  Vector : Impl (PriorityQueueElement T)
  /-- The order of the priorities. -/
  prioritiesComparator : PriorityQueueOrder

/-- Embeds `NewPriorityQueue` (and `MakePriorityQueue`). -/
def NewPriorityQueue {T : Type} : PriorityQueueImpl T :=
  ⟨NewVector, PriorityQueueOrderDefault⟩

/-- Embeds `PriorityQueueImpl.WithOrder`: a queue on the same sequence with another order. -/
def PriorityQueueImpl.WithOrder {T : Type} (pq : PriorityQueueImpl T)
    (order : PriorityQueueOrder) : PriorityQueueImpl T :=
  ⟨pq.Vector, order⟩

/-- Embeds `PriorityQueueImpl.len`. -/
def PriorityQueueImpl.len {T : Type} (pq : PriorityQueueImpl T) : Nat := pq.Vector.len

/-- Embeds `PriorityQueueImpl.Len`. -/
def PriorityQueueImpl.Len {T : Type} (pq : PriorityQueueImpl T) : Nat := pq.len

/-- Embeds `PriorityQueueImpl.empty`. -/
def PriorityQueueImpl.empty {T : Type} (pq : PriorityQueueImpl T) : Bool :=
  decide (pq.Vector.len = 0)

/-- Embeds `PriorityQueueImpl.Empty`. -/
def PriorityQueueImpl.Empty {T : Type} (pq : PriorityQueueImpl T) : Bool := pq.empty

/-- The loop `for index := 0; index < pq.Vector.len(); index++` of `enqueue` from `index`
on: `some` of the sequence after the insertion when the body returned, `none` when the loop
ended without returning.  The first argument bounds the number of iterations. -/
def PriorityQueueImpl.enqueueLoop {T : Type} (pq : PriorityQueueImpl T)
    (newElement : PriorityQueueElement T) :
    Nat → Nat → Except Error (Option (Impl (PriorityQueueElement T)))
  | 0, _ => pure none
  | fuel + 1, index =>
    if index < pq.Vector.len then do
      let x ← pq.Vector.get index
      if pq.prioritiesComparator newElement.Priority x.Priority then
        match pq.Vector.insert index [newElement] with
        | (.ok _, v) => pure (some v)
        | (.error e, _) => throw e
      else PriorityQueueImpl.enqueueLoop pq newElement fuel (index + 1)
    else pure none

/-- Embeds `PriorityQueueImpl.enqueue`: the scan, then the append when the scan found no
position.  The index grows by one per iteration up to the length, so `len` iterations (and
the final test) are enough. -/
def PriorityQueueImpl.enqueue {T : Type} (pq : PriorityQueueImpl T) (priority : Int)
    (value : T) : Except Error (PriorityQueueImpl T) := do
  let newElement : PriorityQueueElement T := ⟨priority, value⟩
  match ← pq.enqueueLoop newElement (pq.Vector.len + 1) 0 with
  | some v => pure { pq with Vector := v }
  | none => pure { pq with Vector := pq.Vector.append [newElement] }

/-- Embeds `PriorityQueueImpl.Enqueue`. -/
def PriorityQueueImpl.Enqueue {T : Type} (pq : PriorityQueueImpl T) (priority : Int)
    (value : T) : Except Error (PriorityQueueImpl T) :=
  pq.enqueue priority value

/-- Embeds `PriorityQueueImpl.dequeue`: the outcome and the queue after the call. -/
def PriorityQueueImpl.dequeue {T : Type} (pq : PriorityQueueImpl T) :
    Except Error T × PriorityQueueImpl T :=
  if pq.empty then (.error .ErrEmptyPriorityQueue, pq)
  else
    match pq.Vector.first with
    | .error e => (.error e, pq)
    | .ok x =>
      match pq.Vector.remove 0 with
      | (.ok _, v) => (.ok x.Value, { pq with Vector := v })
      | (.error e, v) => (.error e, { pq with Vector := v })

/-- Embeds `PriorityQueueImpl.Dequeue`. -/
def PriorityQueueImpl.Dequeue {T : Type} (pq : PriorityQueueImpl T) :
    Except Error T × PriorityQueueImpl T :=
  pq.dequeue

/-- Runs a sequence of `Enqueue(priority, value)` calls. -/
def runEnqueues {T : Type} (pq : PriorityQueueImpl T) (calls : List (Int × T)) :
    Except Error (PriorityQueueImpl T) :=
  calls.foldlM (fun q c => q.Enqueue c.1 c.2) pq

/-- The client loop `for !pq.Empty() { out = append(out, pq.Dequeue()) }`: the values
dequeued and the queue left.  The first argument bounds the number of iterations. -/
def PriorityQueueImpl.drainLoop {T : Type} :
    Nat → PriorityQueueImpl T → Except Error (List T × PriorityQueueImpl T)
  | 0, pq => pure ([], pq)
  | fuel + 1, pq =>
    if pq.Empty then pure ([], pq)
    else
      match pq.Dequeue with
      | (.ok x, pq2) => do
        let r ← PriorityQueueImpl.drainLoop fuel pq2
        pure (x :: r.1, r.2)
      | (.error e, _) => throw e

/-- Drains a queue with `Dequeue`; each call removes one element, so `Len()` iterations are
enough (the queue left is then empty, see `PriorityQueueImpl.drain_spec`). -/
def PriorityQueueImpl.drain {T : Type} (pq : PriorityQueueImpl T) :
    Except Error (List T × PriorityQueueImpl T) :=
  PriorityQueueImpl.drainLoop pq.Len pq

/-- The place `enqueue` gives a new element in the data: before the first element the order
puts it ahead of, at the end when there is none. -/
def enqueuePlace {T : Type} (ord : PriorityQueueOrder) (newElement : PriorityQueueElement T) :
    List (PriorityQueueElement T) → List (PriorityQueueElement T)
  | [] => [newElement]
  | x :: xs =>
    if ord newElement.Priority x.Priority then newElement :: x :: xs
    else x :: enqueuePlace ord newElement xs

/-- The `Enqueue` calls of the priority queue tests. -/
def testEnqueues : List (Int × Int) :=
  [(1, 20), (2, 30), (0, 10), (0, 11), (0, 12), (1, 21), (2, 31), (1, 22)]


/-- What the scan of `enqueue` needs from an order of priorities: no priority is ahead of
itself, and a priority that is not ahead of `b` is not ahead of one that is ahead of `b`. -/
def PriorityOrderOK (ord : PriorityQueueOrder) : Prop :=
  (∀ a, ord a a = false) ∧ (∀ a b c, ord a b = true → ord c b = false → ord c a = false)

/-- The data of a priority queue is in order: no element has a later element whose priority
the order puts ahead of its own. -/
def PrioritySorted {T : Type} (ord : PriorityQueueOrder) (d : List (PriorityQueueElement T)) :
    Prop :=
  d.Pairwise (fun a b => ord b.Priority a.Priority = false)

/-- The element an `Enqueue(priority, value)` call creates. -/
def callElement {T : Type} (c : Int × T) : PriorityQueueElement T := ⟨c.1, c.2⟩

/-- The elements of a given priority, in the order of the list. -/
def withPriority {T : Type} (p : Int) (d : List (PriorityQueueElement T)) :
    List (PriorityQueueElement T) :=
  d.filter (fun e => decide (e.Priority = p))


/-- An order with every element marked with the operand it belongs to (`true` for the
receiver of a binary operation, `false` for the argument); the comparator sees the element
only, so the operations run on the marked order as on the order itself. -/
def OrderImpl.tagged {T : Type} (o : OrderImpl T) (left : Bool) : OrderImpl (T × Bool) :=
  ⟨⟨o.Vector.data.map (fun x => (x, left))⟩, fun x y => o.compare x.1 y.1, o.kind⟩


/-! ## Binary operations under real locks

With a `sync.Mutex` injected as the locker of each container, a call of an exported binary
operation is the sequence of its lock operations around its lock-free body; concurrent calls
interleave these steps. -/

/-- The two containers of the scenario, each with its own mutex. -/
inductive Container where
  /-- The container `A`. -/
  | A
  /-- The container `B`. -/
  | B
  deriving DecidableEq, Repr

/-- A step of an exported binary operation: `Lock()` or `Unlock()` on the mutex of a
container, or the lock-free body. -/
inductive CallStep where
  /-- The call `c.Vector.Locker().Lock()`. -/
  | Lock (c : Container)
  /-- The call `c.Vector.Locker().Unlock()`. -/
  | Unlock (c : Container)
  /-- The lock-free variant, `o.combine(rhs)`. -/
  | Body
  deriving DecidableEq, Repr

/-- Embeds the exported `OrderImpl.Combine` as the steps of `o.Combine(rhs)`:
`o.Vector.Locker().Lock()`, `rhs.Vector.Locker().Lock()`, the body `o.combine(rhs)`, then
the deferred `rhs.Vector.Locker().Unlock()` and `o.Vector.Locker().Unlock()`.  `Merge` and
the binary operations of sets take and release the locks in the same way. -/
def CombineCall (o rhs : Container) : List CallStep :=
  [.Lock o, .Lock rhs, .Body, .Unlock rhs, .Unlock o]

/-- The state of concurrent calls: the mutexes that are locked and, for each goroutine, the
steps of its call still to run. -/
structure RunState where
  /-- The containers whose mutex is locked. -/
  held : List Container
  /-- The remaining steps of each goroutine. -/
  calls : List (List CallStep)
  deriving DecidableEq, Repr

/-- One step of goroutine `t` under `sync.Mutex`: `Lock` proceeds only when the mutex is not
locked and locks it, `Unlock` unlocks it; `none` when the goroutine has finished or is blocked
in `Lock`. -/
def RunState.step (s : RunState) (t : Nat) : Option RunState :=
  match s.calls[t]? with
  | none => none
  | some [] => none
  | some (.Lock c :: rest) =>
    if c ∈ s.held then none else some ⟨c :: s.held, s.calls.set t rest⟩
  | some (.Unlock c :: rest) => some ⟨s.held.erase c, s.calls.set t rest⟩
  | some (.Body :: rest) => some ⟨s.held, s.calls.set t rest⟩

/-- Runs a schedule, the list of the goroutines that take the successive steps; `none` when
the schedule picks a goroutine that cannot step. -/
def RunState.run (s : RunState) : List Nat → Option RunState
  | [] => some s
  | t :: ts => (s.step t).bind (fun s2 => s2.run ts)

/-- Every call has completed. -/
def RunState.finished (s : RunState) : Bool := s.calls.all List.isEmpty

/-- A deadlock: some call has not completed and no goroutine can step. -/
def RunState.deadlocked (s : RunState) : Bool :=
  !s.finished && (List.range s.calls.length).all (fun t => (s.step t).isNone)

/-- Concurrent `A.Combine(B)` and `B.Combine(A)` before their first step. -/
def crossedCalls : RunState :=
  ⟨[], [CombineCall .A .B, CombineCall .B .A]⟩

/-- Two concurrent calls `A.Combine(B)` before their first step. -/
def alignedCalls : RunState :=
  ⟨[], [CombineCall .A .B, CombineCall .A .B]⟩

/-- The states one step away. -/
def RunState.successors (s : RunState) : List RunState :=
  (List.range s.calls.length).filterMap s.step

/-- The states at most `n` steps away, by breadth-first search. -/
def RunState.within (s : RunState) : Nat → List RunState
  | 0 => [s]
  | n + 1 => ((s.within n).foldl (fun acc u => acc ++ u.successors) (s.within n)).dedup

/-- Lets the first goroutine that can step take a step, `n` times. -/
def RunState.advance : Nat → RunState → RunState
  | 0, s => s
  | n + 1, s =>
    match (List.range s.calls.length).find? (fun t => (s.step t).isSome) with
    | none => s
    | some t =>
      match s.step t with
      | none => s
      | some s2 => RunState.advance n s2


/-! ## sort.SliceStable (Go standard library)

The stable sort `Reversed` calls: `stable_func` of package `sort` with its helpers.  The
slice is a list, `data.Swap` is `swapAt`, and `data.Less` is a test on two positions that may
read the slice as it stands.  Positions are `Nat`: on a call with `a ≤ m ≤ b` no difference
the source computes is negative. -/

/-- The swap function `reflectlite.Swapper` builds: exchanges two elements, and panics
outside the slice. -/
def swapAt {T : Type} (data : List T) (i j : Nat) : Except Error (List T) :=
  match data[i]?, data[j]? with
  | some x, some y => .ok ((data.set i y).set j x)
  | _, _ => .error .RuntimeIndexOutOfRange

/-- The inner loop of `insertionSort_func`,
`for j := i; j > a && data.Less(j, j-1); j-- { data.Swap(j, j-1) }`, from `j` on. -/
def insertionInner {T : Type} (less : List T → Nat → Nat → Bool) (a : Nat) :
    Nat → List T → Except Error (List T)
  | 0, data => pure data
  | j + 1, data =>
    if j + 1 > a ∧ less data (j + 1) j = true then do
      let data ← swapAt data (j + 1) j
      insertionInner less a j data
    else pure data

/-- Embeds `insertionSort_func(data, a, b)`: `for i := a + 1; i < b; i++` around the inner
loop. -/
def insertionSort_func {T : Type} (less : List T → Nat → Nat → Bool) (a b : Nat)
    (data : List T) : Except Error (List T) :=
  (List.range' (a + 1) (b - (a + 1))).foldlM (fun d i => insertionInner less a i d) data

/-- Embeds `swapRange_func(data, a, b, n)`:
`for i := 0; i < n; i++ { data.Swap(a+i, b+i) }`. -/
def swapRange_func {T : Type} (a b n : Nat) (data : List T) : Except Error (List T) :=
  (List.range n).foldlM (fun d i => swapAt d (a + i) (b + i)) data

/-- The loop `for i != j` of `rotate_func` on the state `(i, j, data)`; it returns the final
`i` and the slice.  The first argument bounds the number of iterations. -/
def rotateLoop {T : Type} (m : Nat) : Nat → Nat → Nat → List T → Except Error (Nat × List T)
  | 0, i, _, data => pure (i, data)
  | fuel + 1, i, j, data =>
    if i ≠ j then
      if i > j then do
        let data ← swapRange_func (m - i) m j data
        rotateLoop m fuel (i - j) j data
      else do
        let data ← swapRange_func (m - i) (m + j - i) i data
        rotateLoop m fuel i (j - i) data
    else pure (i, data)

/-- Embeds `rotate_func(data, a, m, b)`: `i := m - a; j := b - m`, the loop, then
`swapRange_func(data, m-i, m, i)`.  With both blocks non-empty `i + j` decreases in every
iteration, so `b - a` iterations are enough. -/
def rotate_func {T : Type} (a m b : Nat) (data : List T) : Except Error (List T) := do
  let r ← rotateLoop m (b - a) (m - a) (b - m) data
  swapRange_func (m - r.1) m r.1 r.2

/-- Embeds `symMerge_func(data, a, m, b)`.  The three binary searches of the source have the
loop of `sort.Search` and are run with `searchLoop`; the loops
`for k := a; k < i-1; k++ { data.Swap(k, k+1) }` and
`for k := m; k > i; k-- { data.Swap(k, k-1) }` are folds over their positions.  The first
argument bounds the depth of the recursion. -/
def symMerge_func {T : Type} (less : List T → Nat → Nat → Bool) :
    Nat → Nat → Nat → Nat → List T → Except Error (List T)
  | 0, _, _, _, data => pure data
  | fuel + 1, a, m, b, data =>
    if m - a = 1 then do
      let i ← searchLoop (fun h => pure (!less data h a)) (b - m) m b
      (List.range' a (i - 1 - a)).foldlM (fun d k => swapAt d k (k + 1)) data
    else if b - m = 1 then do
      let i ← searchLoop (fun h => pure (less data m h)) (m - a) a m
      (List.range' (i + 1) (m - i)).reverse.foldlM (fun d k => swapAt d k (k - 1)) data
    else do
      let mid := (a + b) / 2
      let n := mid + m
      let sr : Nat × Nat := if m > mid then (n - b, mid) else (a, m)
      let p := n - 1
      let start ← searchLoop (fun c => pure (less data (p - c) c)) (sr.2 - sr.1) sr.1 sr.2
      let endIndex := n - start
      let data ← if start < m ∧ m < endIndex then rotate_func start m endIndex data
        else pure data
      let data ← if a < start ∧ start < mid then symMerge_func less fuel a start mid data
        else pure data
      if mid < endIndex ∧ endIndex < b then symMerge_func less fuel mid endIndex b data
      else pure data

/-- The first loop of `stable_func`,
`for b <= n { insertionSort_func(data, a, b); a = b; b += blockSize }`; it returns the final
`a` and the slice.  The first argument bounds the number of iterations. -/
def stableBlocks {T : Type} (less : List T → Nat → Nat → Bool) (blockSize n : Nat) :
    Nat → Nat → Nat → List T → Except Error (Nat × List T)
  | 0, a, _, data => pure (a, data)
  | fuel + 1, a, b, data =>
    if b ≤ n then do
      let data ← insertionSort_func less a b data
      stableBlocks less blockSize n fuel b (b + blockSize) data
    else pure (a, data)

/-- The inner loop of the second phase of `stable_func`,
`for b <= n { symMerge_func(data, a, a+blockSize, b); a = b; b += 2 * blockSize }`; it
returns the final `a` and the slice.  A call of `symMerge_func` on `[a, b)` recurses on
shorter ranges only, so the depth `b - a` is enough. -/
def stableMerges {T : Type} (less : List T → Nat → Nat → Bool) (blockSize n : Nat) :
    Nat → Nat → Nat → List T → Except Error (Nat × List T)
  | 0, a, _, data => pure (a, data)
  | fuel + 1, a, b, data =>
    if b ≤ n then do
      let data ← symMerge_func less (b - a) a (a + blockSize) b data
      stableMerges less blockSize n fuel b (b + 2 * blockSize) data
    else pure (a, data)

/-- The outer loop of the second phase of `stable_func`:
`for blockSize < n { a, b = 0, 2*blockSize; ...; if m := a + blockSize; m < n {
symMerge_func(data, a, m, n) }; blockSize *= 2 }`. -/
def stablePasses {T : Type} (less : List T → Nat → Nat → Bool) (n : Nat) :
    Nat → Nat → List T → Except Error (List T)
  | 0, _, data => pure data
  | fuel + 1, blockSize, data =>
    if blockSize < n then do
      let r ← stableMerges less blockSize n n 0 (2 * blockSize) data
      let a := r.1
      let m := a + blockSize
      let data ← if m < n then symMerge_func less (n - a) a m n r.2 else pure r.2
      stablePasses less n fuel (blockSize * 2) data
    else pure data

/-- Embeds `stable_func(data, n)`: insertion sort on blocks of 20, then passes of
`symMerge_func` on blocks of doubling size.  Every loop advances by at least one position or
doubles the block size in each iteration, so `n` iterations are enough for each. -/
def stable_func {T : Type} (less : List T → Nat → Nat → Bool) (n : Nat) (data : List T) :
    Except Error (List T) := do
  let blockSize := 20
  let r ← stableBlocks less blockSize n n 0 blockSize data
  let data ← insertionSort_func less r.1 n r.2
  stablePasses less n n blockSize data

/-- Embeds `sort.SliceStable(x, less)`. -/
def SliceStable {T : Type} (x : List T) (less : List T → Nat → Nat → Bool) :
    Except Error (List T) :=
  stable_func less x.length x

/-- The test `func(i, j int) bool { return i > j }` that `Reversed` passes to
`sort.SliceStable`: it compares the positions and does not read the slice. -/
def reversedLess {T : Type} : List T → Nat → Nat → Bool := fun _ i j => decide (i > j)

/-- Embeds `Impl.Reversed`: the data is appended to a new slice, the slice is sorted
with `sort.SliceStable` under the test `i > j`, and appended to a new sequence. -/
def Impl.Reversed {T : Type} (v : Impl T) : Except Error (Impl T) := do
  let newData : List T := [] ++ v.Data
  let newData ← SliceStable newData reversedLess
  pure ((NewVector : Impl T).append newData)

/-- Embeds `Impl.Reversed` in a store, the receiver held through the pointer `v`: the new
sequence is allocated in the store and its pointer returned. -/
def Store.Reversed {T : Type} (st : Store T) (v : Nat) : Except Error (Store T × Nat) := do
  let newData : List T := [] ++ (st.read v).Data
  let newData ← SliceStable newData reversedLess
  let r := st.NewVector
  pure (r.1.write r.2 ((r.1.read r.2).append newData), r.2)

/-- The data in blocks of `s` elements, each block reversed in place (the last block may
be shorter). -/
def revBlocks {T : Type} (s : Nat) (l : List T) : List T :=
  if l.length ≤ s ∨ s = 0 then l.reverse
  else (l.take s).reverse ++ revBlocks s (l.drop s)
termination_by l.length
decreasing_by
  simp only [List.length_drop]
  omega

/-- A comparison of the elements at two positions by their first component, for running the
stable sort on keyed values. -/
def keyLess : List (Int × Int) → Nat → Nat → Bool :=
  fun d i j =>
    match d[i]?, d[j]? with
    | some x, some y => decide (x.1 < y.1)
    | _, _ => false

/-- The values 1 to 25 in order, more than one block of the stable sort. -/
def oneTo25 : List Int :=
  [1, 2, 3, 4, 5, 6, 7, 8, 9, 10, 11, 12, 13, 14, 15, 16, 17, 18, 19, 20, 21, 22, 23, 24, 25]


/-- Follows the specification of `Combine`, not the source: the values filtered left to
right, dropping every value that compares equal to the last value kept. -/
def suppressEqualToLastKept {T : Type} (cmp : CompareFunc T) (values : List T) : List T :=
  values.foldl (fun kept x =>
    match kept.getLast? with
    | none => kept ++ [x]
    | some last => if cmp last x = 0 then kept else kept ++ [x]) []


/-! ## Basic facts -/

theorem dirCmp_inc {T : Type} (cmp : CompareFunc T) (a b : T) :
    dirCmp OrderKindIncreasing cmp a b = cmp a b := by
  simp [dirCmp, OrderKindIncreasing]

theorem dirCmp_dec {T : Type} (cmp : CompareFunc T) (a b : T) :
    dirCmp OrderKindDecreasing cmp a b = -cmp a b := by
  simp [dirCmp, OrderKindDecreasing]

theorem IsTotalOrder.refl {T : Type} {cmp : CompareFunc T} (hc : IsTotalOrder cmp) (a : T) :
    cmp a a = 0 := by
  have h := hc.antisymm a a
  omega

theorem IsTotalOrder.flip {T : Type} {cmp : CompareFunc T} (hc : IsTotalOrder cmp) (a b : T) :
    0 < cmp a b ↔ cmp b a < 0 := (hc.antisymm b a).symm

theorem IsTotalOrder.eq_comm {T : Type} {cmp : CompareFunc T} (hc : IsTotalOrder cmp)
    (a b : T) : cmp a b = 0 ↔ cmp b a = 0 := by
  have h1 := hc.antisymm a b
  have h2 := hc.antisymm b a
  omega

theorem IsTotalOrder.lt_of_lt_of_le {T : Type} {cmp : CompareFunc T} (hc : IsTotalOrder cmp)
    {a b c : T} (h1 : cmp a b < 0) (h2 : cmp b c ≤ 0) : cmp a c < 0 := by
  by_contra hn
  have h3 : cmp c a ≤ 0 := by
    have := hc.antisymm a c
    have := hc.antisymm c a
    omega
  have h4 := hc.trans b c a h2 h3
  have := hc.antisymm a b
  omega

theorem IsTotalOrder.lt_of_le_of_lt {T : Type} {cmp : CompareFunc T} (hc : IsTotalOrder cmp)
    {a b c : T} (h1 : cmp a b ≤ 0) (h2 : cmp b c < 0) : cmp a c < 0 := by
  by_contra hn
  have h3 : cmp c a ≤ 0 := by
    have := hc.antisymm a c
    have := hc.antisymm c a
    omega
  have h4 := hc.trans c a b h3 h1
  have := hc.antisymm b c
  omega

theorem IsTotalOrder.eq_trans {T : Type} {cmp : CompareFunc T} (hc : IsTotalOrder cmp)
    {a b c : T} (h1 : cmp a b = 0) (h2 : cmp b c = 0) : cmp a c = 0 := by
  have h3 := hc.trans a b c (by omega) (by omega)
  have h4 := hc.trans c b a (by have := hc.eq_comm b c; omega) (by have := hc.eq_comm a b; omega)
  have := hc.antisymm a c
  omega

theorem IsTotalOrder.dir {T : Type} {cmp : CompareFunc T} (hc : IsTotalOrder cmp)
    {kind : OrderKind} (hk : ValidKind kind) : IsTotalOrder (dirCmp kind cmp) := by
  rcases hk with h | h
  · subst h
    exact ⟨fun a b => by simpa [dirCmp_inc] using hc.antisymm a b,
      fun a b c => by simpa [dirCmp_inc] using hc.trans a b c⟩
  · subst h
    refine ⟨fun a b => ?_, fun a b c h1 h2 => ?_⟩
    · have := hc.antisymm a b
      have := hc.antisymm b a
      simp only [dirCmp_dec]
      omega
    · simp only [dirCmp_dec] at *
      have h3 : cmp c b ≤ 0 := by
        have := hc.antisymm c b
        have := hc.antisymm b c
        omega
      have h4 : cmp b a ≤ 0 := by
        have := hc.antisymm a b
        have := hc.antisymm b a
        omega
      have h5 := hc.trans c b a h3 h4
      have := hc.antisymm a c
      have := hc.antisymm c a
      omega

theorem intOfUint_le (i : Nat) : intOfUint i ≤ (i : Int) := by
  unfold intOfUint
  have h := Nat.mod_le i (2 ^ 64)
  split <;> omega

theorem intOfUint_small (i : Nat) (h : i < 2 ^ 63) : intOfUint i = (i : Int) := by
  unfold intOfUint
  have h1 : i % 2 ^ 64 = i := Nat.mod_eq_of_lt (by omega)
  rw [h1, if_pos h]

theorem Impl.get_ok {T : Type} (v : Impl T) (i : Nat) (h : i < v.data.length) :
    v.get i = .ok (v.data.get ⟨i, h⟩) := by
  unfold Impl.get
  have h0 := intOfUint_le i
  have h1 : ¬ (intOfUint i > (v.data.length : Int) - 1) := by omega
  rw [if_neg h1]
  simp [List.getElem?_eq_getElem h]

theorem Impl.insert_ok {T : Type} (v : Impl T) (i : Nat) (args : List T)
    (h : i ≤ v.data.length) :
    v.insert i args = (.ok (), ⟨v.data.take i ++ args ++ v.data.drop i⟩) := by
  unfold Impl.insert
  have hle := intOfUint_le i
  by_cases h0 : i = 0
  · simp [h0]
  · by_cases h1 : intOfUint i = (v.data.length : Int)
    · have e : i = v.data.length := by omega
      rw [if_neg h0, if_pos h1, e]
      simp
    · have h2 : ¬ intOfUint i > (v.data.length : Int) := by omega
      rw [if_neg h0, if_neg h1, if_neg h2, if_pos h]

/-- Extra iterations allowed to `searchLoop` do not change its result once the bound covers
`j - i`: the bound `n` used by `Search` never cuts the loop short. -/
theorem searchLoop_fuel (f : Nat → Except Error Bool) :
    ∀ (fuel i j extra : Nat), j - i ≤ fuel →
      searchLoop f (fuel + extra) i j = searchLoop f fuel i j := by
  intro fuel
  induction fuel with
  | zero =>
    intro i j extra h
    have hij : ¬ i < j := by omega
    cases extra with
    | zero => rfl
    | succ e => simp [searchLoop, hij]
  | succ fuel ih =>
    intro i j extra h
    have e : fuel + 1 + extra = (fuel + extra) + 1 := by omega
    rw [e]
    simp only [searchLoop]
    by_cases hij : i < j
    · simp only [if_pos hij]
      have h1 : j - ((i + j) / 2 + 1) ≤ fuel := by omega
      have h2 : (i + j) / 2 - i ≤ fuel := by omega
      rw [ih _ _ extra h1, ih _ _ extra h2]
    · simp [hij]

theorem searchLoop_spec (f : Nat → Except Error Bool) (p : Nat → Bool) (n : Nat)
    (hf : ∀ i, i < n → f i = .ok (p i))
    (hmono : ∀ i j, i ≤ j → j < n → p i = true → p j = true) :
    ∀ (fuel i j : Nat), i ≤ j → j ≤ n → j - i ≤ fuel →
      (∀ k, k < i → p k = false) → (∀ k, j ≤ k → k < n → p k = true) →
      ∃ k, searchLoop f fuel i j = .ok k ∧ k ≤ n ∧
        (∀ m, m < k → p m = false) ∧ (∀ m, k ≤ m → m < n → p m = true) := by
  intro fuel
  induction fuel with
  | zero =>
    intro i j hij hjn hfuel hlo hhi
    have e : i = j := by omega
    subst e
    exact ⟨i, rfl, hjn, hlo, hhi⟩
  | succ fuel ih =>
    intro i j hij hjn hfuel hlo hhi
    simp only [searchLoop]
    by_cases hlt : i < j
    · simp only [if_pos hlt]
      have hh : (i + j) / 2 < n := by omega
      rw [hf _ hh]
      cases hp : p ((i + j) / 2) with
      | false =>
        have := ih ((i + j) / 2 + 1) j (by omega) hjn (by omega)
          (fun k hk => by
            cases hpk : p k with
            | false => rfl
            | true =>
              have := hmono k ((i + j) / 2) (by omega) hh hpk
              rw [hp] at this
              exact absurd this (by simp))
          hhi
        simpa [bind, Except.bind] using this
      | true =>
        have := ih i ((i + j) / 2) (by omega) (by omega) (by omega) hlo
          (fun k hk hkn => hmono _ k hk hkn hp)
        simpa [bind, Except.bind] using this
    · have e : i = j := by omega
      subst e
      simp only [if_neg hlt]
      exact ⟨i, rfl, hjn, hlo, hhi⟩

theorem Search_spec (f : Nat → Except Error Bool) (p : Nat → Bool) (n : Nat)
    (hf : ∀ i, i < n → f i = .ok (p i))
    (hmono : ∀ i j, i ≤ j → j < n → p i = true → p j = true) :
    ∃ k, Search n f = .ok k ∧ k ≤ n ∧
      (∀ m, m < k → p m = false) ∧ (∀ m, k ≤ m → m < n → p m = true) :=
  searchLoop_spec f p n hf hmono n 0 n (Nat.zero_le _) (Nat.le_refl _) (by omega)
    (fun k hk => absurd hk (by omega)) (fun k hk hkn => absurd hkn (by omega))

/-- Binary search over the data of a sequence with a predicate on elements that, once true,
stays true along the data: the result splits the data into the elements failing the predicate
and the elements satisfying it. -/
theorem Search_data {T : Type} (d : List T) (f : Nat → Except Error Bool) (q : T → Bool)
    (hf : ∀ i (h : i < d.length), f i = .ok (q (d.get ⟨i, h⟩)))
    (hmono : d.Pairwise (fun a b => q a = true → q b = true)) :
    ∃ k, Search d.length f = .ok k ∧ k ≤ d.length ∧
      (∀ x ∈ d.take k, q x = false) ∧ (∀ x ∈ d.drop k, q x = true) := by
  have hp := List.pairwise_iff_getElem.mp hmono
  obtain ⟨k, hk, hkn, hlo, hhi⟩ := Search_spec f
    (fun i => match d[i]? with
      | some x => q x
      | none => true) d.length
    (fun i hi => by simp [hf i hi, List.getElem?_eq_getElem hi])
    (fun i j hij hj hpi => by
      have hi : i < d.length := by omega
      simp only [List.getElem?_eq_getElem hi, List.getElem?_eq_getElem hj] at hpi ⊢
      rcases Nat.lt_or_eq_of_le hij with h | h
      · exact hp i j hi hj h hpi
      · subst h
        exact hpi)
  refine ⟨k, hk, hkn, ?_, ?_⟩
  · intro x hx
    obtain ⟨i, hi, rfl⟩ := List.mem_take_iff_getElem.mp hx
    have hi2 : i < d.length := by omega
    have := hlo i (by omega)
    simpa [List.getElem?_eq_getElem hi2] using this
  · intro x hx
    obtain ⟨i, hi, rfl⟩ := List.mem_drop_iff_getElem.mp hx
    have hi2 : k + i < d.length := by omega
    have := hhi (k + i) (by omega) hi2
    simpa [List.getElem?_eq_getElem hi2] using this

/-- The search predicate of `add` on a valid direction: "the element is after `value`". -/
theorem OrderImpl.addPred_eq {T : Type} (o : OrderImpl T) (value : T) (hk : ValidKind o.kind)
    (i : Nat) (h : i < o.Vector.data.length) :
    (if o.kind = OrderKindIncreasing then do
        let x ← o.Vector.get i
        pure (decide (o.compare x value > 0))
      else if o.kind = OrderKindDecreasing then do
        let x ← o.Vector.get i
        pure (decide (o.compare x value < 0))
      else throw Error.UnsupportedOrderKind : Except Error Bool) =
    .ok (decide (0 < dirCmp o.kind o.compare (o.Vector.data.get ⟨i, h⟩) value)) := by
  rw [Impl.get_ok _ _ h]
  rcases hk with hk | hk
  · rw [if_pos hk, hk]
    simp only [dirCmp_inc]
    rfl
  · have hne : ¬ o.kind = OrderKindIncreasing := by
      rw [hk]
      decide
    rw [if_neg hne, if_pos hk, hk]
    simp only [dirCmp_dec]
    show Except.ok _ = Except.ok _
    congr 1
    simp only [decide_eq_decide]
    omega

/-- The search predicate of `firstIndexOf` on a valid direction: "the element is not before
`value`". -/
theorem OrderImpl.findPred_eq {T : Type} (o : OrderImpl T) (value : T) (hk : ValidKind o.kind)
    (i : Nat) (h : i < o.Vector.data.length) :
    (if o.kind = OrderKindIncreasing then do
        let x ← o.Vector.get i
        pure (decide (o.compare x value ≥ 0))
      else if o.kind = OrderKindDecreasing then do
        let x ← o.Vector.get i
        pure (decide (o.compare x value ≤ 0))
      else throw Error.UnsupportedOrderKind : Except Error Bool) =
    .ok (decide (0 ≤ dirCmp o.kind o.compare (o.Vector.data.get ⟨i, h⟩) value)) := by
  rw [Impl.get_ok _ _ h]
  rcases hk with hk | hk
  · rw [if_pos hk, hk]
    simp only [dirCmp_inc]
    rfl
  · have hne : ¬ o.kind = OrderKindIncreasing := by
      rw [hk]
      decide
    rw [if_neg hne, if_pos hk, hk]
    simp only [dirCmp_dec]
    show Except.ok _ = Except.ok _
    congr 1
    simp only [decide_eq_decide]
    omega

/-- One step of `add` on sorted data: the value is inserted at an index `k` with every
element before it not after the value and every element from `k` on after the value. -/
theorem OrderImpl.addStep_spec {T : Type} (o : OrderImpl T) (n : Nat) (value : T)
    (hc : IsTotalOrder o.compare) (hk : ValidKind o.kind)
    (hs : o.Vector.data.Pairwise (fun a b => dirCmp o.kind o.compare a b ≤ 0)) :
    ∃ k, k ≤ o.Vector.data.length ∧
      OrderImpl.addStep (o, n) value =
        .ok ({ o with Vector := ⟨o.Vector.data.take k ++ value :: o.Vector.data.drop k⟩ },
          n + 1) ∧
      (∀ x ∈ o.Vector.data.take k, dirCmp o.kind o.compare x value ≤ 0) ∧
      (∀ x ∈ o.Vector.data.drop k, 0 < dirCmp o.kind o.compare x value) := by
  have hd := hc.dir hk
  obtain ⟨k, hS, hkn, hlo, hhi⟩ := Search_data o.Vector.data _
    (fun x => decide (0 < dirCmp o.kind o.compare x value))
    (fun i h => o.addPred_eq value hk i h)
    (hs.imp (fun {a b} hab ha => by
      simp only [decide_eq_true_eq] at ha ⊢
      by_contra hn
      have := hd.trans a b value hab (by omega)
      omega))
  refine ⟨k, hkn, ?_, ?_, ?_⟩
  · unfold OrderImpl.addStep
    simp only [Impl.len]
    rw [hS]
    have hclamp : (if (k : Int) > (o.Vector.data.length : Int) - 1 then o.Vector.data.length
        else k) = k := by
      split <;> omega
    simp only [bind, Except.bind, hclamp, Impl.insert_ok _ _ _ hkn]
    simp [pure, Except.pure]
  · intro x hx
    have := hlo x hx
    simp only [decide_eq_false_iff_not] at this
    omega
  · intro x hx
    simpa using hhi x hx

theorem CompareNumber_total : IsTotalOrder CompareNumber := by
  refine ⟨fun a b => ?_, fun a b c => ?_⟩
  · unfold CompareNumber
    split_ifs <;> omega
  · unfold CompareNumber
    split_ifs <;> omega

/-- On a valid direction, respecting the direction is "not after" for the directed
comparator. -/
theorem adjOK_iff {T : Type} (cmp : CompareFunc T) {kind : OrderKind} (hk : ValidKind kind)
    (a b : T) : AdjOK cmp kind a b ↔ dirCmp kind cmp a b ≤ 0 := by
  rcases hk with hk | hk
  · subst hk
    simp only [AdjOK, dirCmp_inc]
    constructor
    · intro h
      exact h.1 trivial
    · intro h
      exact ⟨fun _ => h, fun h2 => absurd h2 (by decide)⟩
  · subst hk
    simp only [AdjOK, dirCmp_dec]
    constructor
    · intro h
      have := h.2 trivial
      omega
    · intro h
      exact ⟨fun h2 => absurd h2 (by decide), fun _ => by omega⟩

/-- Adjacent-pair sortedness is pairwise sortedness under the directed comparator. -/
theorem sorted_iff_pairwise {T : Type} {cmp : CompareFunc T} (hc : IsTotalOrder cmp)
    {kind : OrderKind} (hk : ValidKind kind) (d : List T) :
    List.Chain' (AdjOK cmp kind) d ↔
      d.Pairwise (fun a b => dirCmp kind cmp a b ≤ 0) := by
  have hd := hc.dir hk
  haveI : IsTrans T (fun a b => dirCmp kind cmp a b ≤ 0) := ⟨fun a b c => hd.trans a b c⟩
  rw [← List.chain'_iff_pairwise]
  exact List.Chain'.iff (fun a b => adjOK_iff cmp hk a b)

/-- One step of `add` keeps the data sorted and adds exactly the value. -/
theorem OrderImpl.addStep_sorted {T : Type} (o : OrderImpl T) (n : Nat) (value : T)
    (hc : IsTotalOrder o.compare) (hk : ValidKind o.kind)
    (hs : o.Vector.data.Pairwise (fun a b => dirCmp o.kind o.compare a b ≤ 0)) :
    ∃ o2, OrderImpl.addStep (o, n) value = .ok (o2, n + 1) ∧
      o2.compare = o.compare ∧ o2.kind = o.kind ∧
      o2.Vector.data.Pairwise (fun a b => dirCmp o.kind o.compare a b ≤ 0) ∧
      o2.Vector.data.Perm (value :: o.Vector.data) := by
  have hd := hc.dir hk
  obtain ⟨k, hkn, hrun, hlo, hhi⟩ := o.addStep_spec n value hc hk hs
  refine ⟨_, hrun, rfl, rfl, ?_, ?_⟩
  · have hs2 := hs
    rw [← List.take_append_drop k o.Vector.data] at hs2
    obtain ⟨h1, h2, h3⟩ := List.pairwise_append.mp hs2
    show List.Pairwise _ (List.take k o.Vector.data ++ value :: List.drop k o.Vector.data)
    refine List.pairwise_append.mpr ⟨h1, List.pairwise_cons.mpr ⟨?_, h2⟩, ?_⟩
    · intro b hb
      have := hhi b hb
      have := (hd.flip b value).mp this
      omega
    · intro a ha b hb
      rcases List.mem_cons.mp hb with h | h
      · subst h
        exact hlo a ha
      · exact h3 a ha b h
  · show List.Perm (List.take k o.Vector.data ++ value :: List.drop k o.Vector.data) _
    have h1 : (List.take k o.Vector.data ++ value :: List.drop k o.Vector.data).Perm
        (value :: (List.take k o.Vector.data ++ List.drop k o.Vector.data)) :=
      List.perm_middle
    simp at h1 ⊢
    exact h1

/-- The function `add` on sorted data succeeds, counts every value, keeps the data sorted and adds
exactly the values. -/
theorem OrderImpl.add_sorted_aux {T : Type} (values : List T) :
    ∀ (o : OrderImpl T) (n : Nat), IsTotalOrder o.compare → ValidKind o.kind →
      o.Vector.data.Pairwise (fun a b => dirCmp o.kind o.compare a b ≤ 0) →
      ∃ o2, values.foldlM OrderImpl.addStep (o, n) = .ok (o2, n + values.length) ∧
        o2.compare = o.compare ∧ o2.kind = o.kind ∧
        o2.Vector.data.Pairwise (fun a b => dirCmp o.kind o.compare a b ≤ 0) ∧
        o2.Vector.data.Perm (values ++ o.Vector.data) := by
  induction values with
  | nil =>
    intro o n _ _ hs
    exact ⟨o, rfl, rfl, rfl, hs, List.Perm.refl _⟩
  | cons v vs ih =>
    intro o n hc hk hs
    obtain ⟨o1, h1, hc1, hk1, hs1, hp1⟩ := o.addStep_sorted n v hc hk hs
    rw [← hc1, ← hk1] at hs1
    obtain ⟨o2, h2, hc2, hk2, hs2, hp2⟩ := ih o1 (n + 1) (hc1 ▸ hc) (hk1 ▸ hk) hs1
    refine ⟨o2, ?_, hc2.trans hc1, hk2.trans hk1, ?_, ?_⟩
    · simp only [List.foldlM_cons, bind, Except.bind, h1, h2, List.length_cons]
      congr 2
      omega
    · rw [← hc1, ← hk1]
      exact hs2
    · refine hp2.trans ?_
      refine (List.Perm.append_left vs hp1).trans ?_
      exact List.perm_middle

theorem OrderImpl.add_sorted {T : Type} (o : OrderImpl T) (values : List T)
    (hc : IsTotalOrder o.compare) (hk : ValidKind o.kind) (hs : o.Sorted) :
    ∃ o2, o.Add values = .ok (o2, values.length) ∧ o2.compare = o.compare ∧
      o2.kind = o.kind ∧ o2.Sorted ∧ o2.Data.Perm (values ++ o.Data) := by
  have hs1 := (sorted_iff_pairwise hc hk _).mp hs
  obtain ⟨o2, h, hc2, hk2, hs2, hp⟩ := OrderImpl.add_sorted_aux values o 0 hc hk hs1
  refine ⟨o2, by simpa [OrderImpl.Add, OrderImpl.add] using h, hc2, hk2, ?_, hp⟩
  unfold OrderImpl.Sorted
  rw [hc2, hk2]
  exact (sorted_iff_pairwise hc hk _).mpr hs2

theorem runAdds_sorted {T : Type} (calls : List (List T)) :
    ∀ (o : OrderImpl T), IsTotalOrder o.compare → ValidKind o.kind → o.Sorted →
      ∃ o2, runAdds o calls = .ok o2 ∧ o2.compare = o.compare ∧ o2.kind = o.kind ∧
        o2.Sorted := by
  induction calls with
  | nil =>
    intro o _ _ hs
    exact ⟨o, rfl, rfl, rfl, hs⟩
  | cons vs rest ih =>
    intro o hc hk hs
    obtain ⟨o1, h1, hc1, hk1, hs1, _⟩ := o.add_sorted vs hc hk hs
    obtain ⟨o2, h2, hc2, hk2, hs2⟩ := ih o1 (hc1 ▸ hc) (hk1 ▸ hk) hs1
    refine ⟨o2, ?_, hc2.trans hc1, hk2.trans hk1, hs2⟩
    unfold runAdds at h2 ⊢
    simp only [List.foldlM_cons, bind, Except.bind, h1]
    exact h2

/-- C1: for a total-order comparator and either direction, an order built from empty by any
sequence of `Add` calls is sorted after every call: after each prefix of the calls, `Add`
has returned and every adjacent pair of the data satisfies `compare ≤ 0` when ascending and
`compare ≥ 0` when descending. -/
theorem C1_add_sequence_sorted {T : Type} (cmp : CompareFunc T) (hc : IsTotalOrder cmp)
    (kind : OrderKind) (hk : ValidKind kind) (calls : List (List T)) (m : Nat) :
    ∃ o, runAdds (NewOrder cmp kind) (calls.take m) = .ok o ∧
      List.Chain' (fun a b => (kind = OrderKindIncreasing → cmp a b ≤ 0) ∧
        (kind = OrderKindDecreasing → cmp a b ≥ 0)) o.Data := by
  obtain ⟨o, h, hc2, hk2, hs⟩ := runAdds_sorted (calls.take m) (NewOrder cmp kind) hc hk
    (by simp [OrderImpl.Sorted, NewOrder, NewVector, OrderImpl.Data, Impl.Data])
  refine ⟨o, h, ?_⟩
  unfold OrderImpl.Sorted at hs
  rw [hc2, hk2] at hs
  exact hs

/-- C1 at the scenario of the order tests: ascending `Add(33,36,34,34,34,35)`. -/
theorem C1_add_sequence_sorted_witness :
    (runAdds (NewOrder CompareNumber OrderKindIncreasing) [[33, 36, 34, 34, 34, 35]]).map
        OrderImpl.Data = .ok [33, 34, 34, 34, 35, 36] ∧
    ∃ o, runAdds (NewOrder CompareNumber OrderKindIncreasing)
        ([[33, 36, 34, 34, 34, 35]].take 1) = .ok o ∧
      List.Chain' (fun a b => (OrderKindIncreasing = OrderKindIncreasing →
          CompareNumber a b ≤ 0) ∧
        (OrderKindIncreasing = OrderKindDecreasing → CompareNumber a b ≥ 0)) o.Data :=
  ⟨rfl, C1_add_sequence_sorted CompareNumber CompareNumber_total OrderKindIncreasing
    (Or.inl rfl) [[33, 36, 34, 34, 34, 35]] 1⟩

theorem dirCmp_eq_zero {T : Type} (cmp : CompareFunc T) {kind : OrderKind}
    (hk : ValidKind kind) (a b : T) : dirCmp kind cmp a b = 0 ↔ cmp a b = 0 := by
  rcases hk with hk | hk
  · subst hk
    simp [dirCmp_inc]
  · subst hk
    simp [dirCmp_dec]

/-- The result of `firstIndexOf` on sorted data: either an index holding an equal element
with no equal element before it, or `-1` with no equal element at all. -/
theorem OrderImpl.firstIndexOf_spec {T : Type} (o : OrderImpl T) (value : T)
    (hc : IsTotalOrder o.compare) (hk : ValidKind o.kind)
    (hs : o.Vector.data.Pairwise (fun a b => dirCmp o.kind o.compare a b ≤ 0)) :
    (∃ (i : Nat) (h : i < o.Vector.data.length), o.firstIndexOf value = .ok (i : Int) ∧
        o.compare (o.Vector.data.get ⟨i, h⟩) value = 0 ∧
        ∀ x ∈ o.Vector.data.take i, o.compare x value ≠ 0) ∨
    (o.firstIndexOf value = .ok (-1) ∧ ∀ x ∈ o.Vector.data, o.compare x value ≠ 0) := by
  have hd := hc.dir hk
  by_cases hlen : o.Vector.len = 0
  · right
    have hnil : o.Vector.data = [] := List.length_eq_zero.mp hlen
    refine ⟨by simp [OrderImpl.firstIndexOf, hlen, pure, Except.pure], ?_⟩
    simp [hnil]
  · obtain ⟨k, hS, hkn, hlo, hhi⟩ := Search_data o.Vector.data _
      (fun x => decide (0 ≤ dirCmp o.kind o.compare x value))
      (fun i h => o.findPred_eq value hk i h)
      (hs.imp (fun {a b} hab ha => by
        simp only [decide_eq_true_eq] at ha ⊢
        by_contra hn
        have := hd.lt_of_le_of_lt hab (show dirCmp o.kind o.compare b value < 0 by omega)
        omega))
    have hlen2 : ¬ o.Vector.data.length = 0 := hlen
    have hlo2 : ∀ x ∈ o.Vector.data.take k, o.compare x value ≠ 0 := by
      intro x hx h0
      have h1 := hlo x hx
      simp only [decide_eq_false_iff_not] at h1
      have := (dirCmp_eq_zero o.compare hk x value).mpr h0
      omega
    by_cases hk2 : k < o.Vector.data.length
    · by_cases heq : o.compare (o.Vector.data.get ⟨k, hk2⟩) value = 0
      · left
        refine ⟨k, hk2, ?_, heq, hlo2⟩
        unfold OrderImpl.firstIndexOf
        simp only [Impl.len, if_neg hlen2] at hS ⊢
        rw [hS]
        simp only [bind, Except.bind, if_pos hk2, Impl.get_ok _ _ hk2, if_pos heq]
        rfl
      · right
        constructor
        · unfold OrderImpl.firstIndexOf
          simp only [Impl.len, if_neg hlen2] at hS ⊢
          rw [hS]
          simp only [bind, Except.bind, if_pos hk2, Impl.get_ok _ _ hk2, if_neg heq]
          rfl
        · intro x hx
          rw [← List.take_append_drop k o.Vector.data] at hx
          rcases List.mem_append.mp hx with h | h
          · exact hlo2 x h
          · intro h0
            have hkx : 0 ≤ dirCmp o.kind o.compare (o.Vector.data.get ⟨k, hk2⟩) value := by
              have := hhi _ (List.mem_drop_iff_getElem.mpr ⟨0, by omega, rfl⟩)
              simpa using this
            have hne : dirCmp o.kind o.compare (o.Vector.data.get ⟨k, hk2⟩) value ≠ 0 :=
              fun h => heq ((dirCmp_eq_zero o.compare hk _ _).mp h)
            have hvk : dirCmp o.kind o.compare value (o.Vector.data.get ⟨k, hk2⟩) < 0 :=
              (hd.flip _ _).mp (by omega)
            have hkx2 : dirCmp o.kind o.compare (o.Vector.data.get ⟨k, hk2⟩) x ≤ 0 := by
              obtain ⟨i, hi, rfl⟩ := List.mem_drop_iff_getElem.mp h
              rcases Nat.eq_zero_or_pos i with hi0 | hi0
              · subst hi0
                have := hd.refl (o.Vector.data.get ⟨k, hk2⟩)
                simp only [List.get_eq_getElem, Nat.add_zero] at this ⊢
                omega
              · exact List.pairwise_iff_getElem.mp hs k (k + i) hk2 (by omega) (by omega)
            have := hd.lt_of_lt_of_le hvk hkx2
            have h1 := (hd.flip x value)
            have h2 := (dirCmp_eq_zero o.compare hk x value).mpr h0
            have h3 := hd.antisymm value x
            omega
    · right
      have hk3 : o.Vector.data.take k = o.Vector.data := List.take_of_length_le (by omega)
      constructor
      · unfold OrderImpl.firstIndexOf
        simp only [Impl.len, if_neg hlen2] at hS ⊢
        rw [hS]
        simp only [bind, Except.bind, if_neg hk2]
        rfl
      · rw [hk3] at hlo2
        exact hlo2

/-- C2: on a sorted order with a total-order comparator, in either direction,
`FirstIndexOf(v)` returns `-1` if and only if no element compares equal to `v`, and otherwise
returns the smallest index whose element compares equal to `v`. -/
theorem C2_firstIndexOf_correct {T : Type} (o : OrderImpl T) (value : T)
    (hc : IsTotalOrder o.compare) (hk : ValidKind o.kind) (hs : o.Sorted) :
    ∃ r : Int, o.FirstIndexOf value = .ok r ∧
      (r = -1 ↔ ∀ x ∈ o.Data, o.compare x value ≠ 0) ∧
      (r ≠ -1 → ∃ (i : Nat) (h : i < o.Data.length), r = (i : Int) ∧
        o.compare (o.Data.get ⟨i, h⟩) value = 0 ∧
        ∀ (j : Nat) (hj : j < o.Data.length),
          o.compare (o.Data.get ⟨j, hj⟩) value = 0 → i ≤ j) := by
  have hs1 := (sorted_iff_pairwise hc hk _).mp hs
  rcases o.firstIndexOf_spec value hc hk hs1 with ⟨i, h, hr, heq, hmin⟩ | ⟨hr, hnone⟩
  · refine ⟨(i : Int), hr, ?_, ?_⟩
    · constructor
      · intro h1
        omega
      · intro h1
        exact absurd heq (h1 _ (List.get_mem _ _ _))
    · intro _
      refine ⟨i, h, rfl, heq, ?_⟩
      intro j hj hj0
      by_contra hlt
      exact hmin _ (List.mem_take_iff_getElem.mpr ⟨j, by
        simp only [OrderImpl.Data, Impl.Data] at hj
        omega, rfl⟩) hj0
  · refine ⟨-1, hr, ?_, ?_⟩
    · exact ⟨fun _ => hnone, fun _ => rfl⟩
    · intro h
      exact absurd rfl h

/-- C2 at the scenarios of the order tests: in `[33,34,34,34,35,36]` the first `34` is at
index `1` and `37` is absent; in `[36,35,34,34,34,33]` the first `34` is at index `2`. -/
theorem C2_firstIndexOf_correct_witness :
    (⟨⟨[33, 34, 34, 34, 35, 36]⟩, CompareNumber, OrderKindIncreasing⟩ :
        OrderImpl Int).FirstIndexOf 34 = .ok 1 ∧
    (⟨⟨[33, 34, 34, 34, 35, 36]⟩, CompareNumber, OrderKindIncreasing⟩ :
        OrderImpl Int).FirstIndexOf 37 = .ok (-1) ∧
    (⟨⟨[36, 35, 34, 34, 34, 33]⟩, CompareNumber, OrderKindDecreasing⟩ :
        OrderImpl Int).FirstIndexOf 34 = .ok 2 ∧
    ∃ r : Int, (⟨⟨[33, 34, 34, 34, 35, 36]⟩, CompareNumber, OrderKindIncreasing⟩ :
        OrderImpl Int).FirstIndexOf 34 = .ok r ∧
      (r = -1 ↔ ∀ x ∈ [33, 34, 34, 34, 35, 36], CompareNumber x 34 ≠ 0) ∧
      (r ≠ -1 → ∃ (i : Nat) (h : i < [33, 34, 34, 34, 35, (36 : Int)].length), r = (i : Int) ∧
        CompareNumber ([33, 34, 34, 34, 35, 36].get ⟨i, h⟩) 34 = 0 ∧
        ∀ (j : Nat) (hj : j < [33, 34, 34, 34, 35, (36 : Int)].length),
          CompareNumber ([33, 34, 34, 34, 35, 36].get ⟨j, hj⟩) 34 = 0 → i ≤ j) :=
  ⟨rfl, rfl, rfl,
    C2_firstIndexOf_correct ⟨⟨[33, 34, 34, 34, 35, 36]⟩, CompareNumber, OrderKindIncreasing⟩ 34
      CompareNumber_total (Or.inl rfl) (by
        simp [OrderImpl.Sorted, OrderImpl.Data, Impl.Data, AdjOK, CompareNumber,
          OrderKindIncreasing, OrderKindDecreasing])⟩

/-! ## Merge -/

theorem merge_drop_left {T : Type} (A B : List T) (le : T → T → Bool) (l r : Nat)
    (h1 : l < A.length) (h2 : r < B.length) (ht : le (A.get ⟨l, h1⟩) (B.get ⟨r, h2⟩) = true) :
    List.merge (A.drop l) (B.drop r) le =
      A.get ⟨l, h1⟩ :: List.merge (A.drop (l + 1)) (B.drop r) le := by
  have e1 := List.drop_eq_getElem_cons h1
  have e2 := List.drop_eq_getElem_cons h2
  simp only [List.get_eq_getElem] at ht ⊢
  rw [e1, e2, List.cons_merge_cons, if_pos ht]

theorem merge_drop_right {T : Type} (A B : List T) (le : T → T → Bool) (l r : Nat)
    (h1 : l < A.length) (h2 : r < B.length)
    (ht : ¬ le (A.get ⟨l, h1⟩) (B.get ⟨r, h2⟩) = true) :
    List.merge (A.drop l) (B.drop r) le =
      B.get ⟨r, h2⟩ :: List.merge (A.drop l) (B.drop (r + 1)) le := by
  have e1 := List.drop_eq_getElem_cons h1
  have e2 := List.drop_eq_getElem_cons h2
  simp only [List.get_eq_getElem] at ht ⊢
  rw [e2, e1, List.cons_merge_cons, if_neg ht]

/-- The loop of `merge` from any state: it returns, with one operand exhausted, and what it
has emitted followed by the two remaining tails is the emitted prefix followed by the
two-way merge of the tails it started from. -/
theorem OrderImpl.mergeLoop_eq {T : Type} (o rhs : OrderImpl T) :
    ∀ (fuel l r : Nat) (ret : Impl T),
      (o.Vector.data.length - l) + (rhs.Vector.data.length - r) ≤ fuel →
      l ≤ o.Vector.data.length → r ≤ rhs.Vector.data.length →
      ∃ l2 r2 ret2, o.mergeLoop rhs fuel l r ret = .ok (l2, r2, ret2) ∧
        l2 ≤ o.Vector.data.length ∧ r2 ≤ rhs.Vector.data.length ∧
        (l2 = o.Vector.data.length ∨ r2 = rhs.Vector.data.length) ∧
        ret2.data ++ (o.Vector.data.drop l2 ++ rhs.Vector.data.drop r2) =
          ret.data ++ List.merge (o.Vector.data.drop l) (rhs.Vector.data.drop r) o.takesLeft := by
  intro fuel
  induction fuel with
  | zero =>
    intro l r ret hf hl hr
    have e1 : l = o.Vector.data.length := by omega
    have e2 : r = rhs.Vector.data.length := by omega
    refine ⟨l, r, ret, rfl, hl, hr, Or.inl e1, ?_⟩
    simp [e1, e2]
  | succ fuel ih =>
    intro l r ret hf hl hr
    simp only [OrderImpl.mergeLoop, Impl.len]
    by_cases hcond : l < o.Vector.data.length ∧ r < rhs.Vector.data.length
    · obtain ⟨h1, h2⟩ := hcond
      simp only [h1, h2, and_self, if_true, Impl.get_ok _ _ h1, Impl.get_ok _ _ h2, bind,
        Except.bind]
      by_cases ht : o.takesLeft (o.Vector.data.get ⟨l, h1⟩) (rhs.Vector.data.get ⟨r, h2⟩) = true
      · have ht2 := ht
        simp only [OrderImpl.takesLeft, decide_eq_true_eq] at ht2
        rw [if_pos ht2]
        obtain ⟨l2, r2, ret2, hrun, hl2, hr2, hex, hdata⟩ :=
          ih (l + 1) r (ret.append [o.Vector.data.get ⟨l, h1⟩]) (by omega) (by omega) hr
        refine ⟨l2, r2, ret2, hrun, hl2, hr2, hex, ?_⟩
        rw [hdata, merge_drop_left _ _ _ l r h1 h2 ht]
        simp [Impl.append]
      · have ht2 := ht
        simp only [OrderImpl.takesLeft, decide_eq_true_eq] at ht2
        rw [if_neg ht2]
        obtain ⟨l2, r2, ret2, hrun, hl2, hr2, hex, hdata⟩ :=
          ih l (r + 1) (ret.append [rhs.Vector.data.get ⟨r, h2⟩]) (by omega) hl (by omega)
        refine ⟨l2, r2, ret2, hrun, hl2, hr2, hex, ?_⟩
        rw [hdata, merge_drop_right _ _ _ l r h1 h2 ht]
        simp [Impl.append]
    · rw [if_neg hcond]
      have hex : l = o.Vector.data.length ∨ r = rhs.Vector.data.length := by omega
      refine ⟨l, r, ret, rfl, hl, hr, hex, ?_⟩
      rcases hex with e | e
      · simp [e]
      · simp [e]

/-- The function `merge` always returns, and its data is the two-way merge of the operands' data under
the receiver's test. -/
theorem OrderImpl.merge_eq {T : Type} (o rhs : OrderImpl T) :
    o.merge rhs =
      .ok ⟨⟨List.merge o.Vector.data rhs.Vector.data o.takesLeft⟩, o.compare, o.kind⟩ := by
  obtain ⟨l2, r2, ret2, hrun, hl2, hr2, hex, hdata⟩ :=
    o.mergeLoop_eq rhs (o.Vector.len + rhs.Vector.len) 0 0 (NewOrder o.compare o.kind).Vector
      (by simp [Impl.len]) (Nat.zero_le _) (Nat.zero_le _)
  simp only [OrderImpl.merge, hrun]
  simp only [NewOrder, NewVector, List.drop_zero, List.nil_append] at hdata
  simp only [bind, Except.bind, Impl.len, Impl.append, Impl.Data, NewOrder, pure, Except.pure]
  rw [← hdata]
  by_cases h1 : l2 < o.Vector.data.length
  · have e : r2 = rhs.Vector.data.length := by omega
    simp [h1, e]
  · have e : l2 = o.Vector.data.length := by omega
    by_cases h2 : r2 < rhs.Vector.data.length
    · simp [e, h2]
    · have e2 : r2 = rhs.Vector.data.length := by omega
      simp [e, e2]

/-- C4: for all orders `A` and `B`, `A.Merge(B)` returns an order whose length is
`len(A)+len(B)` and whose data is a permutation of `A`'s data followed by `B`'s data. -/
theorem C4_merge_length_perm {T : Type} (a b : OrderImpl T) :
    ∃ m, a.Merge b = .ok m ∧ m.Data.length = a.Data.length + b.Data.length ∧
      m.Data.Perm (a.Data ++ b.Data) :=
  ⟨_, a.merge_eq b, List.length_merge _ _ _, List.merge_perm_append _⟩

/-- On a valid direction the test of `merge` is "not after" for the directed comparator. -/
theorem OrderImpl.takesLeft_iff {T : Type} (o : OrderImpl T) (hk : ValidKind o.kind)
    (a b : T) : o.takesLeft a b = true ↔ dirCmp o.kind o.compare a b ≤ 0 := by
  simp only [OrderImpl.takesLeft, decide_eq_true_eq]
  rcases hk with hk | hk
  · rw [hk]
    simp only [dirCmp_inc]
    constructor
    · rintro (⟨_, h⟩ | ⟨h, _⟩)
      · exact h
      · exact absurd h (by decide)
    · intro h
      exact Or.inl ⟨trivial, h⟩
  · rw [hk]
    simp only [dirCmp_dec]
    constructor
    · rintro (⟨h, _⟩ | ⟨_, h⟩)
      · exact absurd h (by decide)
      · omega
    · intro h
      exact Or.inr ⟨trivial, by omega⟩

/-- The two-way merge of sorted data is sorted. -/
theorem OrderImpl.merge_pairwise {T : Type} (o : OrderImpl T) (hc : IsTotalOrder o.compare)
    (hk : ValidKind o.kind) (xs ys : List T)
    (hx : xs.Pairwise (fun a b => dirCmp o.kind o.compare a b ≤ 0))
    (hy : ys.Pairwise (fun a b => dirCmp o.kind o.compare a b ≤ 0)) :
    (List.merge xs ys o.takesLeft).Pairwise (fun a b => dirCmp o.kind o.compare a b ≤ 0) := by
  have hd := hc.dir hk
  have h := @List.sorted_merge T o.takesLeft
    (fun a b c h1 h2 => (o.takesLeft_iff hk a c).mpr
      (hd.trans a b c ((o.takesLeft_iff hk a b).mp h1) ((o.takesLeft_iff hk b c).mp h2)))
    (fun a b => by
      by_cases h1 : dirCmp o.kind o.compare a b ≤ 0
      · simp [(o.takesLeft_iff hk a b).mpr h1]
      · have h2 : dirCmp o.kind o.compare b a ≤ 0 := by
          have := hd.flip a b
          omega
        simp [(o.takesLeft_iff hk b a).mpr h2])
    xs ys (hx.imp (fun {a b} h => (o.takesLeft_iff hk a b).mpr h))
    (hy.imp (fun {a b} h => (o.takesLeft_iff hk a b).mpr h))
  exact h.imp (fun {a b} h => (o.takesLeft_iff hk a b).mp h)

/-- C5: for orders `A` and `B` sorted in the same direction under the same total-order
comparator, `A.Merge(B)` returns an order of that comparator and direction whose data is
sorted. -/
theorem C5_merge_sorted {T : Type} (a b : OrderImpl T) (hc : IsTotalOrder a.compare)
    (hk : ValidKind a.kind) (hcmp : b.compare = a.compare) (hkind : b.kind = a.kind)
    (ha : a.Sorted) (hb : b.Sorted) :
    ∃ m, a.Merge b = .ok m ∧ m.compare = a.compare ∧ m.kind = a.kind ∧ m.Sorted := by
  refine ⟨_, a.merge_eq b, rfl, rfl, ?_⟩
  unfold OrderImpl.Sorted at ha hb ⊢
  rw [hcmp, hkind] at hb
  exact (sorted_iff_pairwise hc hk _).mpr
    (a.merge_pairwise hc hk _ _ ((sorted_iff_pairwise hc hk _).mp ha)
      ((sorted_iff_pairwise hc hk _).mp hb))

/-- C5 at two descending orders holding duplicates. -/
theorem C5_merge_sorted_witness :
    ∃ m, (⟨⟨[5, 3, 3, 1]⟩, CompareNumber, OrderKindDecreasing⟩ : OrderImpl Int).Merge
        ⟨⟨[4, 3]⟩, CompareNumber, OrderKindDecreasing⟩ = .ok m ∧
      m.compare = CompareNumber ∧ m.kind = OrderKindDecreasing ∧ m.Sorted :=
  C5_merge_sorted ⟨⟨[5, 3, 3, 1]⟩, CompareNumber, OrderKindDecreasing⟩
    ⟨⟨[4, 3]⟩, CompareNumber, OrderKindDecreasing⟩ CompareNumber_total (Or.inr rfl) rfl rfl
    (by simp [OrderImpl.Sorted, OrderImpl.Data, Impl.Data, AdjOK, CompareNumber,
        OrderKindIncreasing, OrderKindDecreasing])
    (by simp [OrderImpl.Sorted, OrderImpl.Data, Impl.Data, AdjOK, CompareNumber,
        OrderKindIncreasing, OrderKindDecreasing])

/-! ## Combine -/

/-- The loop of `combine` from any state: it returns, with one operand exhausted, and what
it has emitted followed by the suppression of the two remaining tails is the emitted prefix
followed by the suppression of the two-way merge of the tails it started from. -/
theorem OrderImpl.combineLoop_eq {T : Type} (o rhs : OrderImpl T) :
    ∀ (fuel l r : Nat) (prev : Option T) (ret : Impl T),
      (o.Vector.data.length - l) + (rhs.Vector.data.length - r) ≤ fuel →
      l ≤ o.Vector.data.length → r ≤ rhs.Vector.data.length →
      ∃ l2 r2 prev2 ret2, o.combineLoop rhs fuel l r prev ret = .ok (l2, r2, prev2, ret2) ∧
        l2 ≤ o.Vector.data.length ∧ r2 ≤ rhs.Vector.data.length ∧
        (l2 = o.Vector.data.length ∨ r2 = rhs.Vector.data.length) ∧
        ret2.data ++ o.dedupFrom prev2 (o.Vector.data.drop l2 ++ rhs.Vector.data.drop r2) =
          ret.data ++ o.dedupFrom prev
            (List.merge (o.Vector.data.drop l) (rhs.Vector.data.drop r) o.takesLeft) := by
  intro fuel
  induction fuel with
  | zero =>
    intro l r prev ret hf hl hr
    have e1 : l = o.Vector.data.length := by omega
    have e2 : r = rhs.Vector.data.length := by omega
    refine ⟨l, r, prev, ret, rfl, hl, hr, Or.inl e1, ?_⟩
    simp [e1, e2]
  | succ fuel ih =>
    intro l r prev ret hf hl hr
    simp only [OrderImpl.combineLoop, Impl.len]
    by_cases hcond : l < o.Vector.data.length ∧ r < rhs.Vector.data.length
    · obtain ⟨h1, h2⟩ := hcond
      simp only [h1, h2, and_self, if_true, Impl.get_ok _ _ h1, Impl.get_ok _ _ h2, bind,
        Except.bind]
      by_cases ht : o.takesLeft (o.Vector.data.get ⟨l, h1⟩) (rhs.Vector.data.get ⟨r, h2⟩) = true
      · have ht2 := ht
        simp only [OrderImpl.takesLeft, decide_eq_true_eq] at ht2
        rw [if_pos ht2, merge_drop_left _ _ _ l r h1 h2 ht]
        by_cases hd : o.differsFromPrev prev (o.Vector.data.get ⟨l, h1⟩) = true
        · rw [if_pos hd]
          obtain ⟨l2, r2, prev2, ret2, hrun, hl2, hr2, hex, hdata⟩ :=
            ih (l + 1) r (some (o.Vector.data.get ⟨l, h1⟩))
              (ret.append [o.Vector.data.get ⟨l, h1⟩]) (by omega) (by omega) hr
          refine ⟨l2, r2, prev2, ret2, hrun, hl2, hr2, hex, ?_⟩
          rw [hdata]
          simp only [OrderImpl.dedupFrom, if_pos hd, Impl.append]
          simp
        · rw [if_neg hd]
          obtain ⟨l2, r2, prev2, ret2, hrun, hl2, hr2, hex, hdata⟩ :=
            ih (l + 1) r prev ret (by omega) (by omega) hr
          refine ⟨l2, r2, prev2, ret2, hrun, hl2, hr2, hex, ?_⟩
          rw [hdata]
          simp only [OrderImpl.dedupFrom, if_neg hd]
      · have ht2 := ht
        simp only [OrderImpl.takesLeft, decide_eq_true_eq] at ht2
        rw [if_neg ht2, merge_drop_right _ _ _ l r h1 h2 ht]
        by_cases hd : o.differsFromPrev prev (rhs.Vector.data.get ⟨r, h2⟩) = true
        · rw [if_pos hd]
          obtain ⟨l2, r2, prev2, ret2, hrun, hl2, hr2, hex, hdata⟩ :=
            ih l (r + 1) (some (rhs.Vector.data.get ⟨r, h2⟩))
              (ret.append [rhs.Vector.data.get ⟨r, h2⟩]) (by omega) hl (by omega)
          refine ⟨l2, r2, prev2, ret2, hrun, hl2, hr2, hex, ?_⟩
          rw [hdata]
          simp only [OrderImpl.dedupFrom, if_pos hd, Impl.append]
          simp
        · rw [if_neg hd]
          obtain ⟨l2, r2, prev2, ret2, hrun, hl2, hr2, hex, hdata⟩ :=
            ih l (r + 1) prev ret (by omega) hl (by omega)
          refine ⟨l2, r2, prev2, ret2, hrun, hl2, hr2, hex, ?_⟩
          rw [hdata]
          simp only [OrderImpl.dedupFrom, if_neg hd]
    · rw [if_neg hcond]
      have hex : l = o.Vector.data.length ∨ r = rhs.Vector.data.length := by omega
      refine ⟨l, r, prev, ret, rfl, hl, hr, hex, ?_⟩
      rcases hex with e | e
      · simp [e]
      · simp [e]

/-- The `range rest` loop of `combine` appends the suppression of `rest`. -/
theorem OrderImpl.restLoop_eq {T : Type} (o : OrderImpl T) (rest : List T) :
    ∀ (prev : Option T) (ret : Impl T),
      (rest.foldl o.restStep (prev, ret)).2.data = ret.data ++ o.dedupFrom prev rest := by
  induction rest with
  | nil =>
    intro prev ret
    simp [OrderImpl.dedupFrom]
  | cons x xs ih =>
    intro prev ret
    simp only [List.foldl_cons, OrderImpl.restStep, OrderImpl.dedupFrom]
    by_cases hd : o.differsFromPrev prev x = true
    · simp only [if_pos hd]
      rw [ih]
      simp [Impl.append]
    · simp only [if_neg hd]
      rw [ih]

/-- The function `combine` always returns, and its data is the suppression of the two-way merge of the
operands' data. -/
theorem OrderImpl.combine_eq {T : Type} (o rhs : OrderImpl T) :
    o.combine rhs =
      .ok ⟨⟨o.dedupFrom none (List.merge o.Vector.data rhs.Vector.data o.takesLeft)⟩,
        o.compare, o.kind⟩ := by
  obtain ⟨l2, r2, prev2, ret2, hrun, hl2, hr2, hex, hdata⟩ :=
    o.combineLoop_eq rhs (o.Vector.len + rhs.Vector.len) 0 0 none
      (NewOrder o.compare o.kind).Vector (by simp [Impl.len]) (Nat.zero_le _) (Nat.zero_le _)
  simp only [OrderImpl.combine, hrun]
  simp only [NewOrder, NewVector, List.drop_zero, List.nil_append] at hdata
  simp only [bind, Except.bind, Impl.len, Impl.Data, NewOrder, pure, Except.pure]
  have hrest : (if l2 ≥ o.Vector.data.length ∧ r2 < rhs.Vector.data.length then
        rhs.Vector.data.drop r2
      else if r2 ≥ rhs.Vector.data.length ∧ l2 < o.Vector.data.length then
        o.Vector.data.drop l2
      else []) = o.Vector.data.drop l2 ++ rhs.Vector.data.drop r2 := by
    by_cases h1 : l2 < o.Vector.data.length
    · have e : r2 = rhs.Vector.data.length := by omega
      have h3 : ¬ (l2 ≥ o.Vector.data.length ∧ r2 < rhs.Vector.data.length) := by omega
      have h4 : r2 ≥ rhs.Vector.data.length ∧ l2 < o.Vector.data.length := by omega
      rw [if_neg h3, if_pos h4]
      simp [e]
    · have e : l2 = o.Vector.data.length := by omega
      by_cases h2 : r2 < rhs.Vector.data.length
      · have h3 : l2 ≥ o.Vector.data.length ∧ r2 < rhs.Vector.data.length := by omega
        rw [if_pos h3]
        simp [e]
      · have e2 : r2 = rhs.Vector.data.length := by omega
        have h3 : ¬ (l2 ≥ o.Vector.data.length ∧ r2 < rhs.Vector.data.length) := by omega
        have h4 : ¬ (r2 ≥ rhs.Vector.data.length ∧ l2 < o.Vector.data.length) := by omega
        rw [if_neg h3, if_neg h4]
        simp [e, e2]
  have hfold := o.restLoop_eq (o.Vector.data.drop l2 ++ rhs.Vector.data.drop r2) prev2 ret2
  rw [hrest, ← hdata, ← hfold]

/-- After a kept value `p`, the suppression never puts a value equal to `p` next. -/
theorem OrderImpl.dedupFrom_chain {T : Type} (o : OrderImpl T) (xs : List T) :
    ∀ p : T, List.Chain (fun a b => o.compare a b ≠ 0) p (o.dedupFrom (some p) xs) := by
  induction xs with
  | nil =>
    intro p
    simp [OrderImpl.dedupFrom]
  | cons x xs ih =>
    intro p
    simp only [OrderImpl.dedupFrom]
    by_cases hd : o.differsFromPrev (some p) x = true
    · rw [if_pos hd]
      refine List.Chain.cons ?_ (ih x)
      simpa [OrderImpl.differsFromPrev] using hd
    · rw [if_neg hd]
      exact ih p

theorem OrderImpl.dedupFrom_chain' {T : Type} (o : OrderImpl T) (xs : List T) :
    List.Chain' (fun a b => o.compare a b ≠ 0) (o.dedupFrom none xs) := by
  cases xs with
  | nil => simp [OrderImpl.dedupFrom]
  | cons x xs =>
    simp only [OrderImpl.dedupFrom, OrderImpl.differsFromPrev, if_true]
    exact o.dedupFrom_chain xs x

/-- C6: for all orders `A` and `B`, `A.Combine(B)` returns an order in which no two adjacent
elements compare equal under the comparator, whichever operand supplied the tail. -/
theorem C6_combine_no_adjacent_equal {T : Type} (a b : OrderImpl T) :
    ∃ c, a.Combine b = .ok c ∧ List.Chain' (fun x y => a.compare x y ≠ 0) c.Data :=
  ⟨_, a.combine_eq b, a.dedupFrom_chain' _⟩

/-! ## Sets: membership, Add and Remove -/

theorem Impl.remove_ok {T : Type} (v : Impl T) (i : Nat) (h : i < v.data.length) :
    v.remove i = (.ok (v.data.get ⟨i, h⟩), ⟨v.data.take i ++ v.data.drop (i + 1)⟩) := by
  unfold Impl.remove
  have hle := intOfUint_le i
  have h0 : ¬ v.data.length = 0 := by omega
  rw [if_neg h0]
  simp only [List.getElem?_eq_getElem h, List.get_eq_getElem]
  by_cases hi0 : i = 0
  · subst hi0
    simp
  · rw [if_neg hi0]
    by_cases hlast : intOfUint i = (v.data.length : Int) - 1
    · rw [if_pos hlast]
      have e : v.data.length - 1 = i := by omega
      have e2 : v.data.drop (i + 1) = [] := List.drop_eq_nil_of_le (by omega)
      rw [e, e2, List.append_nil]
    · rw [if_neg hlast]
      have hge : ¬ intOfUint i ≥ (v.data.length : Int) := by omega
      rw [if_neg hge]

/-- The function `firstIndexOf` on sorted data returns, and its result differs from `-1` exactly when
some element compares equal to the value. -/
theorem OrderImpl.firstIndexOf_found_iff {T : Type} (o : OrderImpl T) (value : T)
    (hc : IsTotalOrder o.compare) (hk : ValidKind o.kind)
    (hs : o.Vector.data.Pairwise (fun a b => dirCmp o.kind o.compare a b ≤ 0)) :
    ∃ r : Int, o.firstIndexOf value = .ok r ∧
      (r ≠ -1 ↔ HasEq o.compare o.Vector.data value) := by
  rcases o.firstIndexOf_spec value hc hk hs with ⟨i, h, hr, heq, _⟩ | ⟨hr, hnone⟩
  · refine ⟨(i : Int), hr, ?_⟩
    constructor
    · intro _
      exact ⟨_, List.get_mem _ _ _, heq⟩
    · intro _
      omega
  · refine ⟨-1, hr, ?_⟩
    constructor
    · intro h
      exact absurd rfl h
    · rintro ⟨y, hy, h0⟩
      exact absurd h0 (hnone y hy)

theorem SetImpl.WF.sorted {T : Type} {cmp : CompareFunc T} {s : SetImpl T} (hs : s.WF cmp) :
    s.Order.Vector.data.Pairwise (fun a b => dirCmp s.Order.kind s.Order.compare a b ≤ 0) := by
  rw [hs.kind_eq, hs.order_compare]
  refine hs.strict.imp (fun {a b} h => ?_)
  rw [dirCmp_inc]
  omega

theorem SetImpl.WF.total {T : Type} {cmp : CompareFunc T} {s : SetImpl T} (hs : s.WF cmp)
    (hc : IsTotalOrder cmp) : IsTotalOrder s.Order.compare := by
  rw [hs.order_compare]
  exact hc

/-- The function `Has` on a set returns, and it is true exactly when some element compares equal to the
value. -/
theorem SetImpl.has_spec {T : Type} {cmp : CompareFunc T} (hc : IsTotalOrder cmp)
    (s : SetImpl T) (hs : s.WF cmp) (x : T) :
    ∃ b, s.Has x = .ok b ∧ (b = true ↔ HasEq cmp s.Data x) := by
  obtain ⟨r, hr, hiff⟩ := s.Order.firstIndexOf_found_iff x (hs.total hc) (Or.inl hs.kind_eq)
    hs.sorted
  refine ⟨decide (r ≠ -1), ?_, ?_⟩
  · simp only [SetImpl.Has, hr, bind, Except.bind]
    rfl
  · rw [hs.order_compare] at hiff
    simpa [SetImpl.Data, OrderImpl.Data, Impl.Data] using hiff

theorem NewSet_WF {T : Type} (cmp : CompareFunc T) : (NewSet cmp).WF cmp :=
  ⟨rfl, rfl, rfl, List.Pairwise.nil⟩

/-- One step of the set's `add`: the invariant is kept and the members are the old members
and the values equal to the added one. -/
theorem SetImpl.setAddStep_spec {T : Type} {cmp : CompareFunc T} (hc : IsTotalOrder cmp)
    (s : SetImpl T) (hs : s.WF cmp) (n : Nat) (v : T) :
    ∃ s2 n2, SetImpl.addStep (s, n) v = .ok (s2, n2) ∧ s2.WF cmp ∧
      ∀ x, HasEq cmp s2.Data x ↔ (HasEq cmp s.Data x ∨ cmp v x = 0) := by
  have hc2 := hs.total hc
  have hk : ValidKind s.Order.kind := Or.inl hs.kind_eq
  have hco := hs.order_compare
  rcases s.Order.firstIndexOf_spec v hc2 hk hs.sorted with ⟨i, h, hr, heq, _⟩ | ⟨hr, hnone⟩
  · refine ⟨s, n, ?_, hs, ?_⟩
    · have hne : ¬ ((i : Int) = -1) := by omega
      simp only [SetImpl.addStep, hr, bind, Except.bind, if_neg hne]
      rfl
    · intro x
      constructor
      · exact Or.inl
      · rintro (h1 | h1)
        · exact h1
        · rw [hco] at heq
          exact ⟨_, List.get_mem _ _ _, hc.eq_trans heq h1⟩
  · obtain ⟨k, hkn, hrun, hlo, hhi⟩ := s.Order.addStep_spec 0 v hc2 hk hs.sorted
    rw [hs.kind_eq, hco] at hlo hhi
    simp only [dirCmp_inc] at hlo hhi
    rw [hco] at hnone
    refine ⟨{ s with Order := { s.Order with
      Vector := ⟨s.Order.Vector.data.take k ++ v :: s.Order.Vector.data.drop k⟩ } }, n + 1,
      ?_, ?_, ?_⟩
    · simp only [SetImpl.addStep, hr, bind, Except.bind, OrderImpl.add, List.foldlM_cons,
        List.foldlM_nil, hrun]
      rfl
    · refine ⟨hs.compare_eq, hco, hs.kind_eq, ?_⟩
      have hs2 := hs.strict
      rw [← List.take_append_drop k s.Order.Vector.data] at hs2
      obtain ⟨h1, h2, h3⟩ := List.pairwise_append.mp hs2
      show List.Pairwise _ (List.take k s.Order.Vector.data ++ v :: List.drop k s.Order.Vector.data)
      refine List.pairwise_append.mpr ⟨h1, List.pairwise_cons.mpr ⟨?_, h2⟩, ?_⟩
      · intro b hb
        exact (hc.flip b v).mp (hhi b hb)
      · intro a ha b hb
        rcases List.mem_cons.mp hb with h | h
        · subst h
          have := hlo a ha
          have := hnone a (List.mem_of_mem_take ha)
          omega
        · exact h3 a ha b h
    · intro x
      show HasEq cmp (List.take k s.Order.Vector.data ++ v :: List.drop k s.Order.Vector.data) x ↔ _
      constructor
      · rintro ⟨y, hy, h0⟩
        rcases List.mem_append.mp hy with h | h
        · exact Or.inl ⟨y, List.mem_of_mem_take h, h0⟩
        · rcases List.mem_cons.mp h with h | h
          · subst h
            exact Or.inr h0
          · exact Or.inl ⟨y, List.mem_of_mem_drop h, h0⟩
      · rintro (⟨y, hy, h0⟩ | h0)
        · refine ⟨y, ?_, h0⟩
          have hy2 : y ∈ s.Order.Vector.data := hy
          rw [← List.take_append_drop k s.Order.Vector.data] at hy2
          rcases List.mem_append.mp hy2 with h | h
          · exact List.mem_append_left _ h
          · exact List.mem_append_right _ (List.mem_cons_of_mem _ h)
        · exact ⟨v, List.mem_append_right _ (List.mem_cons_self _ _), h0⟩

/-- The set's `add` returns, keeps the invariant, and the members afterwards are the old
members and the values equal to an added one. -/
theorem SetImpl.add_spec_aux {T : Type} {cmp : CompareFunc T} (hc : IsTotalOrder cmp)
    (values : List T) :
    ∀ (s : SetImpl T) (n : Nat), s.WF cmp →
      ∃ s2 n2, values.foldlM SetImpl.addStep (s, n) = .ok (s2, n2) ∧ s2.WF cmp ∧
        ∀ x, HasEq cmp s2.Data x ↔ (HasEq cmp s.Data x ∨ ∃ v ∈ values, cmp v x = 0) := by
  induction values with
  | nil =>
    intro s n hs
    exact ⟨s, n, rfl, hs, fun x => by simp⟩
  | cons v vs ih =>
    intro s n hs
    obtain ⟨s1, n1, h1, hs1, hm1⟩ := SetImpl.setAddStep_spec hc s hs n v
    obtain ⟨s2, n2, h2, hs2, hm2⟩ := ih s1 n1 hs1
    refine ⟨s2, n2, ?_, hs2, ?_⟩
    · simp only [List.foldlM_cons, bind, Except.bind, h1]
      exact h2
    · intro x
      rw [hm2 x, hm1 x]
      simp only [List.mem_cons, exists_eq_or_imp]
      tauto

theorem SetImpl.add_spec {T : Type} {cmp : CompareFunc T} (hc : IsTotalOrder cmp)
    (s : SetImpl T) (hs : s.WF cmp) (values : List T) :
    ∃ s2 n2, s.Add values = .ok (s2, n2) ∧ s2.WF cmp ∧
      ∀ x, HasEq cmp s2.Data x ↔ (HasEq cmp s.Data x ∨ ∃ v ∈ values, cmp v x = 0) :=
  SetImpl.add_spec_aux hc values s 0 hs

/-- One step of the set's `remove`: the invariant is kept and the members are the old
members not equal to the removed value. -/
theorem SetImpl.removeStep_spec {T : Type} {cmp : CompareFunc T} (hc : IsTotalOrder cmp)
    (s : SetImpl T) (hs : s.WF cmp) (n : Nat) (v : T) :
    ∃ s2 n2, SetImpl.removeStep (s, n) v = .ok (s2, n2) ∧ s2.WF cmp ∧
      ∀ x, HasEq cmp s2.Data x ↔ (HasEq cmp s.Data x ∧ cmp v x ≠ 0) := by
  have hc2 := hs.total hc
  have hk : ValidKind s.Order.kind := Or.inl hs.kind_eq
  have hco := hs.order_compare
  rcases s.Order.firstIndexOf_spec v hc2 hk hs.sorted with ⟨i, h, hr, heq, _⟩ | ⟨hr, hnone⟩
  · rw [hco] at heq
    have hsplit : s.Order.Vector.data = s.Order.Vector.data.take i ++
        s.Order.Vector.data.get ⟨i, h⟩ :: s.Order.Vector.data.drop (i + 1) := by
      conv_lhs => rw [← List.take_append_drop i s.Order.Vector.data]
      rw [List.drop_eq_getElem_cons h]
      rfl
    have hs2 := hs.strict
    rw [hsplit] at hs2
    obtain ⟨h1, h2, h3⟩ := List.pairwise_append.mp hs2
    obtain ⟨h4, h5⟩ := List.pairwise_cons.mp h2
    refine ⟨{ s with Order := { s.Order with
      Vector := ⟨s.Order.Vector.data.take i ++ s.Order.Vector.data.drop (i + 1)⟩ } }, n + 1,
      ?_, ?_, ?_⟩
    · have hne : (i : Int) ≠ -1 := by omega
      simp only [SetImpl.removeStep, hr, bind, Except.bind, if_pos hne, Int.toNat_ofNat,
        Impl.remove_ok _ _ h]
      rfl
    · refine ⟨hs.compare_eq, hco, hs.kind_eq, ?_⟩
      show List.Pairwise _ (List.take i s.Order.Vector.data ++
        List.drop (i + 1) s.Order.Vector.data)
      exact List.pairwise_append.mpr
        ⟨h1, h5, fun a ha b hb => h3 a ha b (List.mem_cons_of_mem _ hb)⟩
    · intro x
      show HasEq cmp (List.take i s.Order.Vector.data ++
        List.drop (i + 1) s.Order.Vector.data) x ↔ _
      constructor
      · rintro ⟨y, hy, h0⟩
        refine ⟨⟨y, ?_, h0⟩, ?_⟩
        · rcases List.mem_append.mp hy with hm | hm
          · exact List.mem_of_mem_take hm
          · exact List.mem_of_mem_drop hm
        · intro hv
          have hyv : cmp y v = 0 := hc.eq_trans h0 ((hc.eq_comm v x).mp hv)
          have hyi : cmp y (s.Order.Vector.data.get ⟨i, h⟩) = 0 :=
            hc.eq_trans hyv ((hc.eq_comm _ v).mp heq)
          rcases List.mem_append.mp hy with hm | hm
          · have := h3 y hm _ (List.mem_cons_self _ _)
            omega
          · have := h4 y hm
            have := (hc.antisymm (s.Order.Vector.data.get ⟨i, h⟩) y).mp this
            omega
      · rintro ⟨⟨y, hy, h0⟩, hv⟩
        have hy2 : y ∈ s.Order.Vector.data := hy
        rw [hsplit] at hy2
        rcases List.mem_append.mp hy2 with hm | hm
        · exact ⟨y, List.mem_append_left _ hm, h0⟩
        · rcases List.mem_cons.mp hm with hm | hm
          · subst hm
            exact absurd (hc.eq_trans ((hc.eq_comm _ v).mp heq) h0) hv
          · exact ⟨y, List.mem_append_right _ hm, h0⟩
  · rw [hco] at hnone
    refine ⟨s, n, ?_, hs, ?_⟩
    · have hne : ¬ ((-1 : Int) ≠ -1) := by omega
      simp only [SetImpl.removeStep, hr, bind, Except.bind, if_neg hne]
      rfl
    · intro x
      constructor
      · rintro ⟨y, hy, h0⟩
        refine ⟨⟨y, hy, h0⟩, fun hv => ?_⟩
        exact hnone y hy (hc.eq_trans h0 ((hc.eq_comm v x).mp hv))
      · exact fun h => h.1

/-- The set's `remove` returns, keeps the invariant, and the members afterwards are the old
members equal to none of the removed values. -/
theorem SetImpl.remove_spec_aux {T : Type} {cmp : CompareFunc T} (hc : IsTotalOrder cmp)
    (values : List T) :
    ∀ (s : SetImpl T) (n : Nat), s.WF cmp →
      ∃ s2 n2, values.foldlM SetImpl.removeStep (s, n) = .ok (s2, n2) ∧ s2.WF cmp ∧
        ∀ x, HasEq cmp s2.Data x ↔ (HasEq cmp s.Data x ∧ ∀ v ∈ values, cmp v x ≠ 0) := by
  induction values with
  | nil =>
    intro s n hs
    exact ⟨s, n, rfl, hs, fun x => by simp⟩
  | cons v vs ih =>
    intro s n hs
    obtain ⟨s1, n1, h1, hs1, hm1⟩ := SetImpl.removeStep_spec hc s hs n v
    obtain ⟨s2, n2, h2, hs2, hm2⟩ := ih s1 n1 hs1
    refine ⟨s2, n2, ?_, hs2, ?_⟩
    · simp only [List.foldlM_cons, bind, Except.bind, h1]
      exact h2
    · intro x
      rw [hm2 x, hm1 x]
      simp only [List.mem_cons, forall_eq_or_imp]
      tauto

theorem SetImpl.remove_spec {T : Type} {cmp : CompareFunc T} (hc : IsTotalOrder cmp)
    (s : SetImpl T) (hs : s.WF cmp) (values : List T) :
    ∃ s2 n2, s.Remove values = .ok (s2, n2) ∧ s2.WF cmp ∧
      ∀ x, HasEq cmp s2.Data x ↔ (HasEq cmp s.Data x ∧ ∀ v ∈ values, cmp v x ≠ 0) :=
  SetImpl.remove_spec_aux hc values s 0 hs

/-! ## Sets: Union -/

theorem OrderImpl.dedupFrom_mem {T : Type} (o : OrderImpl T) (xs : List T) :
    ∀ (prev : Option T) (z : T), z ∈ o.dedupFrom prev xs → z ∈ xs := by
  induction xs with
  | nil =>
    intro prev z hz
    simp [OrderImpl.dedupFrom] at hz
  | cons x xs ih =>
    intro prev z hz
    simp only [OrderImpl.dedupFrom] at hz
    by_cases hd : o.differsFromPrev prev x = true
    · rw [if_pos hd] at hz
      rcases List.mem_cons.mp hz with h | h
      · exact h ▸ List.mem_cons_self _ _
      · exact List.mem_cons_of_mem _ (ih _ _ h)
    · rw [if_neg hd] at hz
      exact List.mem_cons_of_mem _ (ih _ _ hz)

/-- Suppression after a kept value `p` that starts sorted data: `p` and the values kept
after it are strictly ascending. -/
theorem OrderImpl.dedupFrom_some_strict {T : Type} (o : OrderImpl T)
    (hc : IsTotalOrder o.compare) (xs : List T) :
    ∀ p : T, (p :: xs).Pairwise (fun a b => o.compare a b ≤ 0) →
      (p :: o.dedupFrom (some p) xs).Pairwise (fun a b => o.compare a b < 0) := by
  induction xs with
  | nil =>
    intro p _
    simp [OrderImpl.dedupFrom]
  | cons x xs ih =>
    intro p h
    obtain ⟨hp, hx⟩ := List.pairwise_cons.mp h
    simp only [OrderImpl.dedupFrom]
    by_cases hd : o.differsFromPrev (some p) x = true
    · rw [if_pos hd]
      have hne : o.compare p x ≠ 0 := by simpa [OrderImpl.differsFromPrev] using hd
      have hpx : o.compare p x < 0 := by
        have := hp x (List.mem_cons_self _ _)
        omega
      have ih2 := ih x hx
      refine List.pairwise_cons.mpr ⟨?_, ih2⟩
      intro a ha
      rcases List.mem_cons.mp ha with h1 | h1
      · rw [h1]
        exact hpx
      · have := (List.pairwise_cons.mp ih2).1 a h1
        exact hc.lt_of_lt_of_le hpx (by omega)
    · rw [if_neg hd]
      refine ih p (List.pairwise_cons.mpr ⟨fun a ha => hp a (List.mem_cons_of_mem _ ha), ?_⟩)
      exact (List.pairwise_cons.mp hx).2

theorem OrderImpl.dedupFrom_none_strict {T : Type} (o : OrderImpl T)
    (hc : IsTotalOrder o.compare) (xs : List T)
    (h : xs.Pairwise (fun a b => o.compare a b ≤ 0)) :
    (o.dedupFrom none xs).Pairwise (fun a b => o.compare a b < 0) := by
  cases xs with
  | nil => simp [OrderImpl.dedupFrom]
  | cons x xs =>
    simp only [OrderImpl.dedupFrom, OrderImpl.differsFromPrev, if_true]
    exact o.dedupFrom_some_strict hc xs x h

/-- Every value given to the suppression compares equal to the last kept value or to a
value it keeps. -/
theorem OrderImpl.dedupFrom_some_cover {T : Type} (o : OrderImpl T)
    (hc : IsTotalOrder o.compare) (xs : List T) :
    ∀ (p y : T), y ∈ xs → ∃ z ∈ p :: o.dedupFrom (some p) xs, o.compare z y = 0 := by
  induction xs with
  | nil =>
    intro p y hy
    simp at hy
  | cons x xs ih =>
    intro p y hy
    simp only [OrderImpl.dedupFrom]
    by_cases hd : o.differsFromPrev (some p) x = true
    · rw [if_pos hd]
      rcases List.mem_cons.mp hy with h | h
      · subst h
        exact ⟨y, List.mem_cons_of_mem _ (List.mem_cons_self _ _), hc.refl y⟩
      · obtain ⟨z, hz, h0⟩ := ih x y h
        exact ⟨z, List.mem_cons_of_mem _ hz, h0⟩
    · rw [if_neg hd]
      have heq : o.compare p x = 0 := by simpa [OrderImpl.differsFromPrev] using hd
      rcases List.mem_cons.mp hy with h | h
      · subst h
        exact ⟨p, List.mem_cons_self _ _, heq⟩
      · exact ih p y h

theorem OrderImpl.dedupFrom_none_hasEq {T : Type} (o : OrderImpl T)
    (hc : IsTotalOrder o.compare) (xs : List T) (x : T) :
    HasEq o.compare (o.dedupFrom none xs) x ↔ HasEq o.compare xs x := by
  constructor
  · rintro ⟨z, hz, h0⟩
    exact ⟨z, o.dedupFrom_mem xs none z hz, h0⟩
  · rintro ⟨y, hy, h0⟩
    cases xs with
    | nil => simp at hy
    | cons a xs =>
      simp only [OrderImpl.dedupFrom, OrderImpl.differsFromPrev, if_true]
      rcases List.mem_cons.mp hy with h | h
      · subst h
        exact ⟨y, List.mem_cons_self _ _, h0⟩
      · obtain ⟨z, hz, hz0⟩ := o.dedupFrom_some_cover hc xs a y h
        exact ⟨z, hz, hc.eq_trans hz0 h0⟩

/-- The function `Union` of two sets returns a set that keeps the invariant and whose members are the
members of either operand. -/
theorem SetImpl.union_spec {T : Type} {cmp : CompareFunc T} (hc : IsTotalOrder cmp)
    (s r : SetImpl T) (hs : s.WF cmp) (hr : r.WF cmp) :
    ∃ u, s.Union r = .ok u ∧ u.WF cmp ∧
      ∀ x, HasEq cmp u.Data x ↔ (HasEq cmp s.Data x ∨ HasEq cmp r.Data x) := by
  have hc2 := hs.total hc
  have hk : ValidKind s.Order.kind := Or.inl hs.kind_eq
  have hco := hs.order_compare
  have hrs : r.Order.Vector.data.Pairwise
      (fun a b => dirCmp s.Order.kind s.Order.compare a b ≤ 0) := by
    have := hr.sorted
    rw [hr.kind_eq, hr.order_compare] at this
    rw [hs.kind_eq, hco]
    exact this
  have hm := s.Order.merge_pairwise hc2 hk _ _ hs.sorted hrs
  rw [hs.kind_eq] at hm
  simp only [dirCmp_inc] at hm
  refine ⟨⟨⟨⟨s.Order.dedupFrom none
      (List.merge s.Order.Vector.data r.Order.Vector.data s.Order.takesLeft)⟩,
      s.Order.compare, s.Order.kind⟩, s.compare⟩, ?_,
    ⟨hs.compare_eq, hco, hs.kind_eq, ?_⟩, ?_⟩
  · simp only [SetImpl.Union, OrderImpl.combine_eq, bind, Except.bind]
    rfl
  · have := s.Order.dedupFrom_none_strict hc2 _ hm
    rw [hco] at this
    exact this
  · intro x
    have := s.Order.dedupFrom_none_hasEq hc2
      (List.merge s.Order.Vector.data r.Order.Vector.data s.Order.takesLeft) x
    rw [hco] at this
    show HasEq cmp (s.Order.dedupFrom none _) x ↔ _
    rw [this]
    simp only [HasEq, List.mem_merge, SetImpl.Data, OrderImpl.Data, Impl.Data]
    constructor
    · rintro ⟨y, hy | hy, h0⟩
      · exact Or.inl ⟨y, hy, h0⟩
      · exact Or.inr ⟨y, hy, h0⟩
    · rintro (⟨y, hy, h0⟩ | ⟨y, hy, h0⟩)
      · exact ⟨y, Or.inl hy, h0⟩
      · exact ⟨y, Or.inr hy, h0⟩

/-! ## Sets: Intersection and the differences -/

/-- The collecting loops of the set algebra over a sorted order: they return, and they keep
what was collected before and add the values whose lookup has the wanted outcome. -/
theorem collect_spec {T : Type} (o : OrderImpl T) (hc : IsTotalOrder o.compare)
    (hk : ValidKind o.kind)
    (hs : o.Vector.data.Pairwise (fun a b => dirCmp o.kind o.compare a b ≤ 0))
    (wantFound : Bool) (xs : List T) :
    ∀ acc : List T, ∃ vals, collect o wantFound acc xs = .ok vals ∧
      ∀ y, y ∈ vals ↔ (y ∈ acc ∨ (y ∈ xs ∧
        (HasEq o.compare o.Vector.data y ↔ wantFound = true))) := by
  induction xs with
  | nil =>
    intro acc
    exact ⟨acc, rfl, fun y => by simp⟩
  | cons v vs ih =>
    intro acc
    obtain ⟨r, hr, hiff⟩ := o.firstIndexOf_found_iff v hc hk hs
    by_cases hcond : decide (r ≠ -1) = wantFound
    · obtain ⟨vals, hrun, hmem⟩ := ih (acc ++ [v])
      refine ⟨vals, ?_, ?_⟩
      · unfold collect at hrun ⊢
        simp only [List.foldlM_cons, bind, Except.bind, hr, if_pos hcond]
        exact hrun
      · intro y
        rw [hmem y]
        have hv : HasEq o.compare o.Vector.data v ↔ wantFound = true := by
          rw [← hiff, ← hcond]
          simp
        simp only [List.mem_append, List.mem_cons, List.not_mem_nil, or_false]
        constructor
        · rintro ((h | h) | h)
          · exact Or.inl h
          · exact Or.inr ⟨Or.inl h, h ▸ hv⟩
          · exact Or.inr ⟨Or.inr h.1, h.2⟩
        · rintro (h | ⟨h | h, h2⟩)
          · exact Or.inl (Or.inl h)
          · exact Or.inl (Or.inr h)
          · exact Or.inr ⟨h, h2⟩
    · obtain ⟨vals, hrun, hmem⟩ := ih acc
      refine ⟨vals, ?_, ?_⟩
      · unfold collect at hrun ⊢
        simp only [List.foldlM_cons, bind, Except.bind, hr, if_neg hcond]
        exact hrun
      · intro y
        rw [hmem y]
        have hv : ¬ (HasEq o.compare o.Vector.data v ↔ wantFound = true) := by
          rw [← hiff]
          intro h
          apply hcond
          cases wantFound <;> simp_all
        simp only [List.mem_cons]
        constructor
        · rintro (h | h)
          · exact Or.inl h
          · exact Or.inr ⟨Or.inr h.1, h.2⟩
        · rintro (h | ⟨h | h, h2⟩)
          · exact Or.inl h
          · exact absurd (h ▸ h2) hv
          · exact Or.inr ⟨h, h2⟩

/-- The collecting loops over a set's order. -/
theorem SetImpl.setCollect_spec {T : Type} {cmp : CompareFunc T} (hc : IsTotalOrder cmp)
    (s : SetImpl T) (hs : s.WF cmp) (wantFound : Bool) (xs acc : List T) :
    ∃ vals, collect s.Order wantFound acc xs = .ok vals ∧
      ∀ y, y ∈ vals ↔ (y ∈ acc ∨ (y ∈ xs ∧ (HasEq cmp s.Data y ↔ wantFound = true))) := by
  have h := vector.collect_spec s.Order (hs.total hc) (Or.inl hs.kind_eq) hs.sorted wantFound
    xs acc
  rw [hs.order_compare] at h
  exact h

/-- Adding values to a fresh set returns a set that keeps the invariant and whose members
are the values equal to an added one. -/
theorem SetImpl.newSet_add_spec {T : Type} {cmp : CompareFunc T} (hc : IsTotalOrder cmp)
    (values : List T) :
    ∃ s2 n2, (NewSet cmp).add values = .ok (s2, n2) ∧ s2.WF cmp ∧
      ∀ x, HasEq cmp s2.Data x ↔ ∃ v ∈ values, cmp v x = 0 := by
  obtain ⟨s2, n2, h, hwf, hm⟩ := SetImpl.add_spec hc (NewSet cmp) (NewSet_WF cmp) values
  refine ⟨s2, n2, h, hwf, fun x => ?_⟩
  rw [hm x]
  simp [HasEq, SetImpl.Data, OrderImpl.Data, Impl.Data, NewSet, NewOrder, NewVector]

theorem SetImpl.intersection_spec {T : Type} {cmp : CompareFunc T} (hc : IsTotalOrder cmp)
    (s r : SetImpl T) (hs : s.WF cmp) (hr : r.WF cmp) :
    ∃ u, s.Intersection r = .ok u ∧ u.WF cmp ∧
      ∀ x, HasEq cmp u.Data x ↔ (HasEq cmp s.Data x ∧ HasEq cmp r.Data x) := by
  obtain ⟨v1, h1, hm1⟩ := SetImpl.setCollect_spec hc s hs true r.Data []
  obtain ⟨v2, h2, hm2⟩ := SetImpl.setCollect_spec hc r hr true s.Data v1
  obtain ⟨u, n, h3, hwf, hm3⟩ := SetImpl.newSet_add_spec hc v2
  refine ⟨u, ?_, hwf, fun x => ?_⟩
  · simp only [SetImpl.Intersection, hs.compare_eq, h1, h2, h3, bind, Except.bind]
    rfl
  · rw [hm3 x]
    constructor
    · rintro ⟨v, hv, h0⟩
      rcases (hm2 v).mp hv with hv1 | ⟨hvs, hvr⟩
      · rcases (hm1 v).mp hv1 with hv0 | ⟨hvr, hvs⟩
        · simp at hv0
        · obtain ⟨y, hy, hy0⟩ := hvs.mpr rfl
          exact ⟨⟨y, hy, hc.eq_trans hy0 h0⟩, ⟨v, hvr, h0⟩⟩
      · obtain ⟨y, hy, hy0⟩ := hvr.mpr rfl
        exact ⟨⟨v, hvs, h0⟩, ⟨y, hy, hc.eq_trans hy0 h0⟩⟩
    · rintro ⟨⟨y, hy, hy0⟩, ⟨z, hz, hz0⟩⟩
      refine ⟨y, (hm2 y).mpr (Or.inr ⟨hy, ?_⟩), hy0⟩
      have : HasEq cmp r.Data y := ⟨z, hz, hc.eq_trans hz0 ((hc.eq_comm y x).mp hy0)⟩
      exact ⟨fun _ => rfl, fun _ => this⟩

theorem SetImpl.leftDifference_spec {T : Type} {cmp : CompareFunc T} (hc : IsTotalOrder cmp)
    (s r : SetImpl T) (hs : s.WF cmp) (hr : r.WF cmp) :
    ∃ u, s.LeftDifference r = .ok u ∧ u.WF cmp ∧
      ∀ x, HasEq cmp u.Data x ↔ (HasEq cmp s.Data x ∧ ¬ HasEq cmp r.Data x) := by
  obtain ⟨v1, h1, hm1⟩ := SetImpl.setCollect_spec hc r hr false s.Data []
  obtain ⟨u, n, h3, hwf, hm3⟩ := SetImpl.newSet_add_spec hc v1
  refine ⟨u, ?_, hwf, fun x => ?_⟩
  · simp only [SetImpl.LeftDifference, hs.compare_eq, h1, h3, bind, Except.bind]
    rfl
  · rw [hm3 x]
    constructor
    · rintro ⟨v, hv, h0⟩
      rcases (hm1 v).mp hv with hv0 | ⟨hvs, hvr⟩
      · simp at hv0
      · refine ⟨⟨v, hvs, h0⟩, ?_⟩
        rintro ⟨z, hz, hz0⟩
        have : HasEq cmp r.Data v := ⟨z, hz, hc.eq_trans hz0 ((hc.eq_comm v x).mp h0)⟩
        exact absurd (hvr.mp this) (by simp)
    · rintro ⟨⟨y, hy, hy0⟩, hnr⟩
      refine ⟨y, (hm1 y).mpr (Or.inr ⟨hy, ?_⟩), hy0⟩
      constructor
      · rintro ⟨z, hz, hz0⟩
        exact absurd ⟨z, hz, hc.eq_trans hz0 hy0⟩ hnr
      · intro h
        exact absurd h (by simp)

/-- The function `RightDifference` is `LeftDifference` with the operands swapped. -/
theorem SetImpl.rightDifference_eq {T : Type} {cmp : CompareFunc T} (s r : SetImpl T)
    (hs : s.WF cmp) (hr : r.WF cmp) : s.RightDifference r = r.LeftDifference s := by
  simp only [SetImpl.RightDifference, SetImpl.LeftDifference, hs.compare_eq, hr.compare_eq]

theorem SetExpr.eval_WF {T : Type} {cmp : CompareFunc T} (hc : IsTotalOrder cmp)
    (e : SetExpr T) : ∃ s, e.eval cmp = .ok s ∧ s.WF cmp := by
  induction e with
  | new => exact ⟨_, rfl, NewSet_WF cmp⟩
  | add e values ih =>
    obtain ⟨s, h, hwf⟩ := ih
    obtain ⟨s2, n2, h2, hwf2, _⟩ := SetImpl.add_spec hc s hwf values
    exact ⟨s2, by simp only [SetExpr.eval, h, h2, bind, Except.bind]; rfl, hwf2⟩
  | remove e values ih =>
    obtain ⟨s, h, hwf⟩ := ih
    obtain ⟨s2, n2, h2, hwf2, _⟩ := SetImpl.remove_spec hc s hwf values
    exact ⟨s2, by simp only [SetExpr.eval, h, h2, bind, Except.bind]; rfl, hwf2⟩
  | union e1 e2 ih1 ih2 =>
    obtain ⟨s, h, hwf⟩ := ih1
    obtain ⟨r, hr, hwfr⟩ := ih2
    obtain ⟨u, hu, hwfu, _⟩ := SetImpl.union_spec hc s r hwf hwfr
    exact ⟨u, by simp only [SetExpr.eval, h, hr, hu, bind, Except.bind], hwfu⟩
  | intersection e1 e2 ih1 ih2 =>
    obtain ⟨s, h, hwf⟩ := ih1
    obtain ⟨r, hr, hwfr⟩ := ih2
    obtain ⟨u, hu, hwfu, _⟩ := SetImpl.intersection_spec hc s r hwf hwfr
    exact ⟨u, by simp only [SetExpr.eval, h, hr, hu, bind, Except.bind], hwfu⟩
  | leftDifference e1 e2 ih1 ih2 =>
    obtain ⟨s, h, hwf⟩ := ih1
    obtain ⟨r, hr, hwfr⟩ := ih2
    obtain ⟨u, hu, hwfu, _⟩ := SetImpl.leftDifference_spec hc s r hwf hwfr
    exact ⟨u, by simp only [SetExpr.eval, h, hr, hu, bind, Except.bind], hwfu⟩
  | rightDifference e1 e2 ih1 ih2 =>
    obtain ⟨s, h, hwf⟩ := ih1
    obtain ⟨r, hr, hwfr⟩ := ih2
    obtain ⟨u, hu, hwfu, _⟩ := SetImpl.leftDifference_spec hc r s hwfr hwf
    rw [← SetImpl.rightDifference_eq s r hwf hwfr] at hu
    exact ⟨u, by simp only [SetExpr.eval, h, hr, hu, bind, Except.bind], hwfu⟩

/-! ## The claims on sets -/

theorem testSet0_WF : testSet0.WF CompareNumber :=
  ⟨rfl, rfl, rfl, by decide⟩

theorem testSet1_WF : testSet1.WF CompareNumber :=
  ⟨rfl, rfl, rfl, by decide⟩

/-- The fixture `testSet0` is what `NewSet` followed by `Add(1,2,3,4,5)` builds. -/
theorem testSet0_built : (NewSet CompareNumber).Add [1, 2, 3, 4, 5] = .ok (testSet0, 5) := rfl

/-- The fixture `testSet1` is what `NewSet` followed by `Add(4,5,6,7,8)` builds. -/
theorem testSet1_built : (NewSet CompareNumber).Add [4, 5, 6, 7, 8] = .ok (testSet1, 5) := rfl

/-- C3: over a total-order comparator, every set obtained from `NewSet` by `Add`, `Remove`,
`Union`, `Intersection`, `LeftDifference` and `RightDifference` calls is obtained without a
panic and has strictly ascending data, so no two of its elements compare equal. -/
theorem C3_set_strictly_ascending {T : Type} (cmp : CompareFunc T) (hc : IsTotalOrder cmp)
    (e : SetExpr T) :
    ∃ s, e.eval cmp = .ok s ∧ s.Data.Pairwise (fun a b => cmp a b < 0) ∧
      ∀ (i j : Nat) (hi : i < s.Data.length) (hj : j < s.Data.length), i ≠ j →
        cmp (s.Data.get ⟨i, hi⟩) (s.Data.get ⟨j, hj⟩) ≠ 0 := by
  obtain ⟨s, h, hwf⟩ := SetExpr.eval_WF hc e
  have hp : s.Data.Pairwise (fun a b => cmp a b < 0) := hwf.strict
  refine ⟨s, h, hp, ?_⟩
  intro i j hi hj hij
  have hg := List.pairwise_iff_getElem.mp hp
  rcases Nat.lt_or_gt_of_ne hij with hlt | hlt
  · have := hg i j hi hj hlt
    simp only [List.get_eq_getElem]
    omega
  · have := hg j i hj hi hlt
    have := (hc.antisymm _ _).mp this
    simp only [List.get_eq_getElem]
    omega

/-- C3 at the union of the two sets of the set tests, built by `Add` from `NewSet`. -/
theorem C3_set_strictly_ascending_witness :
    IsTotalOrder CompareNumber ∧
    ∃ s, (SetExpr.union (.add .new [1, 2, 3, 4, 5]) (.add .new [4, 5, 6, 7, 8])).eval
        CompareNumber = .ok s ∧
      s.Data.Pairwise (fun a b => CompareNumber a b < 0) ∧
      ∀ (i j : Nat) (hi : i < s.Data.length) (hj : j < s.Data.length), i ≠ j →
        CompareNumber (s.Data.get ⟨i, hi⟩) (s.Data.get ⟨j, hj⟩) ≠ 0 :=
  ⟨CompareNumber_total, C3_set_strictly_ascending CompareNumber CompareNumber_total
    (.union (.add .new [1, 2, 3, 4, 5]) (.add .new [4, 5, 6, 7, 8]))⟩

/-- C7: for sets `S` and `R` over the same total-order comparator and every value `x`,
`S.Union(R)` returns and `S.Union(R).Has(x)` holds if and only if `S.Has(x)` or `R.Has(x)`. -/
theorem C7_union_has {T : Type} (cmp : CompareFunc T) (hc : IsTotalOrder cmp)
    (s r : SetImpl T) (hs : s.WF cmp) (hr : r.WF cmp) (x : T) :
    ∃ u bu bs br, s.Union r = .ok u ∧ u.Has x = .ok bu ∧ s.Has x = .ok bs ∧
      r.Has x = .ok br ∧ (bu = true ↔ (bs = true ∨ br = true)) := by
  obtain ⟨u, hu, hwf, hm⟩ := SetImpl.union_spec hc s r hs hr
  obtain ⟨bu, hbu, hiu⟩ := SetImpl.has_spec hc u hwf x
  obtain ⟨bs, hbs, his⟩ := SetImpl.has_spec hc s hs x
  obtain ⟨br, hbr, hir⟩ := SetImpl.has_spec hc r hr x
  exact ⟨u, bu, bs, br, hu, hbu, hbs, hbr, by rw [hiu, his, hir]; exact hm x⟩

/-- C7 at the scenario of the set tests: `{1,2,3,4,5}` union `{4,5,6,7,8}` has data
`[1,2,3,4,5,6,7,8]`, and membership of `6`. -/
theorem C7_union_has_witness :
    (testSet0.Union testSet1).map SetImpl.Data = .ok [1, 2, 3, 4, 5, 6, 7, 8] ∧
    ∃ u bu bs br, testSet0.Union testSet1 = .ok u ∧ u.Has 6 = .ok bu ∧
      testSet0.Has 6 = .ok bs ∧ testSet1.Has 6 = .ok br ∧
      (bu = true ↔ (bs = true ∨ br = true)) :=
  ⟨rfl, C7_union_has CompareNumber CompareNumber_total testSet0 testSet1 testSet0_WF
    testSet1_WF 6⟩

/-- C8: for sets `S` and `R` over the same total-order comparator (empty ones included) and
every value `x`, `S.Intersection(R)` returns and `S.Intersection(R).Has(x)` holds if and only
if `S.Has(x)` and `R.Has(x)`. -/
theorem C8_intersection_has {T : Type} (cmp : CompareFunc T) (hc : IsTotalOrder cmp)
    (s r : SetImpl T) (hs : s.WF cmp) (hr : r.WF cmp) (x : T) :
    ∃ u bu bs br, s.Intersection r = .ok u ∧ u.Has x = .ok bu ∧ s.Has x = .ok bs ∧
      r.Has x = .ok br ∧ (bu = true ↔ (bs = true ∧ br = true)) := by
  obtain ⟨u, hu, hwf, hm⟩ := SetImpl.intersection_spec hc s r hs hr
  obtain ⟨bu, hbu, hiu⟩ := SetImpl.has_spec hc u hwf x
  obtain ⟨bs, hbs, his⟩ := SetImpl.has_spec hc s hs x
  obtain ⟨br, hbr, hir⟩ := SetImpl.has_spec hc r hr x
  exact ⟨u, bu, bs, br, hu, hbu, hbs, hbr, by rw [hiu, his, hir]; exact hm x⟩

/-- C8 at the scenario of the set tests: `[4,5]` in both call orders, and membership of
`4`. -/
theorem C8_intersection_has_witness :
    (testSet0.Intersection testSet1).map SetImpl.Data = .ok [4, 5] ∧
    (testSet1.Intersection testSet0).map SetImpl.Data = .ok [4, 5] ∧
    ∃ u bu bs br, testSet0.Intersection testSet1 = .ok u ∧ u.Has 4 = .ok bu ∧
      testSet0.Has 4 = .ok bs ∧ testSet1.Has 4 = .ok br ∧
      (bu = true ↔ (bs = true ∧ br = true)) :=
  ⟨rfl, rfl, C8_intersection_has CompareNumber CompareNumber_total testSet0 testSet1
    testSet0_WF testSet1_WF 4⟩

/-- C9: for sets `S` and `R` over the same total-order comparator and every value `x`, both
differences return, `S.LeftDifference(R).Has(x)` iff `S.Has(x)` and not `R.Has(x)`,
`S.RightDifference(R).Has(x)` iff `R.Has(x)` and not `S.Has(x)`, and `S.RightDifference(R)`
has the same data as `R.LeftDifference(S)`. -/
theorem C9_difference_has {T : Type} (cmp : CompareFunc T) (hc : IsTotalOrder cmp)
    (s r : SetImpl T) (hs : s.WF cmp) (hr : r.WF cmp) (x : T) :
    ∃ l rd l2 bl brd bs br, s.LeftDifference r = .ok l ∧ s.RightDifference r = .ok rd ∧
      r.LeftDifference s = .ok l2 ∧ l.Has x = .ok bl ∧ rd.Has x = .ok brd ∧
      s.Has x = .ok bs ∧ r.Has x = .ok br ∧
      (bl = true ↔ (bs = true ∧ ¬ br = true)) ∧
      (brd = true ↔ (br = true ∧ ¬ bs = true)) ∧
      rd.Data = l2.Data := by
  obtain ⟨l, hl, hwfl, hml⟩ := SetImpl.leftDifference_spec hc s r hs hr
  obtain ⟨l2, hl2, hwfl2, hml2⟩ := SetImpl.leftDifference_spec hc r s hr hs
  obtain ⟨bl, hbl, hil⟩ := SetImpl.has_spec hc l hwfl x
  obtain ⟨brd, hbrd, hird⟩ := SetImpl.has_spec hc l2 hwfl2 x
  obtain ⟨bs, hbs, his⟩ := SetImpl.has_spec hc s hs x
  obtain ⟨br, hbr, hir⟩ := SetImpl.has_spec hc r hr x
  refine ⟨l, l2, l2, bl, brd, bs, br, hl, ?_, hl2, hbl, hbrd, hbs, hbr, ?_, ?_, rfl⟩
  · rw [SetImpl.rightDifference_eq s r hs hr]
    exact hl2
  · rw [hil, his, hir]
    exact hml x
  · rw [hird, his, hir]
    exact hml2 x

/-- C9 at the scenario of the set tests: the differences of `{1,2,3,4,5}` and `{4,5,6,7,8}`
are `[1,2,3]` and `[6,7,8]`, and membership of `2`. -/
theorem C9_difference_has_witness :
    (testSet0.LeftDifference testSet1).map SetImpl.Data = .ok [1, 2, 3] ∧
    (testSet0.RightDifference testSet1).map SetImpl.Data = .ok [6, 7, 8] ∧
    ∃ l rd l2 bl brd bs br, testSet0.LeftDifference testSet1 = .ok l ∧
      testSet0.RightDifference testSet1 = .ok rd ∧
      testSet1.LeftDifference testSet0 = .ok l2 ∧ l.Has 2 = .ok bl ∧ rd.Has 2 = .ok brd ∧
      testSet0.Has 2 = .ok bs ∧ testSet1.Has 2 = .ok br ∧
      (bl = true ↔ (bs = true ∧ ¬ br = true)) ∧
      (brd = true ↔ (br = true ∧ ¬ bs = true)) ∧
      rd.Data = l2.Data :=
  ⟨rfl, rfl, C9_difference_has CompareNumber CompareNumber_total testSet0 testSet1
    testSet0_WF testSet1_WF 2⟩

/-- C10: membership follows `Add` and `Remove`: for a set `S` over a total-order comparator
and values `v`, `x`, both calls return; after `S.Add(v)`, `Has(x)` holds iff `Has(x)` held
before or `x` compares equal to `v`; after `S.Remove(v)`, `Has(x)` holds iff `Has(x)` held
before and `x` does not compare equal to `v`. -/
theorem C10_membership_add_remove {T : Type} (cmp : CompareFunc T) (hc : IsTotalOrder cmp)
    (s : SetImpl T) (hs : s.WF cmp) (v x : T) :
    ∃ sa na sr nr ba br b, s.Add [v] = .ok (sa, na) ∧ s.Remove [v] = .ok (sr, nr) ∧
      sa.Has x = .ok ba ∧ sr.Has x = .ok br ∧ s.Has x = .ok b ∧
      (ba = true ↔ (b = true ∨ cmp x v = 0)) ∧
      (br = true ↔ (b = true ∧ cmp x v ≠ 0)) := by
  obtain ⟨sa, na, ha, hwfa, hma⟩ := SetImpl.add_spec hc s hs [v]
  obtain ⟨sr, nr, hr, hwfr, hmr⟩ := SetImpl.remove_spec hc s hs [v]
  obtain ⟨ba, hba, hia⟩ := SetImpl.has_spec hc sa hwfa x
  obtain ⟨br, hbr, hir⟩ := SetImpl.has_spec hc sr hwfr x
  obtain ⟨b, hb, hi⟩ := SetImpl.has_spec hc s hs x
  refine ⟨sa, na, sr, nr, ba, br, b, ha, hr, hba, hbr, hb, ?_, ?_⟩
  · rw [hia, hi, hma x, hc.eq_comm x v]
    simp
  · rw [hir, hi, hmr x, Ne, hc.eq_comm x v]
    simp

/-- C10 at the set `{1,2,3,4,5}` with `v = 3`, `x = 3`, and the scenario of the strings-set
test: `NewStringsSet([first, second])` has `first` and `second` but not `third`. -/
theorem C10_membership_add_remove_witness :
    (do
      let s ← NewStringsSet ["first", "second"]
      let a ← s.Has "first"
      let b ← s.Has "second"
      let c ← s.Has "third"
      pure (a, b, c)) = Except.ok (true, true, false) ∧
    ∃ sa na sr nr ba br b, testSet0.Add [3] = .ok (sa, na) ∧
      testSet0.Remove [3] = .ok (sr, nr) ∧
      sa.Has 3 = .ok ba ∧ sr.Has 3 = .ok br ∧ testSet0.Has 3 = .ok b ∧
      (ba = true ↔ (b = true ∨ CompareNumber 3 3 = 0)) ∧
      (br = true ↔ (b = true ∧ CompareNumber 3 3 ≠ 0)) :=
  ⟨rfl, C10_membership_add_remove CompareNumber CompareNumber_total testSet0 testSet0_WF 3 3⟩

/-! ## The claims on sequences -/

/-- C17: for a sequence with data `d`, an index `i ≤ len(d)` and values `vs`, `Insert(i, vs...)`
succeeds and leaves the data `d[:i] ++ vs ++ d[i:]`; at `i = len(d)` that is what `Append`
leaves. -/
theorem C17_insert_in_range {T : Type} (v : Impl T) (i : Nat) (vs : List T)
    (h : i ≤ v.Data.length) :
    v.Insert i vs = (.ok (), ⟨v.Data.take i ++ vs ++ v.Data.drop i⟩) ∧
      (i = v.Data.length → (v.Insert i vs).2 = v.append vs) := by
  have h1 : v.Insert i vs = (.ok (), ⟨v.Data.take i ++ vs ++ v.Data.drop i⟩) :=
    Impl.insert_ok v i vs h
  refine ⟨h1, fun e => ?_⟩
  rw [h1, e]
  simp [Impl.append, Impl.Data]

/-- C17 at an insert in the middle of `[1,2,3,4]`. -/
theorem C17_insert_in_range_witness :
    (⟨[1, 2, 3, 4]⟩ : Impl Int).Insert 2 [5, 6] = (.ok (), ⟨[1, 2, 5, 6, 3, 4]⟩) ∧
      (2 = 4 → ((⟨[1, 2, 3, 4]⟩ : Impl Int).Insert 2 [5, 6]).2 =
        (⟨[1, 2, 3, 4]⟩ : Impl Int).append [5, 6]) :=
  C17_insert_in_range ⟨[1, 2, 3, 4]⟩ 2 [5, 6] (by decide)

/-- Below `2^63` the claim of C18 holds: `insert` panics with `ErrIndexOutOfRange` exactly
when the index is beyond the length. -/
theorem Impl.insert_err_iff {T : Type} (v : Impl T) (i : Nat) (vs : List T)
    (hi : i < 2 ^ 63) :
    (v.Insert i vs).1 = .error .ErrIndexOutOfRange ↔ i > v.data.length := by
  have hconv := intOfUint_small i hi
  unfold Impl.Insert Impl.insert
  rw [hconv]
  by_cases h0 : i = 0
  · simp [h0]
  · by_cases h1 : (i : Int) = (v.data.length : Int)
    · have : ¬ i > v.data.length := by omega
      simp [h0, h1, this]
    · by_cases h2 : (i : Int) > (v.data.length : Int)
      · have : i > v.data.length := by omega
        simp [h0, h1, h2, this]
      · have h3 : i ≤ v.data.length := by omega
        have h4 : ¬ i > v.data.length := by omega
        simp [h0, h1, h2, h3, h4]

/-- C18 fails at the index `2^63`: `int(index)` is negative there, none of the guarded cases
of `insert` applies, and the default case panics at runtime on `oldData[:index]` instead of
panicking with `ErrIndexOutOfRange`, although the index is beyond the length. -/
theorem C18_insert_huge_index :
    2 ^ 63 > (⟨[1, 2, 3]⟩ : Impl Int).Data.length ∧
      intOfUint (2 ^ 63) = -(2 ^ 63) ∧
      ((⟨[1, 2, 3]⟩ : Impl Int).Insert (2 ^ 63) [9]).1 = .error .RuntimeIndexOutOfRange ∧
      ((⟨[1, 2, 3]⟩ : Impl Int).Insert (2 ^ 63) [9]).1 ≠ .error .ErrIndexOutOfRange := by
  have e : ((⟨[1, 2, 3]⟩ : Impl Int).Insert (2 ^ 63) [9]).1 =
      .error .RuntimeIndexOutOfRange := rfl
  refine ⟨by decide, by decide, e, ?_⟩
  rw [e]
  intro h
  cases h

/-- C19 fails at `Insert(5, 9)` on `[1,2,3,4]`: the call panics with `ErrIndexOutOfRange`
and leaves the sequence empty, because the storage is replaced before the index is
checked. -/
theorem C19_insert_failure_empties :
    (⟨[1, 2, 3, 4]⟩ : Impl Int).Insert 5 [9] = (.error .ErrIndexOutOfRange, ⟨[]⟩) ∧
      ((⟨[1, 2, 3, 4]⟩ : Impl Int).Insert 5 [9]).2.Data ≠ [1, 2, 3, 4] := by
  have e : (⟨[1, 2, 3, 4]⟩ : Impl Int).Insert 5 [9] = (.error .ErrIndexOutOfRange, ⟨[]⟩) := rfl
  refine ⟨e, ?_⟩
  rw [e]
  decide

/-- C20: for a sequence with data `d` and an index `i < len(d)`, `Remove(i)` returns `d[i]`
and leaves the data `d[:i] ++ d[i+1:]`, one element shorter. -/
theorem C20_remove_in_range {T : Type} (v : Impl T) (i : Nat) (h : i < v.Data.length) :
    v.Remove i = (.ok (v.Data.get ⟨i, h⟩), ⟨v.Data.take i ++ v.Data.drop (i + 1)⟩) ∧
      (v.Remove i).2.Data.length + 1 = v.Data.length := by
  have h1 : v.Remove i = (.ok (v.Data.get ⟨i, h⟩), ⟨v.Data.take i ++ v.Data.drop (i + 1)⟩) :=
    Impl.remove_ok v i h
  refine ⟨h1, ?_⟩
  rw [h1]
  simp only [Impl.Data, List.length_append, List.length_take, List.length_drop] at h ⊢
  omega

/-- C20 at the removal in the middle of the sequence tests. -/
theorem C20_remove_in_range_witness :
    (⟨[1, 2, 3, 4]⟩ : Impl Int).Remove 2 = (.ok 3, ⟨[1, 2, 4]⟩) ∧
      ((⟨[1, 2, 3, 4]⟩ : Impl Int).Remove 2).2.Data.length + 1 = 4 :=
  C20_remove_in_range ⟨[1, 2, 3, 4]⟩ 2 (by decide)

/-! ## Sets: counts -/

theorem hasEqB_iff {T : Type} (cmp : CompareFunc T) (d : List T) (v : T) :
    hasEqB cmp d v = true ↔ HasEq cmp d v := by
  simp [hasEqB, HasEq]

/-- One step of the set's `add` with its count: the count and the length grow by one
exactly when no element compares equal to the value. -/
theorem SetImpl.setAddStep_count {T : Type} {cmp : CompareFunc T} (hc : IsTotalOrder cmp)
    (s : SetImpl T) (hs : s.WF cmp) (n : Nat) (v : T) :
    ∃ s2, SetImpl.addStep (s, n) v =
        .ok (s2, n + (if hasEqB cmp s.Data v then 0 else 1)) ∧
      s2.Data.length = s.Data.length + (if hasEqB cmp s.Data v then 0 else 1) ∧
      s2.WF cmp ∧ ∀ x, HasEq cmp s2.Data x ↔ (HasEq cmp s.Data x ∨ cmp v x = 0) := by
  obtain ⟨s2, n2, hrun, hwf, hm⟩ := SetImpl.setAddStep_spec hc s hs n v
  have hc2 := hs.total hc
  have hk : ValidKind s.Order.kind := Or.inl hs.kind_eq
  have hco := hs.order_compare
  rcases s.Order.firstIndexOf_spec v hc2 hk hs.sorted with ⟨i, h, hr, heq, _⟩ | ⟨hr, hnone⟩
  · have hne : ¬ ((i : Int) = -1) := by omega
    have hrun2 : SetImpl.addStep (s, n) v = .ok (s, n) := by
      simp only [SetImpl.addStep, hr, bind, Except.bind, if_neg hne]
      rfl
    rw [hrun2] at hrun
    have e : (s, n) = (s2, n2) := by
      injection hrun
    have e1 : s2 = s := (congrArg Prod.fst e).symm
    subst e1
    have hb : hasEqB cmp s2.Data v = true := by
      rw [hasEqB_iff]
      rw [hco] at heq
      exact ⟨_, List.get_mem _ _ _, heq⟩
    refine ⟨s2, ?_, ?_, hwf, hm⟩
    · rw [hrun2, hb]
      rfl
    · rw [hb]
      rfl
  · obtain ⟨k, hkn, hrunO, _, _⟩ := s.Order.addStep_spec 0 v hc2 hk hs.sorted
    have hrun2 : SetImpl.addStep (s, n) v = .ok ({ s with Order := { s.Order with
        Vector := ⟨s.Order.Vector.data.take k ++ v :: s.Order.Vector.data.drop k⟩ } },
        n + 1) := by
      simp only [SetImpl.addStep, hr, bind, Except.bind, OrderImpl.add, List.foldlM_cons,
        List.foldlM_nil, hrunO]
      rfl
    rw [hrun2] at hrun
    have e : (({ s with Order := { s.Order with
        Vector := ⟨s.Order.Vector.data.take k ++ v :: s.Order.Vector.data.drop k⟩ } } :
        SetImpl T), n + 1) = (s2, n2) := by
      injection hrun
    have e1 := (congrArg Prod.fst e).symm
    simp only at e1
    have hb : hasEqB cmp s.Data v = false := by
      rw [Bool.eq_false_iff]
      intro hb
      obtain ⟨y, hy, h0⟩ := (hasEqB_iff cmp s.Data v).mp hb
      rw [hco] at hnone
      exact hnone y hy h0
    have hk2 : min k s.Order.Vector.data.length = k := Nat.min_eq_left hkn
    refine ⟨s2, ?_, ?_, hwf, hm⟩
    · rw [hrun2, hb, e1]
      rfl
    · rw [hb, e1]
      simp only [SetImpl.Data, OrderImpl.Data, Impl.Data, List.length_append, List.length_take,
        List.length_cons, List.length_drop]
      simp only [Bool.false_eq_true, if_false]
      omega

theorem HasEq_append_singleton {T : Type} (cmp : CompareFunc T) (l : List T) (v x : T) :
    HasEq cmp (l ++ [v]) x ↔ (HasEq cmp l x ∨ cmp v x = 0) := by
  simp only [HasEq, List.mem_append, List.mem_singleton]
  constructor
  · rintro ⟨y, hy | hy, h0⟩
    · exact Or.inl ⟨y, hy, h0⟩
    · exact Or.inr (hy ▸ h0)
  · rintro (⟨y, hy, h0⟩ | h0)
    · exact ⟨y, Or.inl hy, h0⟩
    · exact ⟨v, Or.inr rfl, h0⟩

/-- The set's `add` over a list of values, with its count, started from a set whose members
are the members of `d` and of the values already passed. -/
theorem SetImpl.add_count_aux {T : Type} {cmp : CompareFunc T} (hc : IsTotalOrder cmp)
    (d : List T) (vs : List T) :
    ∀ (s : SetImpl T) (n : Nat) (earlier : List T), s.WF cmp →
      (∀ x, HasEq cmp s.Data x ↔ (HasEq cmp d x ∨ HasEq cmp earlier x)) →
      ∃ s2, vs.foldlM SetImpl.addStep (s, n) = .ok (s2, n + countNew cmp d earlier vs) ∧
        s2.Data.length = s.Data.length + countNew cmp d earlier vs ∧ s2.WF cmp := by
  induction vs with
  | nil =>
    intro s n earlier hs _
    exact ⟨s, rfl, rfl, hs⟩
  | cons v vs ih =>
    intro s n earlier hs hinv
    obtain ⟨s1, h1, hl1, hwf1, hm1⟩ := SetImpl.setAddStep_count hc s hs n v
    have hb : hasEqB cmp s.Data v = (hasEqB cmp d v || hasEqB cmp earlier v) := by
      rw [Bool.eq_iff_iff, Bool.or_eq_true, hasEqB_iff, hasEqB_iff, hasEqB_iff]
      exact hinv v
    obtain ⟨s2, h2, hl2, hwf2⟩ := ih s1 (n + (if hasEqB cmp s.Data v then 0 else 1))
      (earlier ++ [v]) hwf1 (fun x => by
        rw [hm1 x, hinv x, HasEq_append_singleton]
        tauto)
    refine ⟨s2, ?_, ?_, hwf2⟩
    · simp only [List.foldlM_cons, bind, Except.bind, h1]
      rw [h2, countNew, hb]
      congr 2
      omega
    · rw [hl2, hl1, countNew, hb]
      omega

theorem countNew_eq_zero {T : Type} (cmp : CompareFunc T) (d : List T) (vs : List T) :
    ∀ earlier : List T, (∀ v ∈ vs, HasEq cmp d v) → countNew cmp d earlier vs = 0 := by
  induction vs with
  | nil =>
    intro _ _
    rfl
  | cons v vs ih =>
    intro earlier h
    have hb : hasEqB cmp d v = true :=
      (hasEqB_iff cmp d v).mpr (h v (List.mem_cons_self _ _))
    rw [countNew, hb, ih _ (fun w hw => h w (List.mem_cons_of_mem _ hw))]
    simp

/-- C11: for a set `S` and values `vs`, `S.Add(vs...)` returns the number of values of `vs`
that compare equal neither to an element already in `S` nor to an earlier value of `vs`;
the length of `S` grows by exactly the returned count, and the count is `0` when every
value is already present. -/
theorem C11_add_count {T : Type} (cmp : CompareFunc T) (hc : IsTotalOrder cmp)
    (s : SetImpl T) (hs : s.WF cmp) (vs : List T) :
    ∃ s2 n, s.Add vs = .ok (s2, n) ∧ n = countNew cmp s.Data [] vs ∧
      s2.Data.length = s.Data.length + n ∧
      ((∀ v ∈ vs, HasEq cmp s.Data v) → n = 0) := by
  obtain ⟨s2, h, hl, _⟩ := SetImpl.add_count_aux hc s.Data vs s 0 [] hs (fun x => by
    simp [HasEq])
  refine ⟨s2, countNew cmp s.Data [] vs, ?_, rfl, hl, countNew_eq_zero cmp s.Data vs []⟩
  simpa [SetImpl.Add, SetImpl.add] using h

/-- C11 at the scenario of the set tests: `Add(12,223,3456,456)` returns `4`, the same call
again returns `0`, then `Add(13,223,3457,456)` returns `2`. -/
theorem C11_add_count_witness :
    (do
      let r1 ← (NewSet CompareNumber).Add [12, 223, 3456, 456]
      let r2 ← r1.1.Add [12, 223, 3456, 456]
      let r3 ← r2.1.Add [13, 223, 3457, 456]
      pure (r1.2, r2.2, r3.2, r3.1.Data)) =
        Except.ok (4, 0, 2, [12, 13, 223, 456, 3456, 3457]) ∧
    ∃ s2 n, testSet0.Add [7, 3, 7, 9] = .ok (s2, n) ∧
      n = countNew CompareNumber testSet0.Data [] [7, 3, 7, 9] ∧
      s2.Data.length = testSet0.Data.length + n ∧
      ((∀ v ∈ [7, 3, 7, 9], HasEq CompareNumber testSet0.Data v) → n = 0) :=
  ⟨rfl, C11_add_count CompareNumber CompareNumber_total testSet0 testSet0_WF [7, 3, 7, 9]⟩

/-- One step of the set's `remove` with its count: the data afterwards is the data without
the elements that compare equal to the value, and the count grows by one exactly when there
was such an element. -/
theorem SetImpl.removeStep_count {T : Type} {cmp : CompareFunc T} (hc : IsTotalOrder cmp)
    (s : SetImpl T) (hs : s.WF cmp) (n : Nat) (v : T) :
    ∃ s2, SetImpl.removeStep (s, n) v =
        .ok (s2, n + (if hasEqB cmp s.Data v then 1 else 0)) ∧
      s2.Data = s.Data.filter (fun y => decide (cmp y v ≠ 0)) ∧
      s2.Data.length + (if hasEqB cmp s.Data v then 1 else 0) = s.Data.length ∧
      s2.WF cmp := by
  obtain ⟨s2, n2, hrun, hwf, _⟩ := SetImpl.removeStep_spec hc s hs n v
  have hc2 := hs.total hc
  have hk : ValidKind s.Order.kind := Or.inl hs.kind_eq
  have hco := hs.order_compare
  rcases s.Order.firstIndexOf_spec v hc2 hk hs.sorted with ⟨i, h, hr, heq, _⟩ | ⟨hr, hnone⟩
  · rw [hco] at heq
    have hsplit : s.Order.Vector.data = s.Order.Vector.data.take i ++
        s.Order.Vector.data.get ⟨i, h⟩ :: s.Order.Vector.data.drop (i + 1) := by
      conv_lhs => rw [← List.take_append_drop i s.Order.Vector.data]
      rw [List.drop_eq_getElem_cons h]
      rfl
    have hs2 := hs.strict
    rw [hsplit] at hs2
    obtain ⟨_, h2, h3⟩ := List.pairwise_append.mp hs2
    obtain ⟨h4, _⟩ := List.pairwise_cons.mp h2
    have hne : (i : Int) ≠ -1 := by omega
    have hrun2 : SetImpl.removeStep (s, n) v = .ok ({ s with Order := { s.Order with
        Vector := ⟨s.Order.Vector.data.take i ++ s.Order.Vector.data.drop (i + 1)⟩ } },
        n + 1) := by
      simp only [SetImpl.removeStep, hr, bind, Except.bind, if_pos hne, Int.toNat_ofNat,
        Impl.remove_ok _ _ h]
      rfl
    rw [hrun2] at hrun
    have e : (({ s with Order := { s.Order with
        Vector := ⟨s.Order.Vector.data.take i ++ s.Order.Vector.data.drop (i + 1)⟩ } } :
        SetImpl T), n + 1) = (s2, n2) := by
      injection hrun
    have e1 := (congrArg Prod.fst e).symm
    simp only at e1
    have hb : hasEqB cmp s.Data v = true := by
      rw [hasEqB_iff]
      exact ⟨_, List.get_mem _ _ _, heq⟩
    have hvi : cmp v (s.Order.Vector.data.get ⟨i, h⟩) = 0 := (hc.eq_comm _ _).mp heq
    have hfilter : s.Order.Vector.data.filter (fun y => decide (cmp y v ≠ 0)) =
        s.Order.Vector.data.take i ++ s.Order.Vector.data.drop (i + 1) := by
      conv_lhs => rw [hsplit]
      rw [List.filter_append, List.filter_cons]
      have hmid : decide (cmp (s.Order.Vector.data.get ⟨i, h⟩) v ≠ 0) = false := by
        rw [heq]
        rfl
      rw [hmid]
      simp only [Bool.false_eq_true, if_false]
      congr 1
      · rw [List.filter_eq_self]
        intro y hy
        have hlt := h3 y hy _ (List.mem_cons_self _ _)
        simp only [decide_eq_true_eq]
        intro h0
        have := hc.eq_trans h0 hvi
        omega
      · rw [List.filter_eq_self]
        intro y hy
        have hlt := h4 y hy
        simp only [decide_eq_true_eq]
        intro h0
        have h5 := hc.eq_trans h0 hvi
        have h6 := (hc.antisymm (s.Order.Vector.data.get ⟨i, h⟩) y).mp hlt
        omega
    refine ⟨s2, ?_, ?_, ?_, hwf⟩
    · rw [hrun2, hb, e1]
      rfl
    · rw [e1]
      exact hfilter.symm
    · rw [hb, e1]
      simp only [SetImpl.Data, OrderImpl.Data, Impl.Data, List.length_append, List.length_take,
        List.length_drop, if_true]
      omega
  · rw [hco] at hnone
    have hne : ¬ ((-1 : Int) ≠ -1) := by omega
    have hrun2 : SetImpl.removeStep (s, n) v = .ok (s, n) := by
      simp only [SetImpl.removeStep, hr, bind, Except.bind, if_neg hne]
      rfl
    rw [hrun2] at hrun
    have e : (s, n) = (s2, n2) := by
      injection hrun
    have e1 : s2 = s := (congrArg Prod.fst e).symm
    subst e1
    have hb : hasEqB cmp s2.Data v = false := by
      rw [Bool.eq_false_iff]
      intro hb
      obtain ⟨y, hy, h0⟩ := (hasEqB_iff cmp s2.Data v).mp hb
      exact hnone y hy h0
    refine ⟨s2, ?_, ?_, ?_, hwf⟩
    · rw [hrun2, hb]
      rfl
    · symm
      rw [List.filter_eq_self]
      intro y hy
      simpa using hnone y hy
    · rw [hb]
      rfl

/-- The set's `remove` over a list of values, with its count and the data it leaves. -/
theorem SetImpl.remove_count_aux {T : Type} {cmp : CompareFunc T} (hc : IsTotalOrder cmp)
    (vs : List T) :
    ∀ (s : SetImpl T) (n : Nat), s.WF cmp →
      ∃ s2, vs.foldlM SetImpl.removeStep (s, n) = .ok (s2, n + countRemoved cmp s.Data vs) ∧
        s2.Data = s.Data.filter (fun y => vs.all (fun v => decide (cmp y v ≠ 0))) ∧
        s2.Data.length + countRemoved cmp s.Data vs = s.Data.length ∧ s2.WF cmp := by
  induction vs with
  | nil =>
    intro s n hs
    exact ⟨s, rfl, by simp, rfl, hs⟩
  | cons v vs ih =>
    intro s n hs
    obtain ⟨s1, h1, hd1, hl1, hwf1⟩ := SetImpl.removeStep_count hc s hs n v
    obtain ⟨s2, h2, hd2, hl2, hwf2⟩ := ih s1 (n + (if hasEqB cmp s.Data v then 1 else 0)) hwf1
    have hcount : countRemoved cmp s.Data (v :: vs) =
        (if hasEqB cmp s.Data v then 1 else 0) + countRemoved cmp s1.Data vs := by
      rw [countRemoved, hd1]
      by_cases hb : hasEqB cmp s.Data v = true
      · rw [if_pos hb, if_pos hb]
      · rw [if_neg hb, if_neg hb, Nat.zero_add]
        have hself : s.Data.filter (fun y => decide (cmp y v ≠ 0)) = s.Data := by
          rw [List.filter_eq_self]
          intro y hy
          simp only [decide_eq_true_eq]
          intro h0
          exact hb ((hasEqB_iff cmp s.Data v).mpr ⟨y, hy, h0⟩)
        rw [hself]
    refine ⟨s2, ?_, ?_, ?_, hwf2⟩
    · simp only [List.foldlM_cons, bind, Except.bind, h1]
      rw [h2, hcount]
      congr 2
      omega
    · rw [hd2, hd1, List.filter_filter]
      congr 1
      funext y
      simp only [List.all_cons]
      exact Bool.and_comm _ _
    · rw [hcount]
      omega

theorem countRemoved_eq_zero {T : Type} (cmp : CompareFunc T) (vs : List T) :
    ∀ d : List T, (∀ v ∈ vs, ¬ HasEq cmp d v) → countRemoved cmp d vs = 0 := by
  induction vs with
  | nil =>
    intro _ _
    rfl
  | cons v vs ih =>
    intro d h
    have hb : ¬ hasEqB cmp d v = true := fun hb =>
      h v (List.mem_cons_self _ _) ((hasEqB_iff cmp d v).mp hb)
    rw [countRemoved, if_neg hb]
    exact ih d (fun w hw => h w (List.mem_cons_of_mem _ hw))

/-- C12: for a set `S` and values `vs`, `S.Remove(vs...)` returns the number of values
present at the moment they are processed; the data left is the data without the elements
equal to a value of `vs`, the length shrinks by exactly the returned count, the count is `0`
when no value is present, and the set is empty when every element is equal to a value of
`vs`. -/
theorem C12_remove_count {T : Type} (cmp : CompareFunc T) (hc : IsTotalOrder cmp)
    (s : SetImpl T) (hs : s.WF cmp) (vs : List T) :
    ∃ s2 n, s.Remove vs = .ok (s2, n) ∧ n = countRemoved cmp s.Data vs ∧
      s2.Data = s.Data.filter (fun y => vs.all (fun v => decide (cmp y v ≠ 0))) ∧
      s2.Data.length + n = s.Data.length ∧
      ((∀ v ∈ vs, ¬ HasEq cmp s.Data v) → n = 0) ∧
      ((∀ y ∈ s.Data, ∃ v ∈ vs, cmp y v = 0) → s2.Data = []) := by
  obtain ⟨s2, h, hd, hl, _⟩ := SetImpl.remove_count_aux hc vs s 0 hs
  refine ⟨s2, countRemoved cmp s.Data vs, ?_, rfl, hd, hl,
    countRemoved_eq_zero cmp vs s.Data, ?_⟩
  · simpa [SetImpl.Remove, SetImpl.remove] using h
  · intro hall
    rw [hd, List.filter_eq_nil_iff]
    intro y hy
    obtain ⟨v, hv, h0⟩ := hall y hy
    simp only [List.all_eq_true, decide_eq_true_eq, not_forall]
    exact ⟨v, hv, fun hne => hne h0⟩

/-- C12 at the scenario of the set tests: from `{12,223,456,3456}`, `Remove(12,3456)`
returns `2`, `Remove(456)` and `Remove(223)` return `1` each and leave the set empty. -/
theorem C12_remove_count_witness :
    (do
      let r0 ← (NewSet CompareNumber).Add [12, 223, 3456, 456]
      let r1 ← r0.1.Remove [12, 3456]
      let r2 ← r1.1.Remove [456]
      let r3 ← r2.1.Remove [223]
      pure (r1.2, r2.2, r3.2, r3.1.Data)) = Except.ok (2, 1, 1, []) ∧
    ∃ s2 n, testSet0.Remove [2, 9, 5, 2] = .ok (s2, n) ∧
      n = countRemoved CompareNumber testSet0.Data [2, 9, 5, 2] ∧
      s2.Data = testSet0.Data.filter
        (fun y => [2, 9, 5, 2].all (fun v => decide (CompareNumber y v ≠ 0))) ∧
      s2.Data.length + n = testSet0.Data.length ∧
      ((∀ v ∈ [2, 9, 5, 2], ¬ HasEq CompareNumber testSet0.Data v) → n = 0) ∧
      ((∀ y ∈ testSet0.Data, ∃ v ∈ [2, 9, 5, 2], CompareNumber y v = 0) → s2.Data = []) :=
  ⟨rfl, C12_remove_count CompareNumber CompareNumber_total testSet0 testSet0_WF [2, 9, 5, 2]⟩

/-! ## Sets: HasAny, HasAll and the algebra -/

/-- The lookup `Has` on a set returns the boolean membership. -/
theorem SetImpl.has_eq {T : Type} {cmp : CompareFunc T} (hc : IsTotalOrder cmp)
    (s : SetImpl T) (hs : s.WF cmp) (x : T) : s.Has x = .ok (hasEqB cmp s.Data x) := by
  obtain ⟨b, hb, hiff⟩ := SetImpl.has_spec hc s hs x
  rw [hb]
  congr 1
  rw [Bool.eq_iff_iff, hiff, hasEqB_iff]

/-- The counting loop of `HasAny` and `HasAll` returns the number of values that are
members. -/
theorem SetImpl.countFound_aux {T : Type} {cmp : CompareFunc T} (hc : IsTotalOrder cmp)
    (s : SetImpl T) (hs : s.WF cmp) (vs : List T) :
    ∀ c : Nat, vs.foldlM (fun (counter : Nat) v => do
        let index ← s.Order.firstIndexOf v
        if index ≠ -1 then pure (counter + 1) else pure counter) c =
      (.ok (c + vs.countP (hasEqB cmp s.Data)) : Except Error Nat) := by
  induction vs with
  | nil =>
    intro c
    rfl
  | cons v vs ih =>
    intro c
    obtain ⟨r, hr, hiff⟩ := s.Order.firstIndexOf_found_iff v (hs.total hc)
      (Or.inl hs.kind_eq) hs.sorted
    rw [hs.order_compare] at hiff
    rw [List.foldlM_cons]
    rw [hr]
    by_cases hne : r ≠ -1
    · have hb : hasEqB cmp s.Data v = true := (hasEqB_iff cmp s.Data v).mpr (hiff.mp hne)
      have step : (do
          let index ← (Except.ok r : Except Error Int)
          if index ≠ -1 then pure (c + 1) else pure c : Except Error Nat) = .ok (c + 1) := by
        simp only [bind, Except.bind, if_pos hne]
        rfl
      rw [step]
      refine (ih (c + 1)).trans ?_
      rw [List.countP_cons_of_pos _ _ hb]
      congr 1
      omega
    · have hb : ¬ hasEqB cmp s.Data v = true := fun hb =>
        hne (hiff.mpr ((hasEqB_iff cmp s.Data v).mp hb))
      have step : (do
          let index ← (Except.ok r : Except Error Int)
          if index ≠ -1 then pure (c + 1) else pure c : Except Error Nat) = .ok c := by
        simp only [bind, Except.bind, if_neg hne]
        rfl
      rw [step]
      refine (ih c).trans ?_
      rw [List.countP_cons_of_neg _ _ hb]

/-- C13: for a set `S` and values `vs`, `HasAny(vs...)` and `HasAll(vs...)` return;
`HasAny` is true iff at least one value of `vs` is a member (false for empty `vs`) and
`HasAll` is true iff every value of `vs` is a member (true for empty `vs`, whatever the
repetitions in `vs`). -/
theorem C13_hasAny_hasAll {T : Type} (cmp : CompareFunc T) (hc : IsTotalOrder cmp)
    (s : SetImpl T) (hs : s.WF cmp) (vs : List T) :
    ∃ bany ball, s.HasAny vs = .ok bany ∧ s.HasAll vs = .ok ball ∧
      (bany = true ↔ ∃ v ∈ vs, s.Has v = .ok true) ∧
      (ball = true ↔ ∀ v ∈ vs, s.Has v = .ok true) ∧
      (vs = [] → bany = false ∧ ball = true) := by
  have hcount : s.countFound vs = .ok (vs.countP (hasEqB cmp s.Data)) := by
    have := SetImpl.countFound_aux hc s hs vs 0
    rw [Nat.zero_add] at this
    exact this
  have hmem : ∀ v, s.Has v = .ok true ↔ hasEqB cmp s.Data v = true := by
    intro v
    rw [SetImpl.has_eq hc s hs v]
    constructor
    · intro h
      injection h
    · intro h
      rw [h]
  refine ⟨decide (vs.countP (hasEqB cmp s.Data) > 0),
    decide (vs.length = vs.countP (hasEqB cmp s.Data)), ?_, ?_, ?_, ?_, ?_⟩
  · simp only [SetImpl.HasAny, hcount, bind, Except.bind]
    rfl
  · simp only [SetImpl.HasAll, hcount, bind, Except.bind]
    rfl
  · simp only [decide_eq_true_eq, gt_iff_lt, List.countP_pos_iff, hmem]
  · simp only [decide_eq_true_eq, hmem]
    rw [eq_comm, List.countP_eq_length]
  · intro e
    subst e
    simp

/-- C13 at the set `{1,2,3,4,5}` with the values `3, 9, 3`, and at no value. -/
theorem C13_hasAny_hasAll_witness :
    testSet0.HasAny [3, 9, 3] = .ok true ∧ testSet0.HasAll [3, 9, 3] = .ok false ∧
    testSet0.HasAll [3, 3] = .ok true ∧
    testSet0.HasAny [] = .ok false ∧ testSet0.HasAll [] = .ok true ∧
    ∃ bany ball, testSet0.HasAny [3, 9, 3] = .ok bany ∧ testSet0.HasAll [3, 9, 3] = .ok ball ∧
      (bany = true ↔ ∃ v ∈ [3, 9, 3], testSet0.Has v = .ok true) ∧
      (ball = true ↔ ∀ v ∈ [3, 9, 3], testSet0.Has v = .ok true) ∧
      (([3, 9, 3] : List Int) = [] → bany = false ∧ ball = true) :=
  ⟨rfl, rfl, rfl, rfl, rfl,
    C13_hasAny_hasAll CompareNumber CompareNumber_total testSet0 testSet0_WF [3, 9, 3]⟩

/-- C15: for sets `S` and `R`, the union of `S.LeftDifference(R)` and `S.Intersection(R)`
is `S` as a set: all three calls return, and a value is a member of that union iff it is a
member of `S`. -/
theorem C15_difference_union_intersection {T : Type} (cmp : CompareFunc T)
    (hc : IsTotalOrder cmp) (s r : SetImpl T) (hs : s.WF cmp) (hr : r.WF cmp) (x : T) :
    ∃ l i u bu bs, s.LeftDifference r = .ok l ∧ s.Intersection r = .ok i ∧
      l.Union i = .ok u ∧ u.Has x = .ok bu ∧ s.Has x = .ok bs ∧ (bu = true ↔ bs = true) := by
  obtain ⟨l, hl, hwfl, hml⟩ := SetImpl.leftDifference_spec hc s r hs hr
  obtain ⟨i, hi, hwfi, hmi⟩ := SetImpl.intersection_spec hc s r hs hr
  obtain ⟨u, hu, hwfu, hmu⟩ := SetImpl.union_spec hc l i hwfl hwfi
  obtain ⟨bu, hbu, hiu⟩ := SetImpl.has_spec hc u hwfu x
  obtain ⟨bs, hbs, his⟩ := SetImpl.has_spec hc s hs x
  refine ⟨l, i, u, bu, bs, hl, hi, hu, hbu, hbs, ?_⟩
  rw [hiu, his, hmu x, hml x, hmi x]
  tauto

/-- C15 at the sets of the set tests: the union of `[1,2,3]` and `[4,5]` is `[1,2,3,4,5]`. -/
theorem C15_difference_union_intersection_witness :
    (do
      let l ← testSet0.LeftDifference testSet1
      let i ← testSet0.Intersection testSet1
      let u ← l.Union i
      pure u.Data) = Except.ok [1, 2, 3, 4, 5] ∧
    ∃ l i u bu bs, testSet0.LeftDifference testSet1 = .ok l ∧
      testSet0.Intersection testSet1 = .ok i ∧
      l.Union i = .ok u ∧ u.Has 4 = .ok bu ∧ testSet0.Has 4 = .ok bs ∧
      (bu = true ↔ bs = true) :=
  ⟨rfl, C15_difference_union_intersection CompareNumber CompareNumber_total testSet0 testSet1
    testSet0_WF testSet1_WF 4⟩

theorem compareFirst_total : IsTotalOrder compareFirst :=
  ⟨fun a b => CompareNumber_total.antisymm a.1 b.1,
    fun a b c => CompareNumber_total.trans a.1 b.1 c.1⟩

theorem pairSet0_WF : pairSet0.WF compareFirst :=
  ⟨rfl, rfl, rfl, by simp [pairSet0]⟩

theorem pairSet1_WF : pairSet1.WF compareFirst :=
  ⟨rfl, rfl, rfl, by simp [pairSet1]⟩

/-- Two strictly ascending lists with the same members up to comparing equal have the same
length and, position by position, elements that compare equal. -/
theorem strict_pointwise {T : Type} {cmp : CompareFunc T} (hc : IsTotalOrder cmp)
    (l1 : List T) :
    ∀ l2 : List T, l1.Pairwise (fun a b => cmp a b < 0) →
      l2.Pairwise (fun a b => cmp a b < 0) →
      (∀ x, HasEq cmp l1 x ↔ HasEq cmp l2 x) →
      List.Forall₂ (fun a b => cmp a b = 0) l1 l2 := by
  induction l1 with
  | nil =>
    intro l2 _ _ h
    cases l2 with
    | nil => exact List.Forall₂.nil
    | cons b t =>
      obtain ⟨y, hy, _⟩ := (h b).mpr ⟨b, List.mem_cons_self _ _, hc.refl b⟩
      simp at hy
  | cons a t1 ih =>
    intro l2 h1 h2 h
    cases l2 with
    | nil =>
      obtain ⟨y, hy, _⟩ := (h a).mp ⟨a, List.mem_cons_self _ _, hc.refl a⟩
      simp at hy
    | cons b t2 =>
      obtain ⟨ha, ht1⟩ := List.pairwise_cons.mp h1
      obtain ⟨hb, ht2⟩ := List.pairwise_cons.mp h2
      have hab_le : cmp a b ≤ 0 := by
        obtain ⟨z, hz, hz0⟩ := (h b).mpr ⟨b, List.mem_cons_self _ _, hc.refl b⟩
        rcases List.mem_cons.mp hz with e | hz
        · rw [e] at hz0
          omega
        · have := hc.lt_of_lt_of_le (ha z hz) (show cmp z b ≤ 0 by omega)
          omega
      have hba_le : cmp b a ≤ 0 := by
        obtain ⟨z, hz, hz0⟩ := (h a).mp ⟨a, List.mem_cons_self _ _, hc.refl a⟩
        rcases List.mem_cons.mp hz with e | hz
        · rw [e] at hz0
          omega
        · have := hc.lt_of_lt_of_le (hb z hz) (show cmp z a ≤ 0 by omega)
          omega
      have hab : cmp a b = 0 := by
        have := hc.antisymm a b
        have := hc.antisymm b a
        omega
      have hba : cmp b a = 0 := (hc.eq_comm a b).mp hab
      refine List.Forall₂.cons hab (ih t2 ht1 ht2 (fun x => ?_))
      constructor
      · rintro ⟨y, hy, h0⟩
        obtain ⟨w, hw, hw0⟩ := (h x).mp ⟨y, List.mem_cons_of_mem _ hy, h0⟩
        rcases List.mem_cons.mp hw with e | hw
        · rw [e] at hw0
          have hax : cmp a x = 0 := hc.eq_trans hab hw0
          have hay : cmp a y = 0 := hc.eq_trans hax ((hc.eq_comm y x).mp h0)
          have := ha y hy
          omega
        · exact ⟨w, hw, hw0⟩
      · rintro ⟨y, hy, h0⟩
        obtain ⟨w, hw, hw0⟩ := (h x).mpr ⟨y, List.mem_cons_of_mem _ hy, h0⟩
        rcases List.mem_cons.mp hw with e | hw
        · rw [e] at hw0
          have hbx : cmp b x = 0 := hc.eq_trans hba hw0
          have hby : cmp b y = 0 := hc.eq_trans hbx ((hc.eq_comm y x).mp h0)
          have := hb y hy
          omega
        · exact ⟨w, hw, hw0⟩

/-- C14 as stated fails for a comparator under which distinct values compare equal: over
pairs compared by their first component, the union of `{(1,0)}` and `{(1,1)}` keeps the
receiver's pair, so the two call orders give `[(1,0)]` and `[(1,1)]`. -/
theorem C14_union_data_differs :
    IsTotalOrder compareFirst ∧
    (NewSet compareFirst).Add [(1, 0)] = .ok (pairSet0, 1) ∧
    (NewSet compareFirst).Add [(1, 1)] = .ok (pairSet1, 1) ∧
    (pairSet0.Union pairSet1).map SetImpl.Data = .ok [(1, 0)] ∧
    (pairSet1.Union pairSet0).map SetImpl.Data = .ok [(1, 1)] ∧
    ([(1, 0)] : List (Int × Int)) ≠ [(1, 1)] :=
  ⟨compareFirst_total, rfl, rfl, rfl, rfl, by decide⟩

/-- C14, amended: for sets `S` and `R` over the same total-order comparator, `S.Union(R)`
and `R.Union(S)` return data of the same length whose elements at every index compare
equal; when values that compare equal are the same value, the two data are the same. -/
theorem C14_union_commutes_up_to_equal {T : Type} (cmp : CompareFunc T)
    (hc : IsTotalOrder cmp) (s r : SetImpl T) (hs : s.WF cmp) (hr : r.WF cmp) :
    ∃ u1 u2, s.Union r = .ok u1 ∧ r.Union s = .ok u2 ∧
      u1.Data.length = u2.Data.length ∧
      (∀ (i : Nat) (h1 : i < u1.Data.length) (h2 : i < u2.Data.length),
        cmp (u1.Data.get ⟨i, h1⟩) (u2.Data.get ⟨i, h2⟩) = 0) ∧
      ((∀ a b, cmp a b = 0 → a = b) → u1.Data = u2.Data) := by
  obtain ⟨u1, hu1, hwf1, hm1⟩ := SetImpl.union_spec hc s r hs hr
  obtain ⟨u2, hu2, hwf2, hm2⟩ := SetImpl.union_spec hc r s hr hs
  have hp := strict_pointwise hc u1.Data u2.Data hwf1.strict hwf2.strict (fun x => by
    rw [hm1 x, hm2 x]
    exact Or.comm)
  refine ⟨u1, u2, hu1, hu2, hp.length_eq, fun i h1 h2 => hp.get h1 h2, fun hinj => ?_⟩
  have := hp.imp (fun a b h => hinj a b h)
  rwa [List.forall₂_eq_eq_eq] at this

/-- C14, amended, at the two sets of pairs of the counterexample. -/
theorem C14_union_commutes_up_to_equal_witness :
    ∃ u1 u2, pairSet0.Union pairSet1 = .ok u1 ∧ pairSet1.Union pairSet0 = .ok u2 ∧
      u1.Data.length = u2.Data.length ∧
      (∀ (i : Nat) (h1 : i < u1.Data.length) (h2 : i < u2.Data.length),
        compareFirst (u1.Data.get ⟨i, h1⟩) (u2.Data.get ⟨i, h2⟩) = 0) ∧
      ((∀ a b, compareFirst a b = 0 → a = b) → u1.Data = u2.Data) :=
  C14_union_commutes_up_to_equal compareFirst compareFirst_total pairSet0 pairSet1
    pairSet0_WF pairSet1_WF

/-! ## Containers held through pointers: what a binary operation leaves behind -/

theorem Store.read_write_same {T : Type} (st : Store T) (p : Nat) (v : Impl T)
    (h : p < st.cells.length) : (st.write p v).read p = v := by
  simp [Store.read, Store.write, List.getD_eq_getElem?_getD, List.getElem?_set, h]

theorem Store.read_write_ne {T : Type} (st : Store T) (p q : Nat) (v : Impl T)
    (h : q ≠ p) : (st.write p v).read q = st.read q := by
  simp [Store.read, Store.write, List.getD_eq_getElem?_getD, List.getElem?_set, h.symm]

theorem Store.write_write {T : Type} (st : Store T) (p : Nat) (v w : Impl T) :
    (st.write p v).write p w = st.write p w := by
  simp [Store.write, List.set_set]

theorem Store.write_length {T : Type} (st : Store T) (p : Nat) (v : Impl T) :
    (st.write p v).cells.length = st.cells.length := by
  simp [Store.write]

theorem Store.read_new_old {T : Type} (st : Store T) (q : Nat) (h : q < st.cells.length) :
    (st.NewVector).1.read q = st.read q := by
  simp [Store.read, Store.NewVector, List.getD_eq_getElem?_getD, List.getElem?_append_left h]

theorem Store.write_new {T : Type} (st : Store T) (v : Impl T) :
    (st.NewVector).1.write st.cells.length v = ⟨st.cells ++ [v]⟩ := by
  simp [Store.write, Store.NewVector]

theorem Store.write_read_self {T : Type} (st : Store T) (p : Nat)
    (h : p < st.cells.length) : st.write p (st.read p) = st := by
  cases st with
  | mk cells =>
    simp only [Store.write, Store.read, Store.mk.injEq]
    apply List.ext_getElem
    · simp
    · intro i h1 h2
      by_cases e : p = i
      · subst e
        simp [List.getD_eq_getElem?_getD, List.getElem?_eq_getElem h]
      · simp [List.getElem_set, e]

theorem OrderRef.deref_write_ne {T : Type} (o : OrderRef T) (st : Store T) (p : Nat)
    (v : Impl T) (h : o.Vector ≠ p) : o.deref (st.write p v) = o.deref st := by
  simp [OrderRef.deref, Store.read_write_ne _ _ _ _ h]

/-- The loop of `merge` on a store, with the result's pointer distinct from the operands'
pointers, is the loop on the operands the store holds, and it changes the store only at the
result's pointer. -/
theorem OrderRef.mergeLoop_sim {T : Type} (o rhs ret : OrderRef T)
    (ho : o.Vector ≠ ret.Vector) (hr : rhs.Vector ≠ ret.Vector) :
    ∀ (fuel : Nat) (st : Store T) (l r : Nat), ret.Vector < st.cells.length →
      OrderRef.mergeLoop o rhs ret fuel st l r =
        (OrderImpl.mergeLoop (o.deref st) (rhs.deref st) fuel l r (st.read ret.Vector)).map
          (fun x => (st.write ret.Vector x.2.2, x.1, x.2.1)) := by
  intro fuel
  induction fuel with
  | zero =>
    intro st l r hp
    simp only [OrderRef.mergeLoop, OrderImpl.mergeLoop, pure, Except.pure, Except.map,
      Store.write_read_self st _ hp]
  | succ fuel ih =>
    intro st l r hp
    simp only [OrderRef.mergeLoop, OrderImpl.mergeLoop, OrderRef.deref, Impl.len]
    by_cases hcond : l < (st.read o.Vector).data.length ∧ r < (st.read rhs.Vector).data.length
    · obtain ⟨h1, h2⟩ := hcond
      simp only [h1, h2, and_self, if_true, Impl.get_ok _ _ h1, Impl.get_ok _ _ h2, bind,
        Except.bind]
      have hstep : ∀ v : T,
          OrderRef.mergeLoop o rhs ret fuel
            (st.write ret.Vector ((st.read ret.Vector).append [v])) =
          fun l2 r2 => (OrderImpl.mergeLoop (o.deref st) (rhs.deref st) fuel l2 r2
            ((st.read ret.Vector).append [v])).map
              (fun x => (st.write ret.Vector x.2.2, x.1, x.2.1)) := by
        intro v
        funext l2 r2
        rw [ih _ l2 r2 (by rw [Store.write_length]; exact hp),
          OrderRef.deref_write_ne o st _ _ ho, OrderRef.deref_write_ne rhs st _ _ hr,
          Store.read_write_same st _ _ hp]
        congr 1
        funext x
        rw [Store.write_write]
      split
      · rw [hstep]
        rfl
      · rw [hstep]
        rfl
    · rw [if_neg hcond, if_neg hcond]
      simp only [pure, Except.pure, Except.map, Store.write_read_self st _ hp]

theorem Store.read_new_self {T : Type} (st : Store T) :
    (st.NewVector).1.read st.cells.length = ⟨[]⟩ := by
  simp [Store.read, Store.NewVector, List.getD_eq_getElem?_getD]

theorem Store.read_append_old {T : Type} (cells : List (Impl T)) (v : Impl T) (q : Nat)
    (h : q < cells.length) : (⟨cells ++ [v]⟩ : Store T).read q = (⟨cells⟩ : Store T).read q := by
  simp [Store.read, List.getD_eq_getElem?_getD, List.getElem?_append_left h]

theorem Store.read_append_new {T : Type} (cells : List (Impl T)) (v : Impl T) :
    (⟨cells ++ [v]⟩ : Store T).read cells.length = v := by
  simp [Store.read, List.getD_eq_getElem?_getD]

theorem Store.write_append_new {T : Type} (cells : List (Impl T)) (v w : Impl T) :
    (⟨cells ++ [v]⟩ : Store T).write cells.length w = ⟨cells ++ [w]⟩ := by
  simp [Store.write]

/-- The call `merge` on a store is `merge` on the operands the store holds: the store
after the call is the store before it with one more sequence, the data of the new order. -/
theorem OrderRef.merge_sim {T : Type} (o rhs : OrderRef T) (st : Store T)
    (ho : o.Vector < st.cells.length) (hr : rhs.Vector < st.cells.length) :
    o.merge rhs st = ((o.deref st).merge (rhs.deref st)).map
      (fun m => (⟨st.cells ++ [m.Vector]⟩, ⟨st.cells.length, o.compare, o.kind⟩)) := by
  have hro : ∀ v : Impl T, (⟨st.cells ++ [v]⟩ : Store T).read o.Vector = st.read o.Vector :=
    fun v => Store.read_append_old st.cells v _ ho
  have hrr : ∀ v : Impl T, (⟨st.cells ++ [v]⟩ : Store T).read rhs.Vector = st.read rhs.Vector :=
    fun v => Store.read_append_old st.cells v _ hr
  unfold OrderRef.merge OrderImpl.merge
  simp only [Store.NewOrder, Store.NewVector]
  rw [OrderRef.mergeLoop_sim o rhs ⟨st.cells.length, o.compare, o.kind⟩ (by
      show o.Vector ≠ st.cells.length
      omega) (by
      show rhs.Vector ≠ st.cells.length
      omega) _ _ 0 0 (by simp)]
  simp only [OrderRef.deref, hro, hrr, Store.read_append_new, NewOrder, NewVector]
  cases hloop : OrderImpl.mergeLoop ⟨st.read o.Vector, o.compare, o.kind⟩
      ⟨st.read rhs.Vector, rhs.compare, rhs.kind⟩
      ((st.read o.Vector).len + (st.read rhs.Vector).len) 0 0 ⟨[]⟩ with
  | error e => rfl
  | ok x =>
    simp only [Except.map, bind, Except.bind, Store.write_append_new, hro, hrr,
      Store.read_append_new, pure, Except.pure]
    split
    · rfl
    · split
      · rfl
      · rfl

/-- The loop of `combine` on a store, with the result's pointer distinct from the operands'
pointers, is the loop on the operands the store holds, and it changes the store only at the
result's pointer. -/
theorem OrderRef.combineLoop_sim {T : Type} (o rhs ret : OrderRef T)
    (ho : o.Vector ≠ ret.Vector) (hr : rhs.Vector ≠ ret.Vector) :
    ∀ (fuel : Nat) (st : Store T) (l r : Nat) (prev : Option T),
      ret.Vector < st.cells.length →
      OrderRef.combineLoop o rhs ret fuel st l r prev =
        (OrderImpl.combineLoop (o.deref st) (rhs.deref st) fuel l r prev
          (st.read ret.Vector)).map
          (fun x => (st.write ret.Vector x.2.2.2, x.1, x.2.1, x.2.2.1)) := by
  intro fuel
  induction fuel with
  | zero =>
    intro st l r prev hp
    simp only [OrderRef.combineLoop, OrderImpl.combineLoop, pure, Except.pure, Except.map,
      Store.write_read_self st _ hp]
  | succ fuel ih =>
    intro st l r prev hp
    simp only [OrderRef.combineLoop, OrderImpl.combineLoop, OrderRef.deref, Impl.len]
    by_cases hcond : l < (st.read o.Vector).data.length ∧ r < (st.read rhs.Vector).data.length
    · obtain ⟨h1, h2⟩ := hcond
      simp only [h1, h2, and_self, if_true, Impl.get_ok _ _ h1, Impl.get_ok _ _ h2, bind,
        Except.bind]
      have hstep : ∀ v : T,
          OrderRef.combineLoop o rhs ret fuel
            (st.write ret.Vector ((st.read ret.Vector).append [v])) =
          fun l2 r2 p2 => (OrderImpl.combineLoop (o.deref st) (rhs.deref st) fuel l2 r2 p2
            ((st.read ret.Vector).append [v])).map
              (fun x => (st.write ret.Vector x.2.2.2, x.1, x.2.1, x.2.2.1)) := by
        intro v
        funext l2 r2 p2
        rw [ih _ l2 r2 p2 (by rw [Store.write_length]; exact hp),
          OrderRef.deref_write_ne o st _ _ ho, OrderRef.deref_write_ne rhs st _ _ hr,
          Store.read_write_same st _ _ hp]
        congr 1
        funext x
        rw [Store.write_write]
      split
      · split
        · rw [hstep]
          rfl
        · rw [ih st _ _ _ hp]
          rfl
      · split
        · rw [hstep]
          rfl
        · rw [ih st _ _ _ hp]
          rfl
    · rw [if_neg hcond, if_neg hcond]
      simp only [pure, Except.pure, Except.map, Store.write_read_self st _ hp]

/-- The `range rest` loop of `combine` on a store changes the store only at the result's
pointer, where it leaves what the loop on the operands leaves. -/
theorem OrderRef.restLoop_sim {T : Type} (o ret : OrderRef T) (rest : List T) :
    ∀ (prev : Option T) (st : Store T), ret.Vector < st.cells.length →
      rest.foldl (OrderRef.restStep o ret) (prev, st) =
        ((rest.foldl (o.deref st).restStep (prev, st.read ret.Vector)).1,
          st.write ret.Vector
            (rest.foldl (o.deref st).restStep (prev, st.read ret.Vector)).2) := by
  induction rest with
  | nil =>
    intro prev st hp
    simp only [List.foldl_nil, Store.write_read_self st _ hp]
  | cons x xs ih =>
    intro prev st hp
    simp only [List.foldl_cons, OrderRef.restStep, OrderImpl.restStep]
    by_cases hd : (o.deref st).differsFromPrev prev x = true
    · simp only [if_pos hd]
      rw [ih _ _ (by rw [Store.write_length]; exact hp), Store.read_write_same st _ _ hp,
        Store.write_write]
      rfl
    · simp only [if_neg hd]
      exact ih prev st hp

/-- The call `combine` on a store is `combine` on the operands the store holds: the store
after the call is the store before it with one more sequence, the data of the new order. -/
theorem OrderRef.combine_sim {T : Type} (o rhs : OrderRef T) (st : Store T)
    (ho : o.Vector < st.cells.length) (hr : rhs.Vector < st.cells.length) :
    o.combine rhs st = ((o.deref st).combine (rhs.deref st)).map
      (fun m => (⟨st.cells ++ [m.Vector]⟩, ⟨st.cells.length, o.compare, o.kind⟩)) := by
  have hro : ∀ v : Impl T, (⟨st.cells ++ [v]⟩ : Store T).read o.Vector = st.read o.Vector :=
    fun v => Store.read_append_old st.cells v _ ho
  have hrr : ∀ v : Impl T, (⟨st.cells ++ [v]⟩ : Store T).read rhs.Vector = st.read rhs.Vector :=
    fun v => Store.read_append_old st.cells v _ hr
  unfold OrderRef.combine OrderImpl.combine
  simp only [Store.NewOrder, Store.NewVector]
  rw [OrderRef.combineLoop_sim o rhs ⟨st.cells.length, o.compare, o.kind⟩ (by
      show o.Vector ≠ st.cells.length
      omega) (by
      show rhs.Vector ≠ st.cells.length
      omega) _ _ 0 0 none (by simp)]
  simp only [OrderRef.deref, hro, hrr, Store.read_append_new, NewOrder, NewVector]
  cases hloop : OrderImpl.combineLoop ⟨st.read o.Vector, o.compare, o.kind⟩
      ⟨st.read rhs.Vector, rhs.compare, rhs.kind⟩
      ((st.read o.Vector).len + (st.read rhs.Vector).len) 0 0 none ⟨[]⟩ with
  | error e => rfl
  | ok x =>
    simp only [Except.map, bind, Except.bind, Store.write_append_new, hro, hrr, pure,
      Except.pure]
    rw [OrderRef.restLoop_sim _ _ _ _ _ (by simp)]
    simp only [OrderRef.deref, hro, Store.read_append_new, Store.write_append_new]

theorem Store.read_extends {T : Type} (st st2 : Store T) (extra : List (Impl T))
    (h : st2.cells = st.cells ++ extra) (q : Nat) (hq : q < st.cells.length) :
    st2.read q = st.read q := by
  simp [Store.read, h, List.getD_eq_getElem?_getD, List.getElem?_append_left hq]

theorem OrderRef.deref_extends {T : Type} (o : OrderRef T) (st st2 : Store T)
    (extra : List (Impl T)) (h : st2.cells = st.cells ++ extra)
    (hq : o.Vector < st.cells.length) : o.deref st2 = o.deref st := by
  simp [OrderRef.deref, Store.read_extends st st2 extra h _ hq]

theorem SetRef.setDeref_extends {T : Type} (s : SetRef T) (st st2 : Store T)
    (extra : List (Impl T)) (h : st2.cells = st.cells ++ extra)
    (hq : s.Order.Vector < st.cells.length) : s.deref st2 = s.deref st := by
  simp [SetRef.deref, OrderRef.deref_extends _ st st2 extra h hq]

/-- The call `Union` on a store is `Union` on the sets the store holds; the store after the
call is the store before it with two more sequences: the one `NewSet` made and the data of
the result. -/
theorem SetRef.union_sim {T : Type} (s rhs : SetRef T) (st : Store T)
    (hs : s.Order.Vector < st.cells.length) (hr : rhs.Order.Vector < st.cells.length) :
    s.Union rhs st = ((s.deref st).Union (rhs.deref st)).map
      (fun u => (⟨st.cells ++ [⟨[]⟩, u.Order.Vector]⟩,
        ⟨⟨st.cells.length + 1, s.Order.compare, s.Order.kind⟩, s.compare⟩)) := by
  have hext : (⟨st.cells ++ [⟨[]⟩]⟩ : Store T).cells = st.cells ++ [⟨[]⟩] := rfl
  unfold SetRef.Union SetImpl.Union
  simp only [Store.NewSet, Store.NewOrder, Store.NewVector]
  rw [OrderRef.combine_sim _ _ _ (by simp; omega) (by simp; omega),
    OrderRef.deref_extends _ st _ _ hext hs, OrderRef.deref_extends _ st _ _ hext hr]
  simp only [SetRef.deref]
  cases (s.Order.deref st).combine (rhs.Order.deref st) with
  | error e => rfl
  | ok m =>
    simp [Except.map, bind, Except.bind, pure, Except.pure, NewSet]

/-- Adding to the set `NewSet` has just made in a store: the store after the call is the
store before `NewSet` with one more sequence, the data of the set. -/
theorem SetRef.add_new_sim {T : Type} (cmp : CompareFunc T) (values : List T)
    (st : Store T) :
    (⟨⟨st.cells.length, cmp, OrderKindIncreasing⟩, cmp⟩ : SetRef T).add values
        ⟨st.cells ++ [⟨[]⟩]⟩ =
      ((NewSet cmp).add values).map
        (fun r => (⟨st.cells ++ [r.1.Order.Vector]⟩, r.2)) := by
  unfold SetRef.add
  simp only [SetRef.deref, OrderRef.deref, Store.read_append_new, Store.write_append_new]
  change ((NewSet cmp).add values >>= fun r =>
    (pure (⟨st.cells ++ [r.1.Order.Vector]⟩, r.2) : Except Error (Store T × Nat))) = _
  cases (NewSet cmp).add values with
  | error e => rfl
  | ok r => rfl

theorem SetRef.leftDifference_sim {T : Type} (s rhs : SetRef T) (st : Store T)
    (hs : s.Order.Vector < st.cells.length) (hr : rhs.Order.Vector < st.cells.length) :
    s.LeftDifference rhs st = ((s.deref st).LeftDifference (rhs.deref st)).map
      (fun u => (⟨st.cells ++ [u.Order.Vector]⟩,
        ⟨⟨st.cells.length, s.compare, OrderKindIncreasing⟩, s.compare⟩)) := by
  have hext : (⟨st.cells ++ [⟨[]⟩]⟩ : Store T).cells = st.cells ++ [⟨[]⟩] := rfl
  unfold SetRef.LeftDifference SetImpl.LeftDifference
  simp only [Store.NewSet, Store.NewOrder, Store.NewVector]
  rw [OrderRef.deref_extends _ st _ _ hext hr, SetRef.setDeref_extends _ st _ _ hext hs]
  simp only [SetRef.deref]
  cases collect (rhs.Order.deref st) false [] (SetImpl.Data ⟨s.Order.deref st, s.compare⟩) with
  | error e => rfl
  | ok vals =>
    simp only [bind, Except.bind]
    rw [SetRef.add_new_sim]
    cases (NewSet s.compare).add vals with
    | error e => rfl
    | ok r => rfl

theorem SetRef.rightDifference_sim {T : Type} (s rhs : SetRef T) (st : Store T)
    (hs : s.Order.Vector < st.cells.length) (hr : rhs.Order.Vector < st.cells.length) :
    s.RightDifference rhs st = ((s.deref st).RightDifference (rhs.deref st)).map
      (fun u => (⟨st.cells ++ [u.Order.Vector]⟩,
        ⟨⟨st.cells.length, s.compare, OrderKindIncreasing⟩, s.compare⟩)) := by
  have hext : (⟨st.cells ++ [⟨[]⟩]⟩ : Store T).cells = st.cells ++ [⟨[]⟩] := rfl
  unfold SetRef.RightDifference SetImpl.RightDifference
  simp only [Store.NewSet, Store.NewOrder, Store.NewVector]
  rw [OrderRef.deref_extends _ st _ _ hext hs, SetRef.setDeref_extends _ st _ _ hext hr]
  simp only [SetRef.deref]
  cases collect (s.Order.deref st) false [] (SetImpl.Data ⟨rhs.Order.deref st, rhs.compare⟩)
    with
  | error e => rfl
  | ok vals =>
    simp only [bind, Except.bind]
    rw [SetRef.add_new_sim]
    cases (NewSet s.compare).add vals with
    | error e => rfl
    | ok r => rfl

theorem SetRef.intersection_sim {T : Type} (s rhs : SetRef T) (st : Store T)
    (hs : s.Order.Vector < st.cells.length) (hr : rhs.Order.Vector < st.cells.length) :
    s.Intersection rhs st = ((s.deref st).Intersection (rhs.deref st)).map
      (fun u => (⟨st.cells ++ [u.Order.Vector]⟩,
        ⟨⟨st.cells.length, s.compare, OrderKindIncreasing⟩, s.compare⟩)) := by
  have hext : (⟨st.cells ++ [⟨[]⟩]⟩ : Store T).cells = st.cells ++ [⟨[]⟩] := rfl
  unfold SetRef.Intersection SetImpl.Intersection
  simp only [Store.NewSet, Store.NewOrder, Store.NewVector]
  rw [OrderRef.deref_extends _ st _ _ hext hs, OrderRef.deref_extends _ st _ _ hext hr,
    SetRef.setDeref_extends _ st _ _ hext hs, SetRef.setDeref_extends _ st _ _ hext hr]
  simp only [SetRef.deref]
  cases collect (s.Order.deref st) true [] (SetImpl.Data ⟨rhs.Order.deref st, rhs.compare⟩)
    with
  | error e => rfl
  | ok vals =>
    simp only [bind, Except.bind]
    cases collect (rhs.Order.deref st) true vals (SetImpl.Data ⟨s.Order.deref st, s.compare⟩)
      with
    | error e => rfl
    | ok vals2 =>
      simp only []
      rw [SetRef.add_new_sim]
      cases (NewSet s.compare).add vals2 with
      | error e => rfl
      | ok r => rfl

theorem Store.read_append_second {T : Type} (cells : List (Impl T)) (v w : Impl T) :
    (⟨cells ++ [v, w]⟩ : Store T).read (cells.length + 1) = w := by
  have h : cells ++ [v, w] = (cells ++ [v]) ++ [w] := by simp
  have h2 : cells.length + 1 = (cells ++ [v]).length := by simp
  rw [h, h2]
  exact Store.read_append_new _ _

/-- What a call on orders leaves, from its description as the value-level call followed by
the allocation of the result: the call returns, both operands hold what they held, and the
new order holds the data of the value-level result. -/
theorem OrderRef.frame_of_sim {T : Type} (a b : OrderRef T) (st : Store T)
    (ha : a.Vector < st.cells.length) (hb : b.Vector < st.cells.length)
    (call : Except Error (Store T × OrderRef T)) (value : Except Error (OrderImpl T))
    (mv : OrderImpl T) (hv : value = .ok mv)
    (hsim : call = value.map
      (fun m => (⟨st.cells ++ [m.Vector]⟩, ⟨st.cells.length, a.compare, a.kind⟩))) :
    ∃ st2 m, call = .ok (st2, m) ∧ (a.deref st2).Data = (a.deref st).Data ∧
      (b.deref st2).Data = (b.deref st).Data ∧ (m.deref st2).Data = mv.Data := by
  refine ⟨⟨st.cells ++ [mv.Vector]⟩, ⟨st.cells.length, a.compare, a.kind⟩, ?_, ?_, ?_, ?_⟩
  · rw [hsim, hv]
    rfl
  · rw [OrderRef.deref_extends a st _ [mv.Vector] rfl ha]
  · rw [OrderRef.deref_extends b st _ [mv.Vector] rfl hb]
  · simp [OrderRef.deref, OrderImpl.Data, Store.read_append_new]

/-- What a call on sets leaves, from its description as the value-level call followed by
the allocation of the result (after `pre` sequences allocated on the way). -/
theorem SetRef.setFrame_of_sim {T : Type} (s r : SetRef T) (st : Store T)
    (hs : s.Order.Vector < st.cells.length) (hr : r.Order.Vector < st.cells.length)
    (call : Except Error (Store T × SetRef T)) (value : Except Error (SetImpl T))
    (uv : SetImpl T) (hv : value = .ok uv) (pre : List (Impl T)) (res : SetRef T)
    (hres : res.Order.Vector = st.cells.length + pre.length)
    (hsim : call = value.map
      (fun u => (⟨st.cells ++ (pre ++ [u.Order.Vector])⟩, res))) :
    ∃ st2 u, call = .ok (st2, u) ∧ (s.deref st2).Data = (s.deref st).Data ∧
      (r.deref st2).Data = (r.deref st).Data ∧ (u.deref st2).Data = uv.Data := by
  refine ⟨⟨st.cells ++ (pre ++ [uv.Order.Vector])⟩, res, ?_, ?_, ?_, ?_⟩
  · rw [hsim, hv]
    rfl
  · rw [SetRef.setDeref_extends s st _ (pre ++ [uv.Order.Vector]) rfl hs]
  · rw [SetRef.setDeref_extends r st _ (pre ++ [uv.Order.Vector]) rfl hr]
  · have h : st.cells ++ (pre ++ [uv.Order.Vector]) = (st.cells ++ pre) ++ [uv.Order.Vector] := by
      simp
    have h2 : res.Order.Vector = (st.cells ++ pre).length := by
      rw [hres]
      simp
    simp only [SetRef.deref, OrderRef.deref, SetImpl.Data, OrderImpl.Data, h, h2,
      Store.read_append_new]

/-- C16: binary operations never mutate their operands.  In a store holding the sequences of
the operands, with orders `A`, `B` and sets `S`, `R` held through pointers, each of
`A.Merge(B)`, `A.Combine(B)`, `S.Union(R)`, `S.Intersection(R)`, `S.LeftDifference(R)` and
`S.RightDifference(R)` returns, the data of both operands after the call is the data before
the call, and the new container holds the data of the value-level result. -/
theorem C16_operands_unchanged {T : Type} (cmp : CompareFunc T) (hc : IsTotalOrder cmp)
    (st : Store T) (a b : OrderRef T) (s r : SetRef T)
    (ha : a.Vector < st.cells.length) (hb : b.Vector < st.cells.length)
    (hs : s.Order.Vector < st.cells.length) (hr : r.Order.Vector < st.cells.length)
    (hsw : (s.deref st).WF cmp) (hrw : (r.deref st).WF cmp) :
    (∃ st2 m mv, a.Merge b st = .ok (st2, m) ∧ (a.deref st).Merge (b.deref st) = .ok mv ∧
      (a.deref st2).Data = (a.deref st).Data ∧ (b.deref st2).Data = (b.deref st).Data ∧
      (m.deref st2).Data = mv.Data) ∧
    (∃ st2 m mv, a.Combine b st = .ok (st2, m) ∧
      (a.deref st).Combine (b.deref st) = .ok mv ∧
      (a.deref st2).Data = (a.deref st).Data ∧ (b.deref st2).Data = (b.deref st).Data ∧
      (m.deref st2).Data = mv.Data) ∧
    (∃ st2 u uv, s.Union r st = .ok (st2, u) ∧ (s.deref st).Union (r.deref st) = .ok uv ∧
      (s.deref st2).Data = (s.deref st).Data ∧ (r.deref st2).Data = (r.deref st).Data ∧
      (u.deref st2).Data = uv.Data) ∧
    (∃ st2 u uv, s.Intersection r st = .ok (st2, u) ∧
      (s.deref st).Intersection (r.deref st) = .ok uv ∧
      (s.deref st2).Data = (s.deref st).Data ∧ (r.deref st2).Data = (r.deref st).Data ∧
      (u.deref st2).Data = uv.Data) ∧
    (∃ st2 u uv, s.LeftDifference r st = .ok (st2, u) ∧
      (s.deref st).LeftDifference (r.deref st) = .ok uv ∧
      (s.deref st2).Data = (s.deref st).Data ∧ (r.deref st2).Data = (r.deref st).Data ∧
      (u.deref st2).Data = uv.Data) ∧
    (∃ st2 u uv, s.RightDifference r st = .ok (st2, u) ∧
      (s.deref st).RightDifference (r.deref st) = .ok uv ∧
      (s.deref st2).Data = (s.deref st).Data ∧ (r.deref st2).Data = (r.deref st).Data ∧
      (u.deref st2).Data = uv.Data) := by
  refine ⟨?_, ?_, ?_, ?_, ?_, ?_⟩
  · obtain ⟨st2, m, h1, h2, h3, h4⟩ := OrderRef.frame_of_sim a b st ha hb (a.Merge b st) _ _
      ((a.deref st).merge_eq (b.deref st)) (OrderRef.merge_sim a b st ha hb)
    exact ⟨st2, m, _, h1, (a.deref st).merge_eq (b.deref st), h2, h3, h4⟩
  · obtain ⟨st2, m, h1, h2, h3, h4⟩ := OrderRef.frame_of_sim a b st ha hb (a.Combine b st) _ _
      ((a.deref st).combine_eq (b.deref st)) (OrderRef.combine_sim a b st ha hb)
    exact ⟨st2, m, _, h1, (a.deref st).combine_eq (b.deref st), h2, h3, h4⟩
  · obtain ⟨uv, hu, _, _⟩ := SetImpl.union_spec hc _ _ hsw hrw
    obtain ⟨st2, u, h1, h2, h3, h4⟩ := SetRef.setFrame_of_sim s r st hs hr (s.Union r st) _ uv hu
      [⟨[]⟩] ⟨⟨st.cells.length + 1, s.Order.compare, s.Order.kind⟩, s.compare⟩ rfl
      (SetRef.union_sim s r st hs hr)
    exact ⟨st2, u, uv, h1, hu, h2, h3, h4⟩
  · obtain ⟨uv, hu, _, _⟩ := SetImpl.intersection_spec hc _ _ hsw hrw
    obtain ⟨st2, u, h1, h2, h3, h4⟩ := SetRef.setFrame_of_sim s r st hs hr (s.Intersection r st)
      _ uv hu [] ⟨⟨st.cells.length, s.compare, OrderKindIncreasing⟩, s.compare⟩ rfl
      (SetRef.intersection_sim s r st hs hr)
    exact ⟨st2, u, uv, h1, hu, h2, h3, h4⟩
  · obtain ⟨uv, hu, _, _⟩ := SetImpl.leftDifference_spec hc _ _ hsw hrw
    obtain ⟨st2, u, h1, h2, h3, h4⟩ := SetRef.setFrame_of_sim s r st hs hr
      (s.LeftDifference r st) _ uv hu [] ⟨⟨st.cells.length, s.compare, OrderKindIncreasing⟩,
        s.compare⟩ rfl (SetRef.leftDifference_sim s r st hs hr)
    exact ⟨st2, u, uv, h1, hu, h2, h3, h4⟩
  · obtain ⟨uv, hu, _, _⟩ := SetImpl.leftDifference_spec hc _ _ hrw hsw
    rw [← SetImpl.rightDifference_eq _ _ hsw hrw] at hu
    obtain ⟨st2, u, h1, h2, h3, h4⟩ := SetRef.setFrame_of_sim s r st hs hr
      (s.RightDifference r st) _ uv hu [] ⟨⟨st.cells.length, s.compare, OrderKindIncreasing⟩,
        s.compare⟩ rfl (SetRef.rightDifference_sim s r st hs hr)
    exact ⟨st2, u, uv, h1, hu, h2, h3, h4⟩

/-- C16 at the store of the set tests; the stores after `Merge` (also of an order with
itself), `Union` and `Intersection` are evaluated: the first two sequences are the operands,
untouched. -/
theorem C16_operands_unchanged_witness :
    (testOrderRef0.Merge testOrderRef1 testStore).map (fun x => x.1.cells.map Impl.Data) =
      .ok [[1, 2, 3, 4, 5], [4, 5, 6, 7, 8], [1, 2, 3, 4, 4, 5, 5, 6, 7, 8]] ∧
    (testOrderRef0.Merge testOrderRef0 testStore).map (fun x => x.1.cells.map Impl.Data) =
      .ok [[1, 2, 3, 4, 5], [4, 5, 6, 7, 8], [1, 1, 2, 2, 3, 3, 4, 4, 5, 5]] ∧
    (testSetRef0.Union testSetRef1 testStore).map (fun x => x.1.cells.map Impl.Data) =
      .ok [[1, 2, 3, 4, 5], [4, 5, 6, 7, 8], [], [1, 2, 3, 4, 5, 6, 7, 8]] ∧
    (testSetRef0.Intersection testSetRef1 testStore).map (fun x => x.1.cells.map Impl.Data) =
      .ok [[1, 2, 3, 4, 5], [4, 5, 6, 7, 8], [4, 5]] ∧
    (∃ st2 m mv, testOrderRef0.Merge testOrderRef1 testStore = .ok (st2, m) ∧
      (testOrderRef0.deref testStore).Merge (testOrderRef1.deref testStore) = .ok mv ∧
      (testOrderRef0.deref st2).Data = (testOrderRef0.deref testStore).Data ∧
      (testOrderRef1.deref st2).Data = (testOrderRef1.deref testStore).Data ∧
      (m.deref st2).Data = mv.Data) ∧
    (∃ st2 m mv, testOrderRef0.Combine testOrderRef1 testStore = .ok (st2, m) ∧
      (testOrderRef0.deref testStore).Combine (testOrderRef1.deref testStore) = .ok mv ∧
      (testOrderRef0.deref st2).Data = (testOrderRef0.deref testStore).Data ∧
      (testOrderRef1.deref st2).Data = (testOrderRef1.deref testStore).Data ∧
      (m.deref st2).Data = mv.Data) ∧
    (∃ st2 u uv, testSetRef0.Union testSetRef1 testStore = .ok (st2, u) ∧
      (testSetRef0.deref testStore).Union (testSetRef1.deref testStore) = .ok uv ∧
      (testSetRef0.deref st2).Data = (testSetRef0.deref testStore).Data ∧
      (testSetRef1.deref st2).Data = (testSetRef1.deref testStore).Data ∧
      (u.deref st2).Data = uv.Data) ∧
    (∃ st2 u uv, testSetRef0.Intersection testSetRef1 testStore = .ok (st2, u) ∧
      (testSetRef0.deref testStore).Intersection (testSetRef1.deref testStore) = .ok uv ∧
      (testSetRef0.deref st2).Data = (testSetRef0.deref testStore).Data ∧
      (testSetRef1.deref st2).Data = (testSetRef1.deref testStore).Data ∧
      (u.deref st2).Data = uv.Data) ∧
    (∃ st2 u uv, testSetRef0.LeftDifference testSetRef1 testStore = .ok (st2, u) ∧
      (testSetRef0.deref testStore).LeftDifference (testSetRef1.deref testStore) = .ok uv ∧
      (testSetRef0.deref st2).Data = (testSetRef0.deref testStore).Data ∧
      (testSetRef1.deref st2).Data = (testSetRef1.deref testStore).Data ∧
      (u.deref st2).Data = uv.Data) ∧
    (∃ st2 u uv, testSetRef0.RightDifference testSetRef1 testStore = .ok (st2, u) ∧
      (testSetRef0.deref testStore).RightDifference (testSetRef1.deref testStore) = .ok uv ∧
      (testSetRef0.deref st2).Data = (testSetRef0.deref testStore).Data ∧
      (testSetRef1.deref st2).Data = (testSetRef1.deref testStore).Data ∧
      (u.deref st2).Data = uv.Data) :=
  ⟨rfl, rfl, rfl, rfl,
    C16_operands_unchanged CompareNumber CompareNumber_total testStore testOrderRef0
      testOrderRef1 testSetRef0 testSetRef1 (by decide) (by decide) (by decide) (by decide)
      testSet0_WF testSet1_WF⟩

/-! ## Sequences: removal failures, round trip, bounds checks -/

/-- On empty storage `Remove` panics with `ErrEmptyVector` and leaves the storage as it
was. -/
theorem Impl.remove_empty {T : Type} (v : Impl T) (i : Nat) (h : v.Data.length = 0) :
    v.Remove i = (.error .ErrEmptyVector, v) := by
  have h1 : v.data.length = 0 := h
  unfold Impl.Remove Impl.remove
  rw [if_pos h1]

/-- On non-empty storage an index at or beyond the length makes the read `v.data[index]`
of `remove` panic at runtime, before the `ErrIndexOutOfRange` case of the switch is
reached. -/
theorem Impl.remove_beyond {T : Type} (v : Impl T) (i : Nat) (h0 : v.Data.length ≠ 0)
    (h : v.Data.length ≤ i) : v.Remove i = (.error .RuntimeIndexOutOfRange, v) := by
  have h1 : ¬ v.data.length = 0 := h0
  have e : v.data[i]? = none := List.getElem?_eq_none h
  unfold Impl.Remove Impl.remove
  rw [if_neg h1, e]

/-- C21 fails at `Remove(5)` on `[1,2,3,4]` (the call of the removal test for
`ErrIndexOutOfRange`): the sequence is non-empty and the index is beyond the length, yet the
call panics at runtime on the read `v.data[index]`, not with `ErrIndexOutOfRange`; on the
empty sequence the call panics with `ErrEmptyVector` as claimed. -/
theorem C21_remove_beyond_length :
    (⟨[1, 2, 3, 4]⟩ : Impl Int).Data.length ≠ 0 ∧
      5 ≥ (⟨[1, 2, 3, 4]⟩ : Impl Int).Data.length ∧
      ((⟨[1, 2, 3, 4]⟩ : Impl Int).Remove 5).1 = .error .RuntimeIndexOutOfRange ∧
      ((⟨[1, 2, 3, 4]⟩ : Impl Int).Remove 5).1 ≠ .error .ErrIndexOutOfRange ∧
      ((⟨[]⟩ : Impl Int).Remove 5).1 = .error .ErrEmptyVector := by
  have e : ((⟨[1, 2, 3, 4]⟩ : Impl Int).Remove 5).1 = .error .RuntimeIndexOutOfRange := rfl
  refine ⟨by decide, by decide, e, ?_, rfl⟩
  rw [e]
  intro h
  cases h

/-- C22: for a sequence with data `d`, an index `i ≤ len(d)` and a value `x`, `Insert(i, x)`
succeeds, the following `Remove(i)` returns `x`, and the data and the length after the two
calls are those before them. -/
theorem C22_insert_remove_round_trip {T : Type} (v : Impl T) (i : Nat) (x : T)
    (h : i ≤ v.Data.length) :
    (v.Insert i [x]).1 = .ok () ∧
      ((v.Insert i [x]).2.Remove i).1 = .ok x ∧
      ((v.Insert i [x]).2.Remove i).2.Data = v.Data ∧
      ((v.Insert i [x]).2.Remove i).2.Data.length = v.Data.length := by
  have h1 : v.Insert i [x] = (.ok (), ⟨v.data.take i ++ [x] ++ v.data.drop i⟩) :=
    Impl.insert_ok v i [x] h
  have hlen : (v.data.take i).length = i := List.length_take_of_le h
  have hi : i < (⟨v.data.take i ++ [x] ++ v.data.drop i⟩ : Impl T).data.length := by
    simp only [List.length_append, hlen, List.length_singleton]
    omega
  have h2 := Impl.remove_ok (⟨v.data.take i ++ [x] ++ v.data.drop i⟩ : Impl T) i hi
  have hget : (v.data.take i ++ [x] ++ v.data.drop i).get ⟨i, hi⟩ = x := by
    simp [List.getElem_append_left, List.getElem_append_right, hlen]
  have hdata : (v.data.take i ++ [x] ++ v.data.drop i).take i ++
      (v.data.take i ++ [x] ++ v.data.drop i).drop (i + 1) = v.data := by
    have e1 : (v.data.take i ++ [x] ++ v.data.drop i).take i = v.data.take i := by
      rw [List.append_assoc, List.take_left' hlen]
    have e2 : (v.data.take i ++ [x] ++ v.data.drop i).drop (i + 1) = v.data.drop i := by
      have hl2 : (v.data.take i ++ [x]).length = i + 1 := by simp [hlen]
      rw [List.drop_left' hl2]
    rw [e1, e2, List.take_append_drop]
  have h3 : (v.Insert i [x]).2.Remove i = (.ok x, ⟨v.data⟩) := by
    rw [h1]
    show Impl.remove _ i = _
    rw [h2, hget, hdata]
  rw [h3, h1]
  exact ⟨rfl, rfl, rfl, rfl⟩

/-- C22 at the middle, the front and the end of `[1,2,3,4]`. -/
theorem C22_insert_remove_round_trip_witness :
    (((⟨[1, 2, 3, 4]⟩ : Impl Int).Insert 2 [9]).1 = .ok () ∧
      (((⟨[1, 2, 3, 4]⟩ : Impl Int).Insert 2 [9]).2.Remove 2).1 = .ok 9 ∧
      (((⟨[1, 2, 3, 4]⟩ : Impl Int).Insert 2 [9]).2.Remove 2).2.Data = [1, 2, 3, 4] ∧
      (((⟨[1, 2, 3, 4]⟩ : Impl Int).Insert 2 [9]).2.Remove 2).2.Data.length = 4) ∧
    ((⟨[1, 2, 3, 4]⟩ : Impl Int).Insert 2 [9]).2.Data = [1, 2, 9, 3, 4] ∧
    (((⟨[1, 2, 3, 4]⟩ : Impl Int).Insert 0 [9]).2.Remove 0) = (.ok 9, ⟨[1, 2, 3, 4]⟩) ∧
    (((⟨[1, 2, 3, 4]⟩ : Impl Int).Insert 4 [9]).2.Remove 4) = (.ok 9, ⟨[1, 2, 3, 4]⟩) :=
  ⟨C22_insert_remove_round_trip ⟨[1, 2, 3, 4]⟩ 2 9 (by decide), rfl, rfl, rfl⟩


/-- Below `2^63` the bounds check of `Get` is the one claimed: the call panics with
`ErrIndexOutOfRange` exactly when the index is at or beyond the length. -/
theorem Impl.get_err_iff {T : Type} (v : Impl T) (i : Nat) (hi : i < 2 ^ 63) :
    v.Get i = .error .ErrIndexOutOfRange ↔ i ≥ v.Data.length := by
  have hconv := intOfUint_small i hi
  unfold Impl.Get Impl.get Impl.Data
  rw [hconv]
  by_cases h : i < v.data.length
  · have h1 : ¬ ((i : Int) > (v.data.length : Int) - 1) := by omega
    have h2 : ¬ i ≥ v.data.length := by omega
    rw [if_neg h1]
    simp [List.getElem?_eq_getElem h, h2]
  · have h1 : (i : Int) > (v.data.length : Int) - 1 := by omega
    have h2 : i ≥ v.data.length := by omega
    rw [if_pos h1]
    simp [h2]

/-- Below `2^63` the bounds check of `Set` is the one claimed, and a failing call leaves the
storage as it was. -/
theorem Impl.set_err_iff {T : Type} (v : Impl T) (i : Nat) (x : T) (hi : i < 2 ^ 63) :
    ((v.Set i x).1 = .error .ErrIndexOutOfRange ↔ i ≥ v.Data.length) ∧
      (i ≥ v.Data.length → (v.Set i x).2 = v) := by
  have hconv := intOfUint_small i hi
  unfold Impl.Set Impl.set Impl.Data
  rw [hconv]
  by_cases h : i < v.data.length
  · have h1 : ¬ ((i : Int) > (v.data.length : Int) - 1) := by omega
    have h2 : ¬ i ≥ v.data.length := by omega
    rw [if_neg h1, if_pos h]
    simp [h2]
  · have h1 : (i : Int) > (v.data.length : Int) - 1 := by omega
    have h2 : i ≥ v.data.length := by omega
    rw [if_pos h1]
    simp [h2]

/-- Inside the length `Set` replaces the element at the index and nothing else. -/
theorem Impl.set_ok {T : Type} (v : Impl T) (i : Nat) (x : T) (h : i < v.Data.length) :
    v.Set i x = (.ok (), ⟨v.Data.set i x⟩) := by
  have hle := intOfUint_le i
  have h0 : i < v.data.length := h
  have h1 : ¬ (intOfUint i > (v.data.length : Int) - 1) := by omega
  unfold Impl.Set Impl.set Impl.Data
  rw [if_neg h1, if_pos h0]

/-- C23 fails at the index `2^63` on `[1,2,3]`: the index is beyond the length, but
`int(index)` is negative, the guard `int(index) > len(v.data)-1` of `get` and `set` does not
fire, and both calls panic at runtime on `v.data[index]` instead of panicking with
`ErrIndexOutOfRange`.  At small indices the claim holds: `Get(0)` on the empty sequence
and `Get(3)`, `Set(3, 9)` on `[1,2,3]` panic with `ErrIndexOutOfRange`, and `Get(1)` returns
the element at position 1. -/
theorem C23_get_set_huge_index :
    2 ^ 63 ≥ (⟨[1, 2, 3]⟩ : Impl Int).Data.length ∧
      intOfUint (2 ^ 63) = -(2 ^ 63) ∧
      (⟨[1, 2, 3]⟩ : Impl Int).Get (2 ^ 63) = .error .RuntimeIndexOutOfRange ∧
      (⟨[1, 2, 3]⟩ : Impl Int).Get (2 ^ 63) ≠ .error .ErrIndexOutOfRange ∧
      ((⟨[1, 2, 3]⟩ : Impl Int).Set (2 ^ 63) 9).1 = .error .RuntimeIndexOutOfRange ∧
      ((⟨[1, 2, 3]⟩ : Impl Int).Set (2 ^ 63) 9).1 ≠ .error .ErrIndexOutOfRange ∧
      (⟨[]⟩ : Impl Int).Get 0 = .error .ErrIndexOutOfRange ∧
      (⟨[1, 2, 3]⟩ : Impl Int).Get 3 = .error .ErrIndexOutOfRange ∧
      ((⟨[1, 2, 3]⟩ : Impl Int).Set 3 9).1 = .error .ErrIndexOutOfRange ∧
      (⟨[1, 2, 3]⟩ : Impl Int).Get 1 = .ok 2 := by
  have e : (⟨[1, 2, 3]⟩ : Impl Int).Get (2 ^ 63) = .error .RuntimeIndexOutOfRange := rfl
  have f : ((⟨[1, 2, 3]⟩ : Impl Int).Set (2 ^ 63) 9).1 = .error .RuntimeIndexOutOfRange := rfl
  refine ⟨by decide, by decide, e, ?_, f, ?_, rfl, rfl, rfl, rfl⟩
  · rw [e]
    intro h
    cases h
  · rw [f]
    intro h
    cases h


/-! ## Orders: the position of an added value -/

theorem findIdx_split {α : Type} (p : α → Bool) (l1 l2 : List α)
    (h1 : ∀ x ∈ l1, p x = false) (h2 : ∀ x ∈ l2, p x = true) :
    (l1 ++ l2).findIdx p = l1.length := by
  induction l1 with
  | nil =>
    cases l2 with
    | nil => rfl
    | cons y ys =>
      have hy := h2 y (List.mem_cons_self y ys)
      simp [List.findIdx_cons, hy]
  | cons a l ih =>
    have ha := h1 a (List.mem_cons_self a l)
    have ih2 := ih (fun x hx => h1 x (List.mem_cons_of_mem a hx))
    simp [List.findIdx_cons, ha, ih2]

/-- The test of the specification for an element being after the value is the sign test of
the direction-adjusted comparator. -/
theorem OrderImpl.addPosition_test {T : Type} (o : OrderImpl T) (hk : ValidKind o.kind)
    (value x : T) :
    decide ((o.kind = OrderKindIncreasing ∧ o.compare x value > 0) ∨
      (o.kind = OrderKindDecreasing ∧ o.compare x value < 0)) =
    decide (0 < dirCmp o.kind o.compare x value) := by
  apply decide_eq_decide.mpr
  rcases hk with hk | hk
  · rw [hk, dirCmp_inc]
    constructor
    · rintro (⟨_, h⟩ | ⟨h, _⟩)
      · exact h
      · exact absurd h (by decide)
    · intro h
      exact Or.inl ⟨rfl, h⟩
  · rw [hk, dirCmp_dec]
    constructor
    · rintro (⟨h, _⟩ | ⟨_, h⟩)
      · exact absurd h (by decide)
      · omega
    · intro h
      exact Or.inr ⟨rfl, by omega⟩

/-- C26: for a sorted order with data `d` and a value `v`, `Add(v)` returns the count 1 and
leaves the data `d[:k] ++ [v] ++ d[k:]`, where `k` is the first index whose element compares
greater than `v` (ascending) or less than `v` (descending), or `len(d)` when there is none;
no element from `k` on compares equal to `v`, so `v` stands after all existing equal
values. -/
theorem C26_add_position {T : Type} (o : OrderImpl T) (hc : IsTotalOrder o.compare)
    (hk : ValidKind o.kind) (hs : o.Sorted) (v : T) :
    ∃ o2, o.Add [v] = .ok (o2, 1) ∧ o2.compare = o.compare ∧ o2.kind = o.kind ∧
      o.addPosition v ≤ o.Data.length ∧
      o2.Data = o.Data.take (o.addPosition v) ++ [v] ++ o.Data.drop (o.addPosition v) ∧
      (∀ x ∈ o.Data.drop (o.addPosition v), o.compare x v ≠ 0) ∧
      (∀ x ∈ o.Data, o.compare x v = 0 → x ∈ o.Data.take (o.addPosition v)) := by
  have hp : o.Vector.data.Pairwise (fun a b => dirCmp o.kind o.compare a b ≤ 0) :=
    (sorted_iff_pairwise hc hk _).mp hs
  obtain ⟨k, hkn, hrun, hlo, hhi⟩ := o.addStep_spec 0 v hc hk hp
  have hpos : o.addPosition v = k := by
    unfold OrderImpl.addPosition
    have hfun : (fun x => decide ((o.kind = OrderKindIncreasing ∧ o.compare x v > 0) ∨
        (o.kind = OrderKindDecreasing ∧ o.compare x v < 0))) =
        (fun x => decide (0 < dirCmp o.kind o.compare x v)) :=
      funext (fun x => o.addPosition_test hk v x)
    rw [hfun]
    have hsplit : o.Data = o.Vector.data.take k ++ o.Vector.data.drop k :=
      (List.take_append_drop k o.Vector.data).symm
    rw [hsplit, findIdx_split _ _ _ (fun x hx => by simpa using hlo x hx)
      (fun x hx => by simpa using hhi x hx)]
    exact List.length_take_of_le hkn
  have hne : ∀ x ∈ o.Vector.data.drop k, o.compare x v ≠ 0 := by
    intro x hx h0
    have h1 := hhi x hx
    rw [(dirCmp_eq_zero o.compare hk x v).mpr h0] at h1
    omega
  rw [hpos]
  refine ⟨{ o with Vector := ⟨o.Vector.data.take k ++ v :: o.Vector.data.drop k⟩ }, ?_, rfl,
    rfl, hkn, ?_, hne, ?_⟩
  · simp only [OrderImpl.Add, OrderImpl.add, List.foldlM_cons, List.foldlM_nil, hrun]
    rfl
  · simp [OrderImpl.Data, Impl.Data]
  · intro x hx h0
    have hx2 : x ∈ o.Vector.data.take k ++ o.Vector.data.drop k := by
      rw [List.take_append_drop]
      exact hx
    rcases List.mem_append.mp hx2 with h | h
    · exact h
    · exact absurd h0 (hne x h)

/-- C26 at the order tests: 34 is added to ascending `[33,34,34,35,36]` at index 3, after
the two existing values 34, and to descending `[36,35,34,33]` at index 3, before 33. -/
theorem C26_add_position_witness :
    (OrderImpl.addPosition ⟨⟨[33, 34, 34, 35, 36]⟩, CompareNumber, OrderKindIncreasing⟩ 34 = 3 ∧
      OrderImpl.addPosition ⟨⟨[36, 35, 34, 33]⟩, CompareNumber, OrderKindDecreasing⟩ 34 = 3 ∧
      ((OrderImpl.Add ⟨⟨[36, 35, 34, 33]⟩, CompareNumber, OrderKindDecreasing⟩ [34]).map
        (fun r => (r.1.Data, r.2))) = .ok ([36, 35, 34, 34, 33], 1)) ∧
    ∃ o2, OrderImpl.Add ⟨⟨[33, 34, 34, 35, 36]⟩, CompareNumber, OrderKindIncreasing⟩ [34] =
        .ok (o2, 1) ∧ o2.compare = CompareNumber ∧ o2.kind = OrderKindIncreasing ∧
      3 ≤ 5 ∧ o2.Data = [33, 34, 34] ++ [34] ++ [35, 36] ∧
      (∀ x ∈ [35, 36], CompareNumber x 34 ≠ 0) ∧
      (∀ x ∈ [33, 34, 34, 35, 36], CompareNumber x 34 = 0 → x ∈ [33, 34, 34]) :=
  ⟨⟨by decide, by decide, rfl⟩,
    C26_add_position ⟨⟨[33, 34, 34, 35, 36]⟩, CompareNumber, OrderKindIncreasing⟩
      CompareNumber_total (Or.inl rfl)
      (by simp [OrderImpl.Sorted, OrderImpl.Data, Impl.Data, AdjOK, CompareNumber,
        OrderKindIncreasing, OrderKindDecreasing]) 34⟩


/-! ## Orders: an unsupported direction -/

/-- With a direction that is neither ascending nor descending, `Add` of at least one value
to non-empty data panics with "unsupported order kind": the first probe of the binary search
reaches the default case. -/
theorem OrderImpl.add_unsupported {T : Type} (o : OrderImpl T) (hk : ¬ ValidKind o.kind)
    (hd : o.Vector.data ≠ []) (v : T) (vs : List T) :
    o.Add (v :: vs) = .error .UnsupportedOrderKind := by
  have h1 : ¬ o.kind = OrderKindIncreasing := fun h => hk (Or.inl h)
  have h2 : ¬ o.kind = OrderKindDecreasing := fun h => hk (Or.inr h)
  obtain ⟨n, hn⟩ : ∃ n, o.Vector.data.length = n + 1 :=
    Nat.exists_eq_succ_of_ne_zero (fun h => hd (List.length_eq_zero.mp h))
  have hstep : OrderImpl.addStep (o, 0) v = .error .UnsupportedOrderKind := by
    unfold OrderImpl.addStep Search
    simp only [Impl.len, hn, if_neg h1, if_neg h2, searchLoop]
    simp
    rfl
  simp only [OrderImpl.Add, OrderImpl.add, List.foldlM_cons, hstep]
  rfl

/-- With a direction that is neither ascending nor descending, `FirstIndexOf` on non-empty
data panics with "unsupported order kind". -/
theorem OrderImpl.firstIndexOf_unsupported {T : Type} (o : OrderImpl T)
    (hk : ¬ ValidKind o.kind) (hd : o.Vector.data ≠ []) (v : T) :
    o.FirstIndexOf v = .error .UnsupportedOrderKind := by
  have h1 : ¬ o.kind = OrderKindIncreasing := fun h => hk (Or.inl h)
  have h2 : ¬ o.kind = OrderKindDecreasing := fun h => hk (Or.inr h)
  obtain ⟨n, hn⟩ : ∃ n, o.Vector.data.length = n + 1 :=
    Nat.exists_eq_succ_of_ne_zero (fun h => hd (List.length_eq_zero.mp h))
  unfold OrderImpl.FirstIndexOf OrderImpl.firstIndexOf Search
  simp only [Impl.len, hn, if_neg h1, if_neg h2, searchLoop]
  simp
  rfl


/-- C28 fails at `Merge` and `Combine` of two orders of direction 0 with data `[1]` and
`[2]` (each built by one `Add` on a new order, which compares nothing): the loop compares
1 with 2, the direction test is false for both directions, and the calls return an order
with data `[2,1]` instead of panicking.  `Add` and `FirstIndexOf` on the same order panic
with "unsupported order kind". -/
theorem C28_merge_unsupported_kind :
    ¬ ValidKind (0 : OrderKind) ∧
      ((NewOrder CompareNumber 0).Add [1]).map (fun r => r.1.Data) = .ok [1] ∧
      ((NewOrder CompareNumber 0).Add [2]).map (fun r => r.1.Data) = .ok [2] ∧
      (OrderImpl.Merge ⟨⟨[1]⟩, CompareNumber, 0⟩ ⟨⟨[2]⟩, CompareNumber, 0⟩).map
        OrderImpl.Data = .ok [2, 1] ∧
      (OrderImpl.Combine ⟨⟨[1]⟩, CompareNumber, 0⟩ ⟨⟨[2]⟩, CompareNumber, 0⟩).map
        OrderImpl.Data = .ok [2, 1] ∧
      OrderImpl.Merge ⟨⟨[1]⟩, CompareNumber, 0⟩ ⟨⟨[2]⟩, CompareNumber, 0⟩ ≠
        .error .UnsupportedOrderKind ∧
      OrderImpl.Combine ⟨⟨[1]⟩, CompareNumber, 0⟩ ⟨⟨[2]⟩, CompareNumber, 0⟩ ≠
        .error .UnsupportedOrderKind ∧
      OrderImpl.Add ⟨⟨[1]⟩, CompareNumber, 0⟩ [2] = .error .UnsupportedOrderKind ∧
      OrderImpl.FirstIndexOf ⟨⟨[1]⟩, CompareNumber, 0⟩ 2 = .error .UnsupportedOrderKind := by
  have hk : ¬ ValidKind (0 : OrderKind) := by
    simp [ValidKind, OrderKindIncreasing, OrderKindDecreasing]
  refine ⟨hk, rfl, rfl, rfl, rfl, ?_, ?_, rfl, rfl⟩
  · have e := OrderImpl.merge_eq (⟨⟨[1]⟩, CompareNumber, 0⟩ : OrderImpl Int)
      ⟨⟨[2]⟩, CompareNumber, 0⟩
    unfold OrderImpl.Merge
    rw [e]
    intro h
    cases h
  · have e := OrderImpl.combine_eq (⟨⟨[1]⟩, CompareNumber, 0⟩ : OrderImpl Int)
      ⟨⟨[2]⟩, CompareNumber, 0⟩
    unfold OrderImpl.Combine
    rw [e]
    intro h
    cases h


/-! ## Sequences: iteration -/

/-- The loop of `xrange` with a recording callback: the calls recorded are those on an
initial segment of the remaining positions, in order; every call but the last returned
`nil`; the loop returns what the last call returned (`nil` when there was no call); when it
returns `nil` every remaining position was called; and the callback itself runs as without
the recording. -/
theorem Impl.xrangeLoop_spec {T σ E : Type} (callback : σ → Nat → T → σ × Option E)
    (rest : List T) :
    ∀ (index : Nat) (s : σ) (log0 : List (Nat × T × Option E)),
    ∃ new, (Impl.xrangeLoop (recordCalls callback) index rest (s, log0)).1.2 = log0 ++ new ∧
      new.map (fun c => (c.1, c.2.1)) = (rest.enumFrom index).take new.length ∧
      (∀ c ∈ new.dropLast, c.2.2 = none) ∧
      (Impl.xrangeLoop (recordCalls callback) index rest (s, log0)).2 =
        new.getLast?.bind (fun c => c.2.2) ∧
      ((Impl.xrangeLoop (recordCalls callback) index rest (s, log0)).2 = none →
        new.length = rest.length) ∧
      Impl.xrangeLoop callback index rest s =
        ((Impl.xrangeLoop (recordCalls callback) index rest (s, log0)).1.1,
          (Impl.xrangeLoop (recordCalls callback) index rest (s, log0)).2) := by
  induction rest with
  | nil =>
    intro index s log0
    exact ⟨[], by simp [Impl.xrangeLoop], rfl, by simp, rfl, fun _ => rfl, rfl⟩
  | cons value rest ih =>
    intro index s log0
    cases hr : (callback s index value).2 with
    | some err =>
      have e1 : Impl.xrangeLoop (recordCalls callback) index (value :: rest) (s, log0) =
          (((callback s index value).1, log0 ++ [(index, value, some err)]), some err) := by
        simp only [Impl.xrangeLoop, recordCalls, hr]
      have e2 : Impl.xrangeLoop callback index (value :: rest) s =
          ((callback s index value).1, some err) := by
        cases hc : callback s index value with
        | mk s2 r =>
          rw [hc] at hr
          simp only at hr
          simp only [Impl.xrangeLoop, hc, hr]
      rw [e1, e2]
      refine ⟨[(index, value, some err)], rfl, by simp [List.enumFrom_cons], by simp, rfl,
        ?_, rfl⟩
      intro h
      cases h
    | none =>
      obtain ⟨new, h1, h2, h3, h4, h5, h6⟩ :=
        ih (index + 1) (callback s index value).1 (log0 ++ [(index, value, none)])
      have e1 : Impl.xrangeLoop (recordCalls callback) index (value :: rest) (s, log0) =
          Impl.xrangeLoop (recordCalls callback) (index + 1) rest
            ((callback s index value).1, log0 ++ [(index, value, none)]) := by
        simp only [Impl.xrangeLoop, recordCalls, hr]
      have e2 : Impl.xrangeLoop callback index (value :: rest) s =
          Impl.xrangeLoop callback (index + 1) rest (callback s index value).1 := by
        cases hc : callback s index value with
        | mk s2 r =>
          rw [hc] at hr
          simp only at hr
          simp only [Impl.xrangeLoop, hc, hr]
      rw [e1, e2]
      refine ⟨(index, value, none) :: new, ?_, ?_, ?_, ?_, ?_, h6⟩
      · rw [h1]
        simp
      · simp [List.enumFrom_cons, h2]
      · intro c hc
        cases new with
        | nil => simp at hc
        | cons a l =>
          rw [List.dropLast_cons₂] at hc
          rcases List.mem_cons.mp hc with h | h
          · rw [h]
          · exact h3 c h
      · rw [h4]
        cases new with
        | nil => rfl
        | cons a l => simp [List.getLast?_cons_cons]
      · intro h
        simp [h5 h]


/-- C25: `Range` with a callback that records its calls returns what it returns without the
recording, and the recorded calls are the pairs `(index, value)` of an initial segment of
the data, in increasing index order.  Every call but the last returned `nil` and `Range`
returns what the last call returned.  When `Range` returns an error, the last call is the
one at some index `k`, it returned that error, and exactly the `k + 1` indices `0..k` were
called; when `Range` returns `nil`, every index was called once and every call returned
`nil`. -/
theorem C25_range_calls {T σ E : Type} (v : Impl T) (callback : σ → Nat → T → σ × Option E)
    (s : σ) :
    ∃ calls : List (Nat × T × Option E),
      v.Range (recordCalls callback) (s, []) =
        (((v.Range callback s).1, calls), (v.Range callback s).2) ∧
      calls.map (fun c => (c.1, c.2.1)) = v.Data.enum.take calls.length ∧
      (∀ c ∈ calls.dropLast, c.2.2 = none) ∧
      (v.Range callback s).2 = calls.getLast?.bind (fun c => c.2.2) ∧
      (∀ err, (v.Range callback s).2 = some err →
        ∃ k, ∃ hk : k < v.Data.length, calls.length = k + 1 ∧
          calls.getLast? = some (k, v.Data.get ⟨k, hk⟩, some err)) ∧
      ((v.Range callback s).2 = none →
        calls.length = v.Data.length ∧ ∀ c ∈ calls, c.2.2 = none) := by
  obtain ⟨calls, h1, h2, h3, h4, h5, h6⟩ := Impl.xrangeLoop_spec callback v.data 0 s []
  have hrun : v.Range callback s = Impl.xrangeLoop callback 0 v.data s := rfl
  have hrec : v.Range (recordCalls callback) (s, []) =
      Impl.xrangeLoop (recordCalls callback) 0 v.data (s, []) := rfl
  rw [List.nil_append] at h1
  have hres : (v.Range callback s).2 =
      (Impl.xrangeLoop (recordCalls callback) 0 v.data (s, [])).2 := by
    rw [hrun, h6]
  have hst : (v.Range callback s).1 =
      (Impl.xrangeLoop (recordCalls callback) 0 v.data (s, [])).1.1 := by
    rw [hrun, h6]
  have hlen : calls.length ≤ v.data.length := by
    have := congrArg List.length h2
    simp only [List.length_map, List.length_take, List.enumFrom_length] at this
    omega
  refine ⟨calls, ?_, h2, h3, hres.trans h4, ?_, ?_⟩
  · rw [hrec, hst, hres, ← h1]
  · intro err herr
    rw [hres, h4] at herr
    rcases List.eq_nil_or_concat calls with hnil | ⟨L, c, hcat⟩
    · rw [hnil] at herr
      cases herr
    · rw [List.concat_eq_append] at hcat
      subst hcat
      rw [List.getLast?_concat] at herr
      simp only [Option.some_bind] at herr
      have hk : L.length < v.data.length := by
        simp only [List.length_append, List.length_singleton] at hlen
        omega
      refine ⟨L.length, hk, by simp, ?_⟩
      rw [List.getLast?_concat]
      have hget := congrArg (fun l => l[L.length]?) h2
      simp only [List.map_append, List.map_cons, List.map_nil, List.length_append,
        List.length_singleton] at hget
      rw [List.getElem?_append_right (by simp)] at hget
      simp only [List.length_map, Nat.sub_self, List.getElem?_cons_zero] at hget
      rw [List.getElem?_take_of_lt (Nat.lt_succ_self _)] at hget
      have henum : (List.enumFrom 0 v.data)[L.length]? = some (L.length, v.data.get ⟨_, hk⟩) := by
        simp [List.getElem?_enumFrom, List.getElem?_eq_getElem hk]
      have hget2 : some (c.1, c.2.1) = some (L.length, v.data.get ⟨_, hk⟩) :=
        hget.trans henum
      injection hget2 with hget3
      have ha : c.1 = L.length := congrArg Prod.fst hget3
      have hb : c.2.1 = v.data.get ⟨_, hk⟩ := congrArg Prod.snd hget3
      obtain ⟨c1, c2, c3⟩ := c
      simp only at ha hb herr
      rw [ha, hb, herr]
      rfl
  · intro hnone
    rw [hres] at hnone
    refine ⟨h5 hnone, ?_⟩
    rw [h4] at hnone
    intro c hc
    rcases List.eq_nil_or_concat calls with hnil | ⟨L, b, hcat⟩
    · rw [hnil] at hc
      cases hc
    · rw [List.concat_eq_append] at hcat
      subst hcat
      rw [List.getLast?_concat] at hnone
      simp only [Option.some_bind] at hnone
      rw [List.dropLast_concat] at h3
      rcases List.mem_append.mp hc with h | h
      · exact h3 c h
      · rw [List.mem_singleton.mp h]
        exact hnone

/-- The iteration test: `Range` over `[33]` with a counting callback that returns `nil`,
then `xrange` with one that returns an error, leaves the counter at 2; over `[5,6,7]` a
callback failing at once is called on index 0 only. -/
theorem Impl.range_test :
    (⟨[33]⟩ : Impl Int).Range (countingCallback false) 0 = (1, none) ∧
      (⟨[33]⟩ : Impl Int).xrange (countingCallback true) 1 = (2, some "error") ∧
      (⟨[5, 6, 7]⟩ : Impl Int).Range (recordCalls (countingCallback true)) (0, []) =
        ((1, [(0, 5, some "error")]), some "error") ∧
      (⟨[5, 6, 7]⟩ : Impl Int).Range (recordCalls (countingCallback false)) (0, []) =
        ((3, [(0, 5, none), (1, 6, none), (2, 7, none)]), none) :=
  ⟨rfl, rfl, rfl, rfl⟩


/-! ## Priority queue -/

/-- The scan of `enqueue` from `index` on, with enough iterations left, returns; the data
after `enqueue` is then the data before `index` followed by the rest with the new element
at its place. -/
theorem PriorityQueueImpl.enqueueLoop_eq {T : Type} (pq : PriorityQueueImpl T)
    (newElement : PriorityQueueElement T) :
    ∀ (fuel index : Nat), index ≤ pq.Vector.data.length →
      pq.Vector.data.length < fuel + index →
      ∃ r, pq.enqueueLoop newElement fuel index = .ok r ∧
        (match r with
          | some v => v.data
          | none => pq.Vector.data ++ [newElement]) =
        pq.Vector.data.take index ++
          enqueuePlace pq.prioritiesComparator newElement (pq.Vector.data.drop index) := by
  intro fuel
  induction fuel with
  | zero =>
    intro index h1 h2
    omega
  | succ fuel ih =>
    intro index h1 h2
    by_cases hlt : index < pq.Vector.data.length
    · have hget := Impl.get_ok pq.Vector index hlt
      have hdrop : pq.Vector.data.drop index =
          pq.Vector.data.get ⟨index, hlt⟩ :: pq.Vector.data.drop (index + 1) :=
        List.drop_eq_getElem_cons hlt
      by_cases hord : pq.prioritiesComparator newElement.Priority
          (pq.Vector.data.get ⟨index, hlt⟩).Priority = true
      · have hins := Impl.insert_ok pq.Vector index [newElement] h1
        refine ⟨some ⟨pq.Vector.data.take index ++ [newElement] ++
          pq.Vector.data.drop index⟩, ?_, ?_⟩
        · simp only [PriorityQueueImpl.enqueueLoop, Impl.len, if_pos hlt, hget]
          simp only [bind, Except.bind, hord, if_true, hins]
          rfl
        · rw [hdrop]
          simp only [enqueuePlace, hord, if_true, List.append_assoc, List.singleton_append]
      · obtain ⟨r, hr1, hr2⟩ := ih (index + 1) hlt (by omega)
        refine ⟨r, ?_, ?_⟩
        · simp only [PriorityQueueImpl.enqueueLoop, Impl.len, if_pos hlt, hget]
          simp only [bind, Except.bind, hord]
          exact hr1
        · have ht : pq.Vector.data.take (index + 1) =
              pq.Vector.data.take index ++ [pq.Vector.data.get ⟨index, hlt⟩] := by
            rw [List.take_succ, List.getElem?_eq_getElem hlt]
            rfl
          rw [hr2, hdrop, ht, enqueuePlace, if_neg hord, List.append_assoc,
            List.singleton_append]
    · have hlen : pq.Vector.data.length ≤ index := by omega
      refine ⟨none, ?_, ?_⟩
      · simp only [PriorityQueueImpl.enqueueLoop, Impl.len, if_neg hlt]
        rfl
      · rw [List.take_of_length_le hlen, List.drop_of_length_le hlen]
        rfl

/-- A call of `Enqueue` returns and puts the new element at its place in the data. -/
theorem PriorityQueueImpl.enqueue_eq {T : Type} (pq : PriorityQueueImpl T) (priority : Int)
    (value : T) :
    pq.Enqueue priority value =
      .ok ⟨⟨enqueuePlace pq.prioritiesComparator ⟨priority, value⟩ pq.Vector.data⟩,
        pq.prioritiesComparator⟩ := by
  obtain ⟨r, hr1, hr2⟩ := pq.enqueueLoop_eq ⟨priority, value⟩ (pq.Vector.data.length + 1) 0
    (Nat.zero_le _) (by omega)
  simp only [List.take_zero, List.drop_zero, List.nil_append] at hr2
  unfold PriorityQueueImpl.Enqueue PriorityQueueImpl.enqueue
  simp only [Impl.len, hr1]
  cases r with
  | none =>
    simp only at hr2
    rw [← hr2]
    rfl
  | some v =>
    simp only at hr2
    rw [← hr2]
    rfl


theorem PriorityQueueOrderDirect_ok : PriorityOrderOK PriorityQueueOrderDirect := by
  refine ⟨fun a => ?_, fun a b c h1 h2 => ?_⟩
  · simp [PriorityQueueOrderDirect]
  · simp only [PriorityQueueOrderDirect, decide_eq_true_eq, decide_eq_false_iff_not] at *
    omega

theorem PriorityQueueOrderReverse_ok : PriorityOrderOK PriorityQueueOrderReverse := by
  refine ⟨fun a => ?_, fun a b c h1 h2 => ?_⟩
  · simp [PriorityQueueOrderReverse]
  · simp only [PriorityQueueOrderReverse, decide_eq_true_eq, decide_eq_false_iff_not] at *
    omega

theorem enqueuePlace_perm {T : Type} (ord : PriorityQueueOrder) (e : PriorityQueueElement T)
    (d : List (PriorityQueueElement T)) : (enqueuePlace ord e d).Perm (e :: d) := by
  induction d with
  | nil => exact List.Perm.refl _
  | cons x xs ih =>
    by_cases h : ord e.Priority x.Priority = true
    · rw [enqueuePlace, if_pos h]
    · rw [enqueuePlace, if_neg h]
      exact (List.Perm.cons x ih).trans (List.Perm.swap e x xs)

/-- Placing a new element keeps the data in order. -/
theorem enqueuePlace_sorted {T : Type} (ord : PriorityQueueOrder) (hord : PriorityOrderOK ord)
    (e : PriorityQueueElement T) (d : List (PriorityQueueElement T))
    (hs : PrioritySorted ord d) : PrioritySorted ord (enqueuePlace ord e d) := by
  unfold PrioritySorted at *
  induction d with
  | nil => simp [enqueuePlace]
  | cons x xs ih =>
    obtain ⟨hx, hxs⟩ := List.pairwise_cons.mp hs
    by_cases h : ord e.Priority x.Priority = true
    · rw [enqueuePlace, if_pos h]
      refine List.pairwise_cons.mpr ⟨fun y hy => ?_, hs⟩
      rcases List.mem_cons.mp hy with hy | hy
      · rw [hy]
        exact hord.2 _ _ _ h (hord.1 _)
      · exact hord.2 _ _ _ h (hx y hy)
    · rw [enqueuePlace, if_neg h]
      refine List.pairwise_cons.mpr ⟨fun y hy => ?_, ih hxs⟩
      rcases List.mem_cons.mp ((enqueuePlace_perm ord e xs).mem_iff.mp hy) with hy | hy
      · rw [hy]
        simpa using h
      · exact hx y hy

/-- Placing a new element puts it after the elements of its own priority and leaves the
elements of every priority in their order. -/
theorem enqueuePlace_withPriority {T : Type} (ord : PriorityQueueOrder)
    (hord : PriorityOrderOK ord) (e : PriorityQueueElement T)
    (d : List (PriorityQueueElement T)) (hs : PrioritySorted ord d) (p : Int) :
    withPriority p (enqueuePlace ord e d) = withPriority p (d ++ [e]) := by
  unfold PrioritySorted at hs
  unfold withPriority
  induction d with
  | nil => rfl
  | cons x xs ih =>
    obtain ⟨hx, hxs⟩ := List.pairwise_cons.mp hs
    by_cases h : ord e.Priority x.Priority = true
    · rw [enqueuePlace, if_pos h]
      by_cases hp : e.Priority = p
      · have hnone : ∀ y ∈ x :: xs, ¬ decide (y.Priority = p) = true := by
          intro y hy hyp
          have hyp2 : y.Priority = e.Priority := by
            rw [hp]
            simpa using hyp
          rw [← hyp2] at h
          rcases List.mem_cons.mp hy with hy | hy
          · rw [hy, hord.1] at h
            cases h
          · rw [hx y hy] at h
            cases h
        have hnil : (x :: xs).filter (fun e => decide (e.Priority = p)) = [] :=
          List.filter_eq_nil_iff.mpr hnone
        rw [List.filter_append, List.filter_cons, hnil]
        simp [hp]
      · rw [List.filter_append, List.filter_cons]
        simp [hp]
    · rw [enqueuePlace, if_neg h, List.cons_append, List.filter_cons, List.filter_cons, ih hxs]


/-- A sequence of `Enqueue` calls on a queue in order returns and leaves a queue in order
that holds the old elements and the new ones, those of each priority in the order they
had and were enqueued in. -/
theorem runEnqueues_spec {T : Type} (calls : List (Int × T)) :
    ∀ (pq : PriorityQueueImpl T), PriorityOrderOK pq.prioritiesComparator →
      PrioritySorted pq.prioritiesComparator pq.Vector.data →
      ∃ d, runEnqueues pq calls = .ok ⟨⟨d⟩, pq.prioritiesComparator⟩ ∧
        PrioritySorted pq.prioritiesComparator d ∧
        d.Perm (pq.Vector.data ++ calls.map callElement) ∧
        ∀ p, withPriority p d = withPriority p (pq.Vector.data ++ calls.map callElement) := by
  induction calls with
  | nil =>
    intro pq _ hs
    exact ⟨pq.Vector.data, rfl, hs, by simp, fun p => by simp⟩
  | cons c cs ih =>
    intro pq hord hs
    have hstep := pq.enqueue_eq c.1 c.2
    obtain ⟨d, h1, h2, h3, h4⟩ := ih
      ⟨⟨enqueuePlace pq.prioritiesComparator ⟨c.1, c.2⟩ pq.Vector.data⟩,
        pq.prioritiesComparator⟩ hord (enqueuePlace_sorted _ hord _ _ hs)
    refine ⟨d, ?_, h2, ?_, fun p => ?_⟩
    · simp only [runEnqueues, List.foldlM_cons, hstep]
      exact h1
    · refine h3.trans ?_
      have hp := enqueuePlace_perm pq.prioritiesComparator ⟨c.1, c.2⟩ pq.Vector.data
      refine (List.Perm.append_right _ hp).trans ?_
      simp only [List.map_cons, callElement, List.cons_append]
      exact List.perm_middle.symm
    · rw [h4 p]
      have hp := enqueuePlace_withPriority pq.prioritiesComparator hord ⟨c.1, c.2⟩
        pq.Vector.data hs p
      unfold withPriority at hp ⊢
      rw [List.filter_append, hp, ← List.filter_append]
      simp [callElement]

/-- Draining returns the values of the data from the front on and leaves the queue empty:
every `Dequeue` returns the value of the first element and removes it. -/
theorem PriorityQueueImpl.drainLoop_spec {T : Type} (ord : PriorityQueueOrder) :
    ∀ (fuel : Nat) (d : List (PriorityQueueElement T)), d.length ≤ fuel →
      PriorityQueueImpl.drainLoop fuel ⟨⟨d⟩, ord⟩ =
        .ok (d.map PriorityQueueElement.Value, ⟨⟨[]⟩, ord⟩) := by
  intro fuel
  induction fuel with
  | zero =>
    intro d hd
    have : d = [] := List.length_eq_zero.mp (by omega)
    subst this
    rfl
  | succ fuel ih =>
    intro d hd
    cases d with
    | nil => rfl
    | cons x xs =>
      have hdq : PriorityQueueImpl.Dequeue ⟨⟨x :: xs⟩, ord⟩ = (.ok x.Value, ⟨⟨xs⟩, ord⟩) := by
        have hrem := Impl.remove_ok (⟨x :: xs⟩ : Impl (PriorityQueueElement T)) 0
          (by simp)
        unfold PriorityQueueImpl.Dequeue PriorityQueueImpl.dequeue
        simp only [PriorityQueueImpl.empty, Impl.len, Impl.first, hrem]
        simp
      have hlen : xs.length ≤ fuel := by
        simp only [List.length_cons] at hd
        omega
      simp only [PriorityQueueImpl.drainLoop, PriorityQueueImpl.Empty, PriorityQueueImpl.empty,
        Impl.len, hdq, ih xs hlen]
      simp

theorem PriorityQueueImpl.drain_spec {T : Type} (pq : PriorityQueueImpl T) :
    pq.drain = .ok (pq.Vector.data.map PriorityQueueElement.Value,
      ⟨⟨[]⟩, pq.prioritiesComparator⟩) :=
  PriorityQueueImpl.drainLoop_spec pq.prioritiesComparator pq.Vector.data.length
    pq.Vector.data (Nat.le_refl _)


/-- C29: for every sequence of `Enqueue(priority, value)` calls on a new priority queue, with
the direct order and with the reverse order, the calls return, draining the queue with
`Dequeue` returns the values of the queue data from the front on and leaves the queue empty
(a further `Dequeue` panics with `ErrEmptyPriorityQueue`), and the queue data is the enqueued
elements sorted by priority, highest first for the direct order and lowest first for the
reverse order, the elements of each priority in the order they were enqueued. -/
theorem C29_priority_queue_drain {T : Type} (calls : List (Int × T)) :
    (∃ pq out rest, runEnqueues NewPriorityQueue calls = .ok pq ∧
      pq.drain = .ok (out, rest) ∧ rest.Empty = true ∧
      rest.Dequeue.1 = .error .ErrEmptyPriorityQueue ∧
      out = pq.Vector.Data.map PriorityQueueElement.Value ∧
      pq.Vector.Data.Pairwise (fun a b => a.Priority ≥ b.Priority) ∧
      pq.Vector.Data.Perm (calls.map callElement) ∧
      ∀ p, withPriority p pq.Vector.Data = withPriority p (calls.map callElement)) ∧
    (∃ pq out rest,
      runEnqueues (NewPriorityQueue.WithOrder PriorityQueueOrderReverse) calls = .ok pq ∧
      pq.drain = .ok (out, rest) ∧ rest.Empty = true ∧
      rest.Dequeue.1 = .error .ErrEmptyPriorityQueue ∧
      out = pq.Vector.Data.map PriorityQueueElement.Value ∧
      pq.Vector.Data.Pairwise (fun a b => a.Priority ≤ b.Priority) ∧
      pq.Vector.Data.Perm (calls.map callElement) ∧
      ∀ p, withPriority p pq.Vector.Data = withPriority p (calls.map callElement)) := by
  constructor
  · obtain ⟨d, h1, h2, h3, h4⟩ := runEnqueues_spec calls (NewPriorityQueue : PriorityQueueImpl T)
      PriorityQueueOrderDirect_ok List.Pairwise.nil
    refine ⟨_, _, _, h1, PriorityQueueImpl.drain_spec _, rfl, rfl, rfl, ?_, h3, h4⟩
    refine List.Pairwise.imp ?_ h2
    intro a b hab
    have hab2 : PriorityQueueOrderDirect b.Priority a.Priority = false := hab
    simp only [PriorityQueueOrderDirect, decide_eq_false_iff_not] at hab2
    omega
  · obtain ⟨d, h1, h2, h3, h4⟩ := runEnqueues_spec calls
      ((NewPriorityQueue : PriorityQueueImpl T).WithOrder PriorityQueueOrderReverse)
      PriorityQueueOrderReverse_ok List.Pairwise.nil
    refine ⟨_, _, _, h1, PriorityQueueImpl.drain_spec _, rfl, rfl, rfl, ?_, h3, h4⟩
    refine List.Pairwise.imp ?_ h2
    intro a b hab
    have hab2 : PriorityQueueOrderReverse b.Priority a.Priority = false := hab
    simp only [PriorityQueueOrderReverse, decide_eq_false_iff_not] at hab2
    omega

/-- C29 at the scenario of the priority queue tests: the eight calls dequeue as
30, 31, 20, 21, 22, 10, 11, 12 with the direct order and as 10, 11, 12, 20, 21, 22, 30, 31
with the reverse order. -/
theorem C29_priority_queue_drain_witness :
    ((runEnqueues NewPriorityQueue testEnqueues).bind
        (fun pq => pq.drain.map (fun r => r.1)) = .ok [30, 31, 20, 21, 22, 10, 11, 12] ∧
      (runEnqueues (NewPriorityQueue.WithOrder PriorityQueueOrderReverse) testEnqueues).bind
        (fun pq => pq.drain.map (fun r => r.1)) = .ok [10, 11, 12, 20, 21, 22, 30, 31]) ∧
    ((∃ pq out rest, runEnqueues NewPriorityQueue testEnqueues = .ok pq ∧
      pq.drain = .ok (out, rest) ∧ rest.Empty = true ∧
      rest.Dequeue.1 = .error .ErrEmptyPriorityQueue ∧
      out = pq.Vector.Data.map PriorityQueueElement.Value ∧
      pq.Vector.Data.Pairwise (fun a b => a.Priority ≥ b.Priority) ∧
      pq.Vector.Data.Perm (testEnqueues.map callElement) ∧
      ∀ p, withPriority p pq.Vector.Data = withPriority p (testEnqueues.map callElement)) ∧
    (∃ pq out rest,
      runEnqueues (NewPriorityQueue.WithOrder PriorityQueueOrderReverse) testEnqueues =
        .ok pq ∧
      pq.drain = .ok (out, rest) ∧ rest.Empty = true ∧
      rest.Dequeue.1 = .error .ErrEmptyPriorityQueue ∧
      out = pq.Vector.Data.map PriorityQueueElement.Value ∧
      pq.Vector.Data.Pairwise (fun a b => a.Priority ≤ b.Priority) ∧
      pq.Vector.Data.Perm (testEnqueues.map callElement) ∧
      ∀ p, withPriority p pq.Vector.Data = withPriority p (testEnqueues.map callElement))) :=
  ⟨⟨rfl, rfl⟩, C29_priority_queue_drain testEnqueues⟩


/-! ## Merge: stability -/

theorem tagMerge_fst {T : Type} (le : T → T → Bool) (xs ys : List (T × Bool)) :
    (List.merge xs ys (fun x y => le x.1 y.1)).map Prod.fst =
      List.merge (xs.map Prod.fst) (ys.map Prod.fst) le := by
  induction xs generalizing ys with
  | nil => simp [List.merge]
  | cons a as iha =>
    induction ys with
    | nil => simp [List.merge]
    | cons b bs ihb =>
      rw [List.cons_merge_cons, List.map_cons, List.map_cons, List.cons_merge_cons]
      by_cases h : le a.1 b.1 = true
      · rw [if_pos h, if_pos h, List.map_cons, iha (b :: bs), List.map_cons]
      · rw [if_neg h, if_neg h, List.map_cons, ihb, List.map_cons]

/-- The elements of the left operand appear in a merge in their own order. -/
theorem tagMerge_left {T : Type} (le : T × Bool → T × Bool → Bool) (xs ys : List T) :
    ((List.merge (xs.map (fun x => (x, true))) (ys.map (fun x => (x, false))) le).filter
      (fun x => x.2)).map Prod.fst = xs := by
  induction xs generalizing ys with
  | nil =>
    simp only [List.map_nil, List.nil_merge]
    induction ys with
    | nil => rfl
    | cons b bs ih => simp [List.filter_cons]
  | cons a as iha =>
    induction ys with
    | nil =>
      have h : ∀ l : List T, ((l.map (fun x => (x, true))).filter (fun x => x.2)).map
          Prod.fst = l := by
        intro l
        induction l with
        | nil => rfl
        | cons c cs ih => simpa [List.filter_cons] using ih
      simpa [List.merge] using h (a :: as)
    | cons b bs ihb =>
      rw [List.map_cons, List.map_cons, List.cons_merge_cons]
      by_cases h : le (a, true) (b, false) = true
      · rw [if_pos h, List.filter_cons]
        simp only [if_true, List.map_cons]
        rw [← List.map_cons (fun x => (x, false)) b bs, iha (b :: bs)]
      · rw [if_neg h, List.filter_cons]
        simp only [Bool.false_eq_true, if_false]
        rw [← List.map_cons (fun x => (x, true)) a as]
        exact ihb

/-- The elements of the right operand appear in a merge in their own order. -/
theorem tagMerge_right {T : Type} (le : T × Bool → T × Bool → Bool) (xs ys : List T) :
    ((List.merge (xs.map (fun x => (x, true))) (ys.map (fun x => (x, false))) le).filter
      (fun x => !x.2)).map Prod.fst = ys := by
  induction xs generalizing ys with
  | nil =>
    simp only [List.map_nil, List.nil_merge]
    induction ys with
    | nil => rfl
    | cons b bs ih => simpa [List.filter_cons] using ih
  | cons a as iha =>
    induction ys with
    | nil => simp [List.merge]
    | cons b bs ihb =>
      rw [List.map_cons, List.map_cons, List.cons_merge_cons]
      by_cases h : le (a, true) (b, false) = true
      · rw [if_pos h, List.filter_cons]
        simp only [Bool.not_true, Bool.false_eq_true, if_false]
        rw [← List.map_cons (fun x => (x, false)) b bs, iha (b :: bs)]
      · rw [if_neg h, List.filter_cons]
        simp only [Bool.not_false, if_true, List.map_cons]
        rw [← List.map_cons (fun x => (x, true)) a as, ihb]


/-- In a merge of marked operands with the left one sorted, no element of the right
operand stands before an element of the left operand that compares equal to it. -/
theorem OrderImpl.tagMerge_pairwise {T : Type} (o : OrderImpl T)
    (hc : IsTotalOrder o.compare) (hk : ValidKind o.kind) (xs ys : List T)
    (hx : xs.Pairwise (fun a b => dirCmp o.kind o.compare a b ≤ 0)) :
    (List.merge (xs.map (fun x => (x, true))) (ys.map (fun x => (x, false)))
      (fun x y => o.takesLeft x.1 y.1)).Pairwise
      (fun x y => x.2 = false → y.2 = true → o.compare y.1 x.1 ≠ 0) := by
  have hd := hc.dir hk
  induction xs generalizing ys with
  | nil =>
    rw [List.map_nil, List.nil_merge]
    refine List.Pairwise.imp_of_mem ?_ (List.pairwise_of_forall (fun _ _ => trivial))
    intro x y _ hy _ _ hy2
    obtain ⟨b, _, hb⟩ := List.mem_map.mp hy
    rw [← hb] at hy2
    cases hy2
  | cons a as iha =>
    obtain ⟨ha, has⟩ := List.pairwise_cons.mp hx
    induction ys with
    | nil =>
      rw [List.map_nil, List.merge_right]
      refine List.Pairwise.imp_of_mem ?_ (List.pairwise_of_forall (fun _ _ => trivial))
      intro x y hxm _ _ hx2 _
      obtain ⟨b, _, hb⟩ := List.mem_map.mp hxm
      rw [← hb] at hx2
      cases hx2
    | cons b bs ihb =>
      rw [List.map_cons, List.map_cons, List.cons_merge_cons]
      by_cases h : o.takesLeft a b = true
      · rw [if_pos h]
        refine List.pairwise_cons.mpr ⟨fun y _ hf => ?_, ?_⟩
        · cases hf
        · rw [← List.map_cons (fun x => (x, false)) b bs]
          exact iha (b :: bs) has
      · rw [if_neg h]
        refine List.pairwise_cons.mpr ⟨fun y hy _ hy2 heq => ?_, ?_⟩
        · have hab : 0 < dirCmp o.kind o.compare a b := by
            have := (o.takesLeft_iff hk a b).not.mp h
            omega
          have hyl : y.1 ∈ a :: as := by
            rcases List.mem_merge.mp hy with hm | hm
            · have hm2 : y ∈ List.map (fun x => (x, true)) (a :: as) := hm
              obtain ⟨c, hc1, hc2⟩ := List.mem_map.mp hm2
              rw [← hc2]
              exact hc1
            · obtain ⟨c, _, hc2⟩ := List.mem_map.mp hm
              rw [← hc2] at hy2
              cases hy2
          have hay : dirCmp o.kind o.compare a y.1 ≤ 0 := by
            rcases List.mem_cons.mp hyl with e | e
            · rw [e]
              exact le_of_eq (hd.refl a)
            · exact ha _ e
          have hyb : dirCmp o.kind o.compare y.1 b ≤ 0 :=
            le_of_eq ((dirCmp_eq_zero o.compare hk y.1 b).mpr heq)
          have := hd.trans a y.1 b hay hyb
          omega
        · rw [← List.map_cons (fun x => (x, true)) a as]
          exact ihb


/-- C27: for orders `A` and `B` under a total-order comparator and a valid direction, with
`A` sorted, `A.Merge(B)` returns; run on the operands with every element marked with its
operand, it returns the same data with the marks, in which the elements of `A` are `A`'s data
in order, the elements of `B` are `B`'s data in order, and no element of `B` stands before
an element of `A` that compares equal to it. -/
theorem C27_merge_stable {T : Type} (a b : OrderImpl T) (hc : IsTotalOrder a.compare)
    (hk : ValidKind a.kind) (ha : a.Sorted) :
    ∃ m mt, a.Merge b = .ok m ∧ (a.tagged true).Merge (b.tagged false) = .ok mt ∧
      mt.Data.map Prod.fst = m.Data ∧
      (mt.Data.filter (fun x => x.2)).map Prod.fst = a.Data ∧
      (mt.Data.filter (fun x => !x.2)).map Prod.fst = b.Data ∧
      mt.Data.Pairwise (fun x y => x.2 = false → y.2 = true → a.compare y.1 x.1 ≠ 0) := by
  have hp : a.Vector.data.Pairwise (fun x y => dirCmp a.kind a.compare x y ≤ 0) :=
    (sorted_iff_pairwise hc hk _).mp ha
  refine ⟨_, _, a.merge_eq b, (a.tagged true).merge_eq (b.tagged false), ?_, ?_, ?_, ?_⟩
  · have h := tagMerge_fst a.takesLeft (a.Vector.data.map (fun x => (x, true)))
      (b.Vector.data.map (fun x => (x, false)))
    simp only [List.map_map] at h
    exact h.trans (by simp [OrderImpl.Data, Impl.Data, Function.comp_def])
  · exact tagMerge_left _ a.Vector.data b.Vector.data
  · exact tagMerge_right _ a.Vector.data b.Vector.data
  · exact a.tagMerge_pairwise hc hk a.Vector.data b.Vector.data hp

/-- C27 at ascending `[1,3,3,5]` merged with `[3,3,4]`: the two values 3 of the receiver
stand before the two values 3 of the argument. -/
theorem C27_merge_stable_witness :
    ((OrderImpl.tagged ⟨⟨[1, 3, 3, 5]⟩, CompareNumber, OrderKindIncreasing⟩ true).Merge
        (OrderImpl.tagged ⟨⟨[3, 3, 4]⟩, CompareNumber, OrderKindIncreasing⟩ false)).map
      OrderImpl.Data = .ok [(1, true), (3, true), (3, true), (3, false), (3, false),
        (4, false), (5, true)] ∧
    ∃ m mt, OrderImpl.Merge ⟨⟨[1, 3, 3, 5]⟩, CompareNumber, OrderKindIncreasing⟩
        ⟨⟨[3, 3, 4]⟩, CompareNumber, OrderKindIncreasing⟩ = .ok m ∧
      (OrderImpl.tagged ⟨⟨[1, 3, 3, 5]⟩, CompareNumber, OrderKindIncreasing⟩ true).Merge
        (OrderImpl.tagged ⟨⟨[3, 3, 4]⟩, CompareNumber, OrderKindIncreasing⟩ false) = .ok mt ∧
      mt.Data.map Prod.fst = m.Data ∧
      (mt.Data.filter (fun x => x.2)).map Prod.fst = [1, 3, 3, 5] ∧
      (mt.Data.filter (fun x => !x.2)).map Prod.fst = [3, 3, 4] ∧
      mt.Data.Pairwise (fun x y => x.2 = false → y.2 = true → CompareNumber y.1 x.1 ≠ 0) :=
  ⟨rfl, C27_merge_stable ⟨⟨[1, 3, 3, 5]⟩, CompareNumber, OrderKindIncreasing⟩
    ⟨⟨[3, 3, 4]⟩, CompareNumber, OrderKindIncreasing⟩ CompareNumber_total (Or.inl rfl)
    (by simp [OrderImpl.Sorted, OrderImpl.Data, Impl.Data, AdjOK, CompareNumber,
        OrderKindIncreasing, OrderKindDecreasing])⟩


/-! ## Binary operations under real locks: deadlock -/

/-- C30 fails for concurrent `A.Combine(B)` and `B.Combine(A)` under real mutexes: after the
first call has locked `A` and the second has locked `B`, both mutexes are locked, neither
call has completed, each is blocked in the `Lock` of its argument, and no goroutine can
step. -/
theorem C30_crossed_combine_deadlocks :
    crossedCalls.run [0, 1] =
      some ⟨[.B, .A], [[.Lock .B, .Body, .Unlock .B, .Unlock .A],
        [.Lock .A, .Body, .Unlock .A, .Unlock .B]]⟩ ∧
    (crossedCalls.run [0, 1]).map RunState.deadlocked = some true ∧
    (crossedCalls.run [0, 1]).map RunState.finished = some false ∧
    (crossedCalls.run [0, 1]).map (fun s => (s.step 0, s.step 1)) = some (none, none) := by
  decide


theorem RunState.step_mem_successors (s u : RunState) (t : Nat) (h : s.step t = some u) :
    u ∈ s.successors := by
  have ht : t < s.calls.length := by
    by_contra hn
    have e : s.calls[t]? = none := List.getElem?_eq_none (by omega)
    simp [RunState.step, e] at h
  exact List.mem_filterMap.mpr ⟨t, List.mem_range.mpr ht, h⟩

theorem RunState.run_append (s : RunState) (xs ys : List Nat) :
    s.run (xs ++ ys) = (s.run xs).bind (fun u => u.run ys) := by
  induction xs generalizing s with
  | nil => rfl
  | cons t ts ih =>
    simp only [List.cons_append, RunState.run]
    cases s.step t with
    | none => rfl
    | some u => exact ih u

/-- The states `advance` passes through are steps of a schedule. -/
theorem RunState.advance_run (n : Nat) :
    ∀ s : RunState, ∃ rest, s.run rest = some (s.advance n) := by
  induction n with
  | zero => exact fun s => ⟨[], rfl⟩
  | succ n ih =>
    intro s
    cases hf : (List.range s.calls.length).find? (fun t => (s.step t).isSome) with
    | none =>
      refine ⟨[], ?_⟩
      simp only [RunState.advance, hf]
      rfl
    | some t =>
      cases hst : s.step t with
      | none =>
        refine ⟨[], ?_⟩
        simp only [RunState.advance, hf, hst]
        rfl
      | some u =>
        obtain ⟨rest, hr⟩ := ih u
        refine ⟨t :: rest, ?_⟩
        simp only [RunState.advance, hf, hst, RunState.run, Option.some_bind, hr]

/-- The states within eleven steps of two concurrent `A.Combine(B)` calls: each has both
goroutines, its successors are among them, it is not a deadlock, and letting the goroutines
step from it completes both calls. -/
theorem alignedCalls_within :
    (alignedCalls.within 11).all (fun s =>
      decide (s.calls.length = 2) &&
        s.successors.all (fun u => decide (u ∈ alignedCalls.within 11)) &&
        !s.deadlocked && (s.advance 10).finished) = true := by
  decide

/-- Every schedule of two concurrent `A.Combine(B)` calls stays within these states. -/
theorem alignedCalls_run (sched : List Nat) :
    ∀ s, s ∈ alignedCalls.within 11 → ∀ u, s.run sched = some u →
      u ∈ alignedCalls.within 11 := by
  induction sched with
  | nil =>
    intro s hs u hu
    simp only [RunState.run, Option.some.injEq] at hu
    rw [← hu]
    exact hs
  | cons t ts ih =>
    intro s hs u hu
    cases hst : s.step t with
    | none => simp [RunState.run, hst] at hu
    | some w =>
      simp only [RunState.run, hst, Option.some_bind] at hu
      have hall := List.all_eq_true.mp alignedCalls_within s hs
      simp only [Bool.and_eq_true, List.all_eq_true, decide_eq_true_eq] at hall
      exact ih w (hall.1.1.2 w (s.step_mem_successors w t hst)) u hu


/-- C30, amended: a call `o.Combine(rhs)` locks the receiver, then the argument, runs its
body, and unlocks the argument, then the receiver.  Under real mutexes on two containers `A`
and `B`, two concurrent calls with the same receiver and the same argument, `A.Combine(B)`
twice, cannot deadlock: whatever state a schedule reaches is not a deadlock and can be
continued until both calls have completed.  Concurrent `A.Combine(B)` and `B.Combine(A)` can
deadlock. -/
theorem C30_aligned_combine_completes (sched : List Nat) (s : RunState)
    (h : alignedCalls.run sched = some s) :
    (∀ o rhs, CombineCall o rhs = [.Lock o, .Lock rhs, .Body, .Unlock rhs, .Unlock o]) ∧
      s.deadlocked = false ∧
      (∃ rest u, s.run rest = some u ∧ u.finished = true) ∧
      (∃ crossed u, crossedCalls.run crossed = some u ∧ u.deadlocked = true) := by
  have hs : s ∈ alignedCalls.within 11 :=
    alignedCalls_run sched alignedCalls (by decide) s h
  have hall := List.all_eq_true.mp alignedCalls_within s hs
  simp only [Bool.and_eq_true, List.all_eq_true, decide_eq_true_eq, Bool.not_eq_true'] at hall
  obtain ⟨rest, hrest⟩ := RunState.advance_run 10 s
  exact ⟨fun _ _ => rfl, hall.1.2, ⟨rest, _, hrest, hall.2⟩, ⟨[0, 1], _, rfl, by decide⟩⟩

/-- C30, amended, at the schedule in which the second call locks `A` first and runs its
body while the first call waits. -/
theorem C30_aligned_combine_completes_witness :
    alignedCalls.run [1, 1, 1] = some ⟨[.B, .A], [CombineCall .A .B, [.Unlock .B, .Unlock .A]]⟩ ∧
    ((∀ o rhs, CombineCall o rhs = [.Lock o, .Lock rhs, .Body, .Unlock rhs, .Unlock o]) ∧
      RunState.deadlocked ⟨[.B, .A], [CombineCall .A .B, [.Unlock .B, .Unlock .A]]⟩ = false ∧
      (∃ rest u, RunState.run ⟨[.B, .A], [CombineCall .A .B, [.Unlock .B, .Unlock .A]]⟩ rest =
        some u ∧ u.finished = true) ∧
      (∃ crossed u, crossedCalls.run crossed = some u ∧ u.deadlocked = true)) :=
  ⟨by decide, C30_aligned_combine_completes [1, 1, 1]
    ⟨[.B, .A], [CombineCall .A .B, [.Unlock .B, .Unlock .A]]⟩ (by decide)⟩


/-! ## sort.SliceStable under the positional test of Reversed -/

theorem swapAt_split {T : Type} (pre mid post : List T) (x y : T) :
    swapAt (pre ++ x :: (mid ++ y :: post)) pre.length (pre.length + 1 + mid.length) =
      .ok (pre ++ y :: (mid ++ x :: post)) := by
  have h1 : (pre ++ x :: (mid ++ y :: post))[pre.length]? = some x := by
    rw [List.getElem?_append_right (Nat.le_refl _), Nat.sub_self, List.getElem?_cons_zero]
  have h2 : (pre ++ x :: (mid ++ y :: post))[pre.length + 1 + mid.length]? = some y := by
    rw [List.getElem?_append_right (by omega)]
    have e : pre.length + 1 + mid.length - pre.length = mid.length + 1 := by omega
    rw [e, List.getElem?_cons_succ, List.getElem?_append_right (Nat.le_refl _), Nat.sub_self,
      List.getElem?_cons_zero]
  unfold swapAt
  rw [h1, h2]
  simp only
  congr 1
  rw [List.set_append_right _ _ (Nat.le_refl _)]
  simp only [Nat.sub_self, List.set_cons_zero]
  rw [List.set_append_right _ _ (by omega)]
  have e : pre.length + 1 + mid.length - pre.length = mid.length + 1 := by omega
  rw [e, List.set_cons_succ, List.set_append_right _ _ (Nat.le_refl _)]
  simp

theorem swapAt_comm {T : Type} (data : List T) (i j : Nat) :
    swapAt data i j = swapAt data j i := by
  unfold swapAt
  cases hi : data[i]? with
  | none => cases hj : data[j]? <;> rfl
  | some x =>
    cases hj : data[j]? with
    | none => rfl
    | some y =>
      simp only
      congr 1
      by_cases h : i = j
      · subst h
        rw [hi] at hj
        injection hj with hj
        rw [hj]
      · exact List.set_comm _ _ _ h

theorem insertionInner_spec {T : Type} (pre : List T) (x : T) (seg : List T) :
    ∀ post : List T,
      insertionInner reversedLess pre.length (pre.length + seg.length)
        (pre ++ (seg ++ x :: post)) = .ok (pre ++ x :: (seg ++ post)) := by
  induction seg using List.reverseRecOn with
  | nil =>
    intro post
    simp only [List.length_nil, Nat.add_zero, List.nil_append]
    cases h : pre.length with
    | zero => rfl
    | succ k =>
      have hn : ¬ (k + 1 > k + 1 ∧ reversedLess (pre ++ x :: post) (k + 1) k = true) := by
        omega
      rw [insertionInner, if_neg hn]
      rfl
  | append_singleton seg y ih =>
    intro post
    have hj : pre.length + (seg ++ [y]).length = (pre.length + seg.length) + 1 := by
      simp
      omega
    have hc : (pre.length + seg.length) + 1 > pre.length ∧
        reversedLess (pre ++ ((seg ++ [y]) ++ x :: post)) ((pre.length + seg.length) + 1)
          (pre.length + seg.length) = true := by
      refine ⟨by omega, ?_⟩
      simp [reversedLess]
    have hsw : swapAt (pre ++ ((seg ++ [y]) ++ x :: post)) ((pre.length + seg.length) + 1)
        (pre.length + seg.length) = .ok (pre ++ (seg ++ x :: (y :: post))) := by
      rw [swapAt_comm]
      have h := swapAt_split (pre ++ seg) [] post y x
      simp only [List.length_append, List.length_nil, Nat.add_zero, List.nil_append,
        List.append_assoc] at h
      have e : pre ++ ((seg ++ [y]) ++ x :: post) = pre ++ (seg ++ y :: x :: post) := by simp
      rw [e]
      exact h
    rw [hj, insertionInner, if_pos hc, hsw]
    have h := ih (y :: post)
    simp only [bind, Except.bind]
    rw [h]
    simp

theorem insertionOuter_spec {T : Type} (pre post : List T) (todo : List T) :
    ∀ done : List T,
      (List.range' (pre.length + done.length) todo.length).foldlM
        (fun d i => insertionInner reversedLess pre.length i d)
        (pre ++ (done.reverse ++ (todo ++ post))) =
      .ok (pre ++ ((done ++ todo).reverse ++ post)) := by
  induction todo with
  | nil =>
    intro done
    simp
    rfl
  | cons x todo ih =>
    intro done
    have h1 := insertionInner_spec pre x done.reverse (todo ++ post)
    simp only [List.length_reverse] at h1
    rw [List.length_cons, List.range'_succ, List.foldlM_cons, List.cons_append, h1]
    have h2 := ih (done ++ [x])
    simp only [List.length_append, List.length_singleton, List.reverse_append,
      List.reverse_cons, List.reverse_nil, List.nil_append, List.singleton_append,
      List.append_assoc, List.cons_append] at h2
    simp only [bind, Except.bind]
    have e3 : pre.length + done.length + 1 = pre.length + (done.length + 1) := by omega
    rw [e3, h2]
    simp

/-- Insertion sort with the positional test of `Reversed` reverses the segment. -/
theorem insertionSort_func_spec {T : Type} (pre seg post : List T) :
    insertionSort_func reversedLess pre.length (pre.length + seg.length)
      (pre ++ (seg ++ post)) = .ok (pre ++ (seg.reverse ++ post)) := by
  unfold insertionSort_func
  cases seg with
  | nil =>
    have e : pre.length + ([] : List T).length - (pre.length + 1) = 0 := by simp
    rw [e]
    rfl
  | cons x rest =>
    have e : pre.length + (x :: rest).length - (pre.length + 1) = rest.length := by
      simp
      omega
    rw [e]
    have h := insertionOuter_spec pre post rest [x]
    simp only [List.length_singleton, List.reverse_cons, List.reverse_nil, List.nil_append,
      List.singleton_append, List.append_assoc, List.cons_append] at h
    rw [List.cons_append, h]
    simp

theorem swapRange_func_step {T : Type} (a b n : Nat) (data : List T) :
    swapRange_func a b (n + 1) data =
      (swapAt data a b).bind (fun d => swapRange_func (a + 1) (b + 1) n d) := by
  unfold swapRange_func
  rw [List.range_succ_eq_map, List.foldlM_cons]
  simp only [List.foldlM_map, Nat.add_zero]
  have e : (fun (d : List T) (i : Nat) => swapAt d (a + (i + 1)) (b + (i + 1))) =
      (fun d i => swapAt d (a + 1 + i) (b + 1 + i)) := by
    funext d i
    have e1 : a + (i + 1) = a + 1 + i := by omega
    have e2 : b + (i + 1) = b + 1 + i := by omega
    rw [e1, e2]
  simp only [Function.comp_def, Nat.succ_eq_add_one]
  rw [e]
  rfl


/-- Swapping two disjoint ranges of the same length exchanges them. -/
theorem swapRange_func_spec {T : Type} (A : List T) :
    ∀ (B pre mid post : List T), A.length = B.length →
      swapRange_func pre.length (pre.length + A.length + mid.length) A.length
        (pre ++ (A ++ (mid ++ (B ++ post)))) = .ok (pre ++ (B ++ (mid ++ (A ++ post)))) := by
  induction A with
  | nil =>
    intro B pre mid post h
    have hB : B = [] := List.length_eq_zero.mp h.symm
    subst hB
    rfl
  | cons x A ih =>
    intro B pre mid post h
    cases B with
    | nil => simp at h
    | cons y B =>
      have hlen : A.length = B.length := by simpa using h
      have hsw := swapAt_split pre (A ++ mid) (B ++ post) x y
      have e1 : pre.length + 1 + (A ++ mid).length =
          pre.length + (A.length + 1) + mid.length := by
        simp
        omega
      simp only [List.append_assoc] at hsw
      rw [e1] at hsw
      rw [List.length_cons, swapRange_func_step, List.cons_append, List.cons_append, hsw]
      have h2 := ih B (pre ++ [y]) (mid ++ [x]) post hlen
      simp only [List.length_append, List.length_singleton, List.append_assoc,
        List.singleton_append] at h2
      have e2 : pre.length + (A.length + 1) + mid.length + 1 =
          pre.length + 1 + A.length + (mid.length + 1) := by omega
      simp only [Except.bind]
      rw [e2, h2]
      simp

theorem swapRange_func_eq {T : Type} (A B pre mid post : List T) (a b n : Nat)
    (ha : a = pre.length) (hb : b = pre.length + A.length + mid.length) (hn : n = A.length)
    (hAB : A.length = B.length) :
    swapRange_func a b n (pre ++ (A ++ (mid ++ (B ++ post)))) =
      .ok (pre ++ (B ++ (mid ++ (A ++ post)))) := by
  subst ha hb hn
  exact swapRange_func_spec A B pre mid post hAB

/-- The loop of `rotate_func` followed by its last swap exchanges two adjacent non-empty
blocks. -/
theorem rotateLoop_spec {T : Type} :
    ∀ (fuel m i j : Nat) (u v P Q : List T), m = P.length + u.length → i = u.length →
      j = v.length → 0 < i → 0 < j → i + j ≤ fuel →
      (rotateLoop m fuel i j (P ++ (u ++ (v ++ Q)))).bind
        (fun r => swapRange_func (m - r.1) m r.1 r.2) = .ok (P ++ (v ++ (u ++ Q))) := by
  intro fuel
  induction fuel with
  | zero =>
    intro m i j u v P Q _ _ _ hi hj hf
    omega
  | succ fuel ih =>
    intro m i j u v P Q hm hi hj hi0 hj0 hf
    by_cases hij : i = j
    · have hn : ¬ i ≠ j := fun h => h hij
      rw [rotateLoop, if_neg hn]
      simp only [pure, Except.pure, Except.bind]
      have h := swapRange_func_eq u v P [] Q (m - i) m i (by omega) (by simp; omega) hi
        (by omega)
      simpa using h
    · by_cases hgt : i > j
      · have hu : u = u.take j ++ u.drop j := (List.take_append_drop j u).symm
        have hl1 : (u.take j).length = j := by
          rw [List.length_take]
          omega
        have hl2 : (u.drop j).length = i - j := by
          rw [List.length_drop]
          omega
        have hsw := swapRange_func_eq (u.take j) v P (u.drop j) Q (m - i) m j (by omega)
          (by omega) hl1.symm (by omega)
        have hdata : P ++ (u ++ (v ++ Q)) =
            P ++ (u.take j ++ (u.drop j ++ (v ++ Q))) := by
          rw [← List.append_assoc (u.take j), List.take_append_drop]
        rw [rotateLoop, if_pos hij, if_pos hgt, hdata, hsw]
        have h := ih m (i - j) j (u.drop j) (u.take j) (P ++ v) Q
          (by simp only [List.length_append]; omega) hl2.symm hl1.symm (by omega) hj0 (by omega)
        simp only [List.append_assoc] at h
        simp only [bind, Except.bind] at h ⊢
        rw [h]
        rw [← List.append_assoc (u.take j), List.take_append_drop]
      · have hlt : i < j := by omega
        have hl1 : (v.take (j - i)).length = j - i := by
          rw [List.length_take]
          omega
        have hl2 : (v.drop (j - i)).length = i := by
          rw [List.length_drop]
          omega
        have hsw := swapRange_func_eq u (v.drop (j - i)) P (v.take (j - i)) Q (m - i)
          (m + j - i) i (by omega) (by omega) hi (by omega)
        have hdata : P ++ (u ++ (v ++ Q)) =
            P ++ (u ++ (v.take (j - i) ++ (v.drop (j - i) ++ Q))) := by
          rw [← List.append_assoc (v.take (j - i)), List.take_append_drop]
        rw [rotateLoop, if_pos hij, if_neg hgt, hdata, hsw]
        have h := ih m i (j - i) (v.drop (j - i)) (v.take (j - i)) P (u ++ Q)
          (by omega) hl2.symm hl1.symm hi0 (by omega) (by omega)
        simp only [bind, Except.bind] at h ⊢
        rw [h]
        rw [← List.append_assoc (v.take (j - i)), List.take_append_drop]

/-- Rotation exchanges two adjacent non-empty blocks. -/
theorem rotate_func_spec {T : Type} (pre u v post : List T) (a m b : Nat)
    (ha : a = pre.length) (hm : m = pre.length + u.length)
    (hb : b = pre.length + u.length + v.length) (hu : 0 < u.length) (hv : 0 < v.length) :
    rotate_func a m b (pre ++ (u ++ (v ++ post))) = .ok (pre ++ (v ++ (u ++ post))) := by
  unfold rotate_func
  exact rotateLoop_spec (b - a) m (m - a) (b - m) u v pre post hm (by omega) (by omega)
    (by omega) (by omega) (by omega)

theorem searchLoop_all_false (f : Nat → Except Error Bool) :
    ∀ (fuel i j : Nat), i ≤ j → j - i ≤ fuel →
      (∀ h, i ≤ h → h < j → f h = .ok false) → searchLoop f fuel i j = .ok j := by
  intro fuel
  induction fuel with
  | zero =>
    intro i j hij hf _
    have e : i = j := by omega
    rw [e]
    rfl
  | succ fuel ih =>
    intro i j hij hf hall
    by_cases hlt : i < j
    · have hh := hall ((i + j) / 2) (by omega) (by omega)
      rw [searchLoop, if_pos hlt]
      simp only [hh, bind, Except.bind, Bool.not_false, if_true]
      exact ih _ _ (by omega) (by omega) (fun h h1 h2 => hall h (by omega) h2)
    · have e : i = j := by omega
      rw [searchLoop, if_neg hlt, e]
      rfl


theorem searchLoop_all_true (f : Nat → Except Error Bool) :
    ∀ (fuel i j : Nat), i ≤ j → j - i ≤ fuel →
      (∀ h, i ≤ h → h < j → f h = .ok true) → searchLoop f fuel i j = .ok i := by
  intro fuel
  induction fuel with
  | zero =>
    intro i j _ _ _
    rfl
  | succ fuel ih =>
    intro i j hij hf hall
    by_cases hlt : i < j
    · have hh := hall ((i + j) / 2) (by omega) (by omega)
      rw [searchLoop, if_pos hlt]
      simp only [hh, bind, Except.bind, Bool.not_true, Bool.false_eq_true, if_false]
      exact ih _ _ (by omega) (by omega) (fun h h1 h2 => hall h h1 (by omega))
    · rw [searchLoop, if_neg hlt]
      rfl

/-- Swapping neighbours from the position of an element up to the end of a block moves the
element behind the block. -/
theorem bubbleRight_spec {T : Type} (x : T) (R : List T) :
    ∀ (pre post : List T),
      (List.range' pre.length R.length).foldlM (fun d k => swapAt d k (k + 1))
        (pre ++ x :: (R ++ post)) = .ok (pre ++ (R ++ x :: post)) := by
  induction R with
  | nil =>
    intro pre post
    rfl
  | cons y R ih =>
    intro pre post
    have hsw := swapAt_split pre [] (R ++ post) x y
    simp only [List.length_nil, Nat.add_zero, List.nil_append] at hsw
    rw [List.length_cons, List.range'_succ, List.foldlM_cons, List.cons_append, hsw]
    have h := ih (pre ++ [y]) post
    simp only [List.length_append, List.length_singleton, List.append_assoc,
      List.singleton_append] at h
    simp only [bind, Except.bind]
    rw [h]
    rfl

/-- Swapping neighbours from the position of an element down to the start of a block moves
the element before the block. -/
theorem bubbleLeft_spec {T : Type} (pre : List T) (y : T) (L : List T) :
    ∀ (post : List T),
      (List.range' (pre.length + 1) L.length).reverse.foldlM (fun d k => swapAt d k (k - 1))
        (pre ++ (L ++ y :: post)) = .ok (pre ++ y :: (L ++ post)) := by
  induction L using List.reverseRecOn with
  | nil =>
    intro post
    rfl
  | append_singleton L z ih =>
    intro post
    have hsw : swapAt (pre ++ (L ++ [z] ++ y :: post)) (pre.length + 1 + L.length)
        (pre.length + 1 + L.length - 1) = .ok (pre ++ (L ++ y :: (z :: post))) := by
      have e0 : pre.length + 1 + L.length - 1 = pre.length + L.length := by omega
      have e1 : pre.length + 1 + L.length = pre.length + L.length + 1 := by omega
      rw [e0, e1, swapAt_comm]
      have h := swapAt_split (pre ++ L) [] post z y
      simp only [List.length_append, List.length_nil, Nat.add_zero, List.nil_append,
        List.append_assoc] at h
      have e : pre ++ (L ++ [z] ++ y :: post) = pre ++ (L ++ z :: y :: post) := by simp
      rw [e]
      exact h
    have hr : (List.range' (pre.length + 1) (L ++ [z]).length).reverse =
        (pre.length + 1 + L.length) :: (List.range' (pre.length + 1) L.length).reverse := by
      rw [List.length_append, List.length_singleton, List.range'_concat]
      simp
    rw [hr, List.foldlM_cons, hsw]
    simp only [bind, Except.bind]
    rw [ih (z :: post)]
    simp

/-- With the positional test of `Reversed`, `symMerge_func` exchanges the two blocks it is
given. -/
theorem symMerge_func_spec {T : Type} :
    ∀ (fuel a m b : Nat) (pre L R post : List T), a = pre.length → m = pre.length + L.length →
      b = pre.length + L.length + R.length → 0 < L.length → 0 < R.length → b - a ≤ fuel →
      symMerge_func reversedLess fuel a m b (pre ++ (L ++ (R ++ post))) =
        .ok (pre ++ (R ++ (L ++ post))) := by
  intro fuel
  induction fuel with
  | zero =>
    intro a m b pre L R post ha hm hb hL hR hf
    omega
  | succ fuel ih =>
    intro a m b pre L R post ha hm hb hL hR hf
    by_cases h1 : m - a = 1
    · -- the left block is a single element
      obtain ⟨x, hx⟩ : ∃ x, L = [x] := List.length_eq_one.mp (by omega)
      subst hx
      have hs : ∀ d : List T, searchLoop
          (fun h => (pure (!reversedLess d h a) : Except Error Bool)) (b - m) m b = .ok b :=
        fun d => searchLoop_all_false _ _ _ _ (by omega) (Nat.le_refl _) (fun h h1 _ => by
          have : reversedLess d h a = true := by
            simp only [reversedLess, decide_eq_true_eq]
            omega
          simp [this, pure, Except.pure])
      have hcount : b - 1 - a = R.length := by
        simp only [List.length_singleton] at hb
        omega
      rw [symMerge_func, if_pos h1, hs]
      simp only [bind, Except.bind]
      rw [hcount, ha]
      exact bubbleRight_spec x R pre post
    · by_cases h2 : b - m = 1
      · -- the right block is a single element
        obtain ⟨y, hy⟩ : ∃ y, R = [y] := List.length_eq_one.mp (by omega)
        subst hy
        have hs : ∀ d : List T, searchLoop
            (fun h => (pure (reversedLess d m h) : Except Error Bool)) (m - a) a m = .ok a :=
          fun d => searchLoop_all_true _ _ _ _ (by omega) (Nat.le_refl _) (fun h _ h2 => by
            have : reversedLess d m h = true := by
              simp only [reversedLess, decide_eq_true_eq]
              omega
            simp [this, pure, Except.pure])
        have hcount : m - a = L.length := by omega
        rw [symMerge_func, if_neg h1, if_pos h2, hs]
        simp only [bind, Except.bind]
        rw [hcount, ha]
        exact bubbleLeft_spec pre y L post
      · -- the general case
        have hall : ∀ (d : List T) (p0 i j : Nat), 2 * j ≤ p0 + 1 → i ≤ j →
            searchLoop (fun c => (pure (reversedLess d (p0 - c) c) : Except Error Bool))
              (j - i) i j = .ok i := by
          intro d p0 i j hp hij
          refine searchLoop_all_true _ _ _ _ hij (Nat.le_refl _) (fun c _ hc => ?_)
          have : reversedLess d (p0 - c) c = true := by
            simp only [reversedLess, decide_eq_true_eq]
            omega
          simp [this, pure, Except.pure]
        by_cases hmid : m > (a + b) / 2
        · -- the left block is the longer one
          have hstart := fun d => hall d ((a + b) / 2 + m - 1) ((a + b) / 2 + m - b)
            ((a + b) / 2) (by omega) (by omega)
          have hend : (a + b) / 2 + m - ((a + b) / 2 + m - b) = b := by omega
          have hrot : (a + b) / 2 + m - b < m ∧ m < b := by omega
          have hc3 : ¬ ((a + b) / 2 < b ∧ b < b) := by omega
          have hl1 : (L.take ((a + b) / 2 + m - b - a)).length = (a + b) / 2 + m - b - a := by
            rw [List.length_take]
            omega
          have hl2 : (L.drop ((a + b) / 2 + m - b - a)).length = b - (a + b) / 2 := by
            rw [List.length_drop]
            omega
          have hLsplit : L = L.take ((a + b) / 2 + m - b - a) ++
              L.drop ((a + b) / 2 + m - b - a) := (List.take_append_drop _ L).symm
          have hr := rotate_func_spec (pre ++ L.take ((a + b) / 2 + m - b - a))
            (L.drop ((a + b) / 2 + m - b - a)) R post ((a + b) / 2 + m - b) m b
            (by simp only [List.length_append]; omega)
            (by simp only [List.length_append]; omega)
            (by simp only [List.length_append]; omega) (by omega) hR
          simp only [List.append_assoc] at hr
          have hdata : pre ++ (L ++ (R ++ post)) =
              pre ++ (L.take ((a + b) / 2 + m - b - a) ++
                (L.drop ((a + b) / 2 + m - b - a) ++ (R ++ post))) := by
            rw [← List.append_assoc (L.take _), List.take_append_drop]
          rw [symMerge_func, if_neg h1, if_neg h2]
          simp only [if_pos hmid, hstart, bind, Except.bind, hend, if_pos hrot, if_neg hc3]
          rw [hdata, hr]
          simp only
          by_cases hc2 : a < (a + b) / 2 + m - b ∧ (a + b) / 2 + m - b < (a + b) / 2
          · rw [if_pos hc2]
            have hrec := ih a ((a + b) / 2 + m - b) ((a + b) / 2) pre
              (L.take ((a + b) / 2 + m - b - a)) R
              (L.drop ((a + b) / 2 + m - b - a) ++ post) ha (by omega) (by omega) (by omega)
              hR (by omega)
            rw [hrec]
            simp only [pure, Except.pure]
            rw [← List.append_assoc (L.take _) (L.drop _) post, List.take_append_drop]
          · rw [if_neg hc2]
            have hz : (a + b) / 2 + m - b - a = 0 := by omega
            simp only [hz, List.take_zero, List.drop_zero, List.nil_append, pure, Except.pure]
        · -- the right block is at least as long
          have hstart := fun d => hall d ((a + b) / 2 + m - 1) a m (by omega) (by omega)
          have hrot : a < m ∧ m < (a + b) / 2 + m - a := by omega
          have hc2 : ¬ (a < a ∧ a < (a + b) / 2) := by omega
          have hl1 : (R.take ((a + b) / 2 - a)).length = (a + b) / 2 - a := by
            rw [List.length_take]
            omega
          have hl2 : (R.drop ((a + b) / 2 - a)).length = b - ((a + b) / 2 + m - a) := by
            rw [List.length_drop]
            omega
          have hr := rotate_func_spec pre L (R.take ((a + b) / 2 - a))
            (R.drop ((a + b) / 2 - a) ++ post) a m ((a + b) / 2 + m - a) ha hm (by omega) hL
            (by omega)
          have hdata : pre ++ (L ++ (R ++ post)) =
              pre ++ (L ++ (R.take ((a + b) / 2 - a) ++
                (R.drop ((a + b) / 2 - a) ++ post))) := by
            rw [← List.append_assoc (R.take _), List.take_append_drop]
          rw [symMerge_func, if_neg h1, if_neg h2]
          simp only [if_neg hmid, hstart, bind, Except.bind, if_pos hrot, if_neg hc2]
          rw [hdata, hr]
          simp only [pure, Except.pure]
          by_cases hc3 : (a + b) / 2 < (a + b) / 2 + m - a ∧ (a + b) / 2 + m - a < b
          · rw [if_pos hc3]
            have hrec := ih ((a + b) / 2) ((a + b) / 2 + m - a) b
              (pre ++ R.take ((a + b) / 2 - a)) L (R.drop ((a + b) / 2 - a)) post
              (by simp only [List.length_append]; omega)
              (by simp only [List.length_append]; omega)
              (by simp only [List.length_append]; omega) hL (by omega) (by omega)
            simp only [List.append_assoc] at hrec
            rw [hrec, ← List.append_assoc (R.take _) (R.drop _), List.take_append_drop]
          · rw [if_neg hc3]
            have hz : R.drop ((a + b) / 2 - a) = [] :=
              List.length_eq_zero.mp (by omega)
            have hR1 : R.take ((a + b) / 2 - a) = R := by
              have := List.take_append_drop ((a + b) / 2 - a) R
              rw [hz, List.append_nil] at this
              exact this
            rw [hz, hR1]
            simp


theorem revBlocks_of_le {T : Type} (s : Nat) (l : List T) (h : l.length ≤ s) :
    revBlocks s l = l.reverse := by
  rw [revBlocks, if_pos (Or.inl h)]

theorem revBlocks_step {T : Type} (s : Nat) (l : List T) (hs : 0 < s) :
    revBlocks s l = (l.take s).reverse ++ revBlocks s (l.drop s) := by
  by_cases he : l.length ≤ s
  · have hd : l.drop s = [] := List.drop_of_length_le he
    have ht : l.take s = l := List.take_of_length_le he
    rw [revBlocks_of_le s l he, hd, ht, revBlocks_of_le s [] (Nat.zero_le _)]
    simp
  · have hn : ¬ (l.length ≤ s ∨ s = 0) := by omega
    rw [revBlocks, if_neg hn]

/-- The first phase of `stable_func` reverses every block. -/
theorem stableBlocks_spec {T : Type} (s : Nat) (hs : 0 < s) (n : Nat) :
    ∀ (fuel : Nat) (pre rest : List T), n = pre.length + rest.length →
      n < fuel + (pre.length + s) →
      (stableBlocks reversedLess s n fuel pre.length (pre.length + s) (pre ++ rest)).bind
        (fun r => insertionSort_func reversedLess r.1 n r.2) =
      .ok (pre ++ revBlocks s rest) := by
  intro fuel
  induction fuel with
  | zero =>
    intro pre rest hn hf
    have hlast := insertionSort_func_spec pre rest []
    simp only [List.append_nil] at hlast
    rw [stableBlocks]
    simp only [pure, Except.pure, Except.bind]
    rw [hn, hlast, revBlocks_of_le s rest (by omega)]
  | succ fuel ih =>
    intro pre rest hn hf
    by_cases hb : pre.length + s ≤ n
    · have hlen : (rest.take s).length = s := by
        rw [List.length_take]
        omega
      have hsort := insertionSort_func_spec pre (rest.take s) (rest.drop s)
      rw [hlen, List.take_append_drop] at hsort
      rw [stableBlocks, if_pos hb, hsort]
      have h := ih (pre ++ (rest.take s).reverse) (rest.drop s)
        (by simp only [List.length_append, List.length_reverse, List.length_drop]; omega)
        (by simp only [List.length_append, List.length_reverse]; omega)
      simp only [List.length_append, List.length_reverse, hlen, List.append_assoc] at h
      simp only [bind, Except.bind] at h ⊢
      rw [h, revBlocks_step s rest hs]
    · have hlast := insertionSort_func_spec pre rest []
      simp only [List.append_nil] at hlast
      rw [stableBlocks, if_neg hb]
      simp only [pure, Except.pure, Except.bind]
      rw [hn, hlast, revBlocks_of_le s rest (by omega)]

/-- One pass of the second phase of `stable_func`, with its trailing merge: reversed blocks
of size `s` become reversed blocks of size `2 * s`. -/
theorem stableMerges_spec {T : Type} (s : Nat) (hs : 0 < s) (n : Nat) :
    ∀ (fuel : Nat) (pre rest : List T), n = pre.length + rest.length →
      n < fuel + (pre.length + 2 * s) →
      (stableMerges reversedLess s n fuel pre.length (pre.length + 2 * s)
          (pre ++ revBlocks s rest)).bind
        (fun r => if r.1 + s < n then symMerge_func reversedLess (n - r.1) r.1 (r.1 + s) n r.2
          else pure r.2) =
      .ok (pre ++ revBlocks (2 * s) rest) := by
  have htail : ∀ (pre rest : List T), n = pre.length + rest.length →
      ¬ pre.length + 2 * s ≤ n →
      (if pre.length + s < n then
          symMerge_func reversedLess (n - pre.length) pre.length (pre.length + s) n
            (pre ++ revBlocks s rest)
        else pure (pre ++ revBlocks s rest)) = .ok (pre ++ revBlocks (2 * s) rest) := by
    intro pre rest hn hb
    by_cases hm : pre.length + s < n
    · have hl1 : (rest.take s).length = s := by
        rw [List.length_take]
        omega
      have hl2 : (rest.drop s).length = rest.length - s := List.length_drop s rest
      have hsym := symMerge_func_spec (n - pre.length) pre.length (pre.length + s) n pre
        (rest.take s).reverse (rest.drop s).reverse [] rfl
        (by simp only [List.length_reverse]; omega)
        (by simp only [List.length_reverse]; omega)
        (by simp only [List.length_reverse]; omega)
        (by simp only [List.length_reverse]; omega) (Nat.le_refl _)
      simp only [List.append_nil] at hsym
      rw [if_pos hm, revBlocks_step s rest hs, revBlocks_of_le s (rest.drop s) (by omega), hsym,
        revBlocks_of_le (2 * s) rest (by omega), ← List.reverse_append, List.take_append_drop]
    · rw [if_neg hm, revBlocks_of_le s rest (by omega), revBlocks_of_le (2 * s) rest (by omega)]
      rfl
  intro fuel
  induction fuel with
  | zero =>
    intro pre rest hn hf
    rw [stableMerges]
    simp only [pure, Except.pure, Except.bind]
    exact htail pre rest hn (by omega)
  | succ fuel ih =>
    intro pre rest hn hf
    by_cases hb : pre.length + 2 * s ≤ n
    · have hl1 : (rest.take s).length = s := by
        rw [List.length_take]
        omega
      have hl2 : ((rest.drop s).take s).length = s := by
        rw [List.length_take, List.length_drop]
        omega
      have hdd : (rest.drop s).drop s = rest.drop (2 * s) := by
        rw [List.drop_drop]
        congr 1
        omega
      have htt : rest.take (2 * s) = rest.take s ++ (rest.drop s).take s := by
        have e : 2 * s = s + s := by omega
        rw [e, List.take_add]
      have hsym := symMerge_func_spec (pre.length + 2 * s - pre.length) pre.length
        (pre.length + s) (pre.length + 2 * s) pre (rest.take s).reverse
        ((rest.drop s).take s).reverse (revBlocks s (rest.drop (2 * s))) rfl
        (by simp only [List.length_reverse]; omega)
        (by simp only [List.length_reverse]; omega)
        (by simp only [List.length_reverse]; omega)
        (by simp only [List.length_reverse]; omega) (Nat.le_refl _)
      have hdata : revBlocks s rest = (rest.take s).reverse ++
          (((rest.drop s).take s).reverse ++ revBlocks s (rest.drop (2 * s))) := by
        rw [revBlocks_step s rest hs, revBlocks_step s (rest.drop s) hs, hdd]
      rw [stableMerges, if_pos hb, hdata, hsym]
      have h := ih (pre ++ (((rest.drop s).take s).reverse ++ (rest.take s).reverse))
        (rest.drop (2 * s))
        (by simp only [List.length_append, List.length_reverse, List.length_drop]; omega)
        (by simp only [List.length_append, List.length_reverse]; omega)
      simp only [List.length_append, List.length_reverse, hl1, hl2, List.append_assoc] at h
      have e : pre.length + (s + s) + 2 * s = pre.length + 2 * s + 2 * s := by omega
      have e2 : pre.length + (s + s) = pre.length + 2 * s := by omega
      rw [e, e2] at h
      simp only [bind, Except.bind] at h ⊢
      rw [h, revBlocks_step (2 * s) rest (by omega), htt, List.reverse_append,
        List.append_assoc]
    · rw [stableMerges, if_neg hb]
      simp only [pure, Except.pure, Except.bind]
      exact htail pre rest hn hb


/-- The second phase of `stable_func` turns reversed blocks into the reversed data. -/
theorem stablePasses_spec {T : Type} (orig : List T) :
    ∀ (fuel s : Nat), 0 < s → orig.length ≤ s + fuel →
      stablePasses reversedLess orig.length fuel s (revBlocks s orig) = .ok orig.reverse := by
  intro fuel
  induction fuel with
  | zero =>
    intro s hs hf
    rw [stablePasses, revBlocks_of_le s orig (by omega)]
    rfl
  | succ fuel ih =>
    intro s hs hf
    by_cases hlt : s < orig.length
    · have hm := stableMerges_spec s hs orig.length orig.length [] orig (by simp) (by
        simp only [List.length_nil]
        omega)
      simp only [List.length_nil, Nat.zero_add, List.nil_append] at hm
      rw [stablePasses, if_pos hlt]
      cases hr : stableMerges reversedLess s orig.length orig.length 0 (2 * s)
          (revBlocks s orig) with
      | error e =>
        rw [hr] at hm
        cases hm
      | ok r =>
        rw [hr] at hm
        simp only [Except.bind] at hm
        have e : s * 2 = 2 * s := by omega
        have hnext := ih (2 * s) (by omega) (by omega)
        by_cases hc : r.1 + s < orig.length
        · rw [if_pos hc] at hm
          simp only [bind, Except.bind, if_pos hc, hm, e]
          exact hnext
        · rw [if_neg hc] at hm
          have hm2 : r.2 = revBlocks (2 * s) orig := Except.ok.inj hm
          simp only [bind, Except.bind, if_neg hc, pure, Except.pure, hm2, e]
          exact hnext
    · rw [stablePasses, if_neg hlt, revBlocks_of_le s orig (by omega)]
      rfl

/-- With the positional test of `Reversed`, `sort.SliceStable` returns and reverses the
slice. -/
theorem SliceStable_reversedLess {T : Type} (x : List T) :
    SliceStable x reversedLess = .ok x.reverse := by
  unfold SliceStable stable_func
  have h1 := stableBlocks_spec 20 (by omega) x.length x.length [] x (by simp) (by
    simp only [List.length_nil]
    omega)
  simp only [List.length_nil, Nat.zero_add, List.nil_append] at h1
  cases hr : stableBlocks reversedLess 20 x.length x.length 0 20 x with
  | error e =>
    rw [hr] at h1
    cases h1
  | ok r =>
    rw [hr] at h1
    simp only [Except.bind] at h1
    simp only [bind, Except.bind, hr, h1]
    exact stablePasses_spec x x.length 20 (by omega) (by omega)


/-! ## Sequences: Reversed -/

/-- The call `Reversed` returns a sequence holding the data in reverse order. -/
theorem Impl.reversed_eq {T : Type} (v : Impl T) : v.Reversed = .ok ⟨v.Data.reverse⟩ := by
  unfold Impl.Reversed
  simp only [List.nil_append, SliceStable_reversedLess, bind, Except.bind]
  rfl

/-- The model of `sort.SliceStable` run with a test that reads the slice: 25 keyed values
(more than one block) come out sorted by key, equal keys in their original order. -/
theorem SliceStable_keyLess_test :
    SliceStable [(2, 0), (4, 1), (3, 2), (4, 3), (2, 4), (2, 5), (4, 6), (3, 7), (4, 8), (2, 9),
        (2, 10), (4, 11), (3, 12), (4, 13), (2, 14), (2, 15), (4, 16), (3, 17), (4, 18),
        (2, 19), (2, 20), (4, 21), (3, 22), (4, 23), (2, 24)] keyLess =
      .ok [(2, 0), (2, 4), (2, 5), (2, 9), (2, 10), (2, 14), (2, 15), (2, 19), (2, 20), (2, 24),
        (3, 2), (3, 7), (3, 12), (3, 17), (3, 22), (4, 1), (4, 3), (4, 6), (4, 8), (4, 11),
        (4, 13), (4, 16), (4, 18), (4, 21), (4, 23)] := by
  rfl

/-- C24: for a sequence held in a store, `Reversed()` returns a new sequence, under a pointer
other than the receiver's, whose data is the receiver's data in reverse positional order,
for data of any length; the data of the receiver, and every sequence the store held, is
unchanged. -/
theorem C24_reversed {T : Type} (st : Store T) (v : Nat) (hv : v < st.cells.length) :
    ∃ st2 r, st.Reversed v = .ok (st2, r) ∧ r ≠ v ∧
      (st2.read r).Data = (st.read v).Data.reverse ∧
      (st2.read v).Data = (st.read v).Data ∧
      (∀ q, q < st.cells.length → st2.read q = st.read q) ∧
      (st.read v).Reversed = .ok (st2.read r) := by
  have hrun : st.Reversed v = .ok (⟨st.cells ++ [⟨(st.read v).Data.reverse⟩]⟩,
      st.cells.length) := by
    unfold Store.Reversed
    simp only [List.nil_append, SliceStable_reversedLess, bind, Except.bind]
    have h2 : (st.NewVector).2 = st.cells.length := rfl
    rw [h2, Store.read_new_self, Store.write_new]
    rfl
  have hnew : (⟨st.cells ++ [⟨(st.read v).Data.reverse⟩]⟩ : Store T).read st.cells.length =
      ⟨(st.read v).Data.reverse⟩ := Store.read_append_new _ _
  have hold : ∀ q, q < st.cells.length →
      (⟨st.cells ++ [⟨(st.read v).Data.reverse⟩]⟩ : Store T).read q = st.read q :=
    fun q hq => Store.read_append_old _ _ q hq
  refine ⟨_, _, hrun, by omega, ?_, ?_, hold, ?_⟩
  · rw [hnew]
    rfl
  · rw [hold v hv]
  · rw [hnew]
    exact Impl.reversed_eq _

/-- C24 at the sequence `[1,2,3,4]` of the tests, and at 25 values, more than one block of
the stable sort. -/
theorem C24_reversed_witness :
    (Store.Reversed ⟨[⟨[1, 2, 3, 4]⟩]⟩ 0).map (fun x => (x.1.cells.map Impl.Data, x.2)) =
      .ok ([[1, 2, 3, 4], [4, 3, 2, 1]], 1) ∧
    (Impl.Reversed ⟨oneTo25⟩).map Impl.Data =
      .ok [25, 24, 23, 22, 21, 20, 19, 18, 17, 16, 15, 14, 13, 12, 11, 10, 9, 8, 7, 6, 5, 4, 3,
        2, 1] ∧
    ∃ st2 r, Store.Reversed ⟨[⟨[1, 2, 3, (4 : Int)]⟩]⟩ 0 = .ok (st2, r) ∧ r ≠ 0 ∧
      (st2.read r).Data = [1, 2, 3, 4].reverse ∧
      (st2.read 0).Data = [1, 2, 3, 4] ∧
      (∀ q, q < 1 → st2.read q = (⟨[⟨[1, 2, 3, 4]⟩]⟩ : Store Int).read q) ∧
      (⟨[1, 2, 3, 4]⟩ : Impl Int).Reversed = .ok (st2.read r) :=
  ⟨rfl, rfl, C24_reversed ⟨[⟨[1, 2, 3, 4]⟩]⟩ 0 (by decide)⟩


/-! ## Combine as Merge followed by duplicate suppression -/

/-- The filter of the specification, started from the values kept so far, is the
suppression `combine` performs, started from the last value kept. -/
theorem OrderImpl.dedupFrom_foldl {T : Type} (o : OrderImpl T) (values : List T) :
    ∀ kept : List T,
      values.foldl (fun kept x =>
        match kept.getLast? with
        | none => kept ++ [x]
        | some last => if o.compare last x = 0 then kept else kept ++ [x]) kept =
      kept ++ o.dedupFrom kept.getLast? values := by
  induction values with
  | nil =>
    intro kept
    simp [OrderImpl.dedupFrom]
  | cons x xs ih =>
    intro kept
    rw [List.foldl_cons]
    cases hk : kept.getLast? with
    | none =>
      simp only
      rw [ih (kept ++ [x]), List.getLast?_concat, OrderImpl.dedupFrom]
      simp [OrderImpl.differsFromPrev]
    | some last =>
      simp only
      by_cases h : o.compare last x = 0
      · rw [if_pos h, ih kept, hk, OrderImpl.dedupFrom]
        simp [OrderImpl.differsFromPrev, h]
      · rw [if_neg h, ih (kept ++ [x]), List.getLast?_concat, OrderImpl.dedupFrom]
        simp [OrderImpl.differsFromPrev, h]

/-- C31: for all orders `A` and `B`, `A.Combine(B)` and `A.Merge(B)` return, and the data of
`A.Combine(B)` is the data of `A.Merge(B)` filtered left to right by dropping every value
that compares equal to the last value kept. -/
theorem C31_combine_is_filtered_merge {T : Type} (a b : OrderImpl T) :
    ∃ c m, a.Combine b = .ok c ∧ a.Merge b = .ok m ∧
      c.Data = suppressEqualToLastKept a.compare m.Data := by
  refine ⟨_, _, a.combine_eq b, a.merge_eq b, ?_⟩
  have h := a.dedupFrom_foldl (List.merge a.Vector.data b.Vector.data a.takesLeft) []
  simp only [List.getLast?_nil, List.nil_append] at h
  exact h.symm

/-- C31 at two ascending orders with duplicates inside and across the operands. -/
theorem C31_combine_is_filtered_merge_witness :
    ((OrderImpl.Merge ⟨⟨[1, 3, 3, 5]⟩, CompareNumber, OrderKindIncreasing⟩
        ⟨⟨[3, 4, 5, 5]⟩, CompareNumber, OrderKindIncreasing⟩).map OrderImpl.Data =
      .ok [1, 3, 3, 3, 4, 5, 5, 5] ∧
    (OrderImpl.Combine ⟨⟨[1, 3, 3, 5]⟩, CompareNumber, OrderKindIncreasing⟩
        ⟨⟨[3, 4, 5, 5]⟩, CompareNumber, OrderKindIncreasing⟩).map OrderImpl.Data =
      .ok [1, 3, 4, 5] ∧
    suppressEqualToLastKept CompareNumber [1, 3, 3, 3, 4, 5, 5, 5] = [1, 3, 4, 5]) ∧
    ∃ c m, OrderImpl.Combine ⟨⟨[1, 3, 3, 5]⟩, CompareNumber, OrderKindIncreasing⟩
        ⟨⟨[3, 4, 5, 5]⟩, CompareNumber, OrderKindIncreasing⟩ = .ok c ∧
      OrderImpl.Merge ⟨⟨[1, 3, 3, 5]⟩, CompareNumber, OrderKindIncreasing⟩
        ⟨⟨[3, 4, 5, 5]⟩, CompareNumber, OrderKindIncreasing⟩ = .ok m ∧
      c.Data = suppressEqualToLastKept CompareNumber m.Data :=
  ⟨⟨rfl, rfl, by decide⟩,
    C31_combine_is_filtered_merge ⟨⟨[1, 3, 3, 5]⟩, CompareNumber, OrderKindIncreasing⟩
      ⟨⟨[3, 4, 5, 5]⟩, CompareNumber, OrderKindIncreasing⟩⟩


/-! ## A multi-value Add as the sequence of its parts -/

/-- A counting loop whose body adds to the count what it would add to a count of zero runs
from any count as it runs from zero, with the initial count added to the result. -/
theorem foldlM_count_shift {S V : Type} (step : S × Nat → V → Except Error (S × Nat))
    (hstep : ∀ s n v, step (s, n) v = (step (s, 0) v).map (fun r => (r.1, n + r.2))) :
    ∀ (vs : List V) (s : S) (n : Nat),
      vs.foldlM step (s, n) = (vs.foldlM step (s, 0)).map (fun r => (r.1, n + r.2)) := by
  intro vs
  induction vs with
  | nil =>
    intro s n
    rfl
  | cons v vs ih =>
    intro s n
    rw [List.foldlM_cons, List.foldlM_cons, hstep s n v]
    cases step (s, 0) v with
    | error e => rfl
    | ok r =>
      obtain ⟨s1, k⟩ := r
      show vs.foldlM step (s1, n + k) = (vs.foldlM step (s1, k)).map (fun r => (r.1, n + r.2))
      rw [ih s1 (n + k), ih s1 k]
      cases vs.foldlM step (s1, 0) with
      | error e => rfl
      | ok r2 =>
        show Except.ok (r2.1, n + k + r2.2) = Except.ok (r2.1, n + (k + r2.2))
        rw [Nat.add_assoc]

/-- Such a loop over `vs ++ ws` is the loop over `vs` followed by the loop over `ws` from the
state reached, and its count is the sum of the two counts. -/
theorem foldlM_count_append {S V : Type} (step : S × Nat → V → Except Error (S × Nat))
    (hstep : ∀ s n v, step (s, n) v = (step (s, 0) v).map (fun r => (r.1, n + r.2)))
    (vs ws : List V) (s : S) :
    (vs ++ ws).foldlM step (s, 0) =
      (vs.foldlM step (s, 0)).bind
        (fun r1 => (ws.foldlM step (r1.1, 0)).map (fun r2 => (r2.1, r1.2 + r2.2))) := by
  rw [List.foldlM_append]
  cases vs.foldlM step (s, 0) with
  | error e => rfl
  | ok r1 =>
    obtain ⟨s1, n1⟩ := r1
    exact foldlM_count_shift step hstep ws s1 n1

theorem OrderImpl.addStep_shift {T : Type} (o : OrderImpl T) (n : Nat) (v : T) :
    OrderImpl.addStep (o, n) v =
      (OrderImpl.addStep (o, 0) v).map (fun r => (r.1, n + r.2)) := by
  unfold OrderImpl.addStep
  simp only [bind, Except.bind]
  generalize Search o.Vector.len _ = res
  cases res with
  | error e => rfl
  | ok index =>
    simp only
    generalize o.Vector.insert _ [v] = ins
    obtain ⟨out, vec⟩ := ins
    cases out with
    | error e => rfl
    | ok u => simp only [pure, Except.pure, Except.map, Nat.zero_add]


theorem SetImpl.setAddStep_shift {T : Type} (s : SetImpl T) (n : Nat) (v : T) :
    SetImpl.addStep (s, n) v =
      (SetImpl.addStep (s, 0) v).map (fun r => (r.1, n + r.2)) := by
  unfold SetImpl.addStep
  simp only [bind, Except.bind]
  generalize s.Order.firstIndexOf v = res
  cases res with
  | error e => rfl
  | ok index =>
    simp only
    by_cases h : index = -1
    · simp only [if_pos h]
      generalize s.Order.add [v] = r
      cases r with
      | error e => rfl
      | ok u => simp only [pure, Except.pure, Except.map, Nat.zero_add]
    · simp only [if_neg h]
      rfl

/-- For every order, `Add(vs ++ ws)` is `Add(vs)` followed by `Add(ws)` on the order it
leaves, with the two counts added; a panic of either call is the panic of the whole. -/
theorem OrderImpl.add_append {T : Type} (o : OrderImpl T) (vs ws : List T) :
    o.Add (vs ++ ws) =
      (o.Add vs).bind (fun r1 => (r1.1.Add ws).map (fun r2 => (r2.1, r1.2 + r2.2))) :=
  foldlM_count_append OrderImpl.addStep OrderImpl.addStep_shift vs ws o

/-- For every set, `Add(vs ++ ws)` is `Add(vs)` followed by `Add(ws)` on the set it leaves,
with the two counts added; a panic of either call is the panic of the whole. -/
theorem SetImpl.setAdd_append {T : Type} (s : SetImpl T) (vs ws : List T) :
    s.Add (vs ++ ws) =
      (s.Add vs).bind (fun r1 => (r1.1.Add ws).map (fun r2 => (r2.1, r1.2 + r2.2))) :=
  foldlM_count_append SetImpl.addStep SetImpl.setAddStep_shift vs ws s

/-- Whenever `Add` on an order returns, its count is the number of values given. -/
theorem OrderImpl.add_count {T : Type} (vs : List T) :
    ∀ (o : OrderImpl T) (r : OrderImpl T × Nat), o.Add vs = .ok r → r.2 = vs.length := by
  have hstep : ∀ (o : OrderImpl T) (v : T) (r : OrderImpl T × Nat),
      OrderImpl.addStep (o, 0) v = .ok r → r.2 = 1 := by
    intro o v r
    unfold OrderImpl.addStep
    simp only [bind, Except.bind]
    generalize Search o.Vector.len _ = res
    cases res with
    | error e =>
      intro h
      cases h
    | ok index =>
      simp only
      generalize o.Vector.insert _ [v] = ins
      obtain ⟨out, vec⟩ := ins
      cases out with
      | error e =>
        intro h
        cases h
      | ok u =>
        intro h
        cases h
        rfl
  induction vs with
  | nil =>
    intro o r h
    cases h
    rfl
  | cons v vs ih =>
    intro o r h
    have happ := o.add_append [v] vs
    rw [List.singleton_append, h] at happ
    have h1 : o.Add [v] = OrderImpl.addStep (o, 0) v := by
      simp only [OrderImpl.Add, OrderImpl.add, List.foldlM_cons, List.foldlM_nil]
      cases OrderImpl.addStep (o, 0) v <;> rfl
    rw [h1] at happ
    cases hs : OrderImpl.addStep (o, 0) v with
    | error e =>
      rw [hs] at happ
      cases happ
    | ok r1 =>
      rw [hs] at happ
      have hr1 := hstep o v r1 hs
      cases hr : r1.1.Add vs with
      | error e =>
        simp only [Except.bind, hr, Except.map] at happ
        cases happ
      | ok r2 =>
        simp only [Except.bind, hr, Except.map] at happ
        have hr2 := ih r1.1 r2 hr
        cases happ
        simp only [hr1, hr2, List.length_cons]
        omega


/-- C32: for a sorted order `O` and a set `S` over a total-order comparator and lists `vs`,
`ws`, the calls `Add(vs)`, then `Add(ws)`, and `Add(vs ++ ws)` all return; `Add(vs ++ ws)`
leaves the container that `Add(vs)` followed by `Add(ws)` leaves and returns the sum of
their two counts; for the order each count is the number of values given. -/
theorem C32_add_splits {T : Type} (cmp : CompareFunc T) (hc : IsTotalOrder cmp)
    (o : OrderImpl T) (ho : o.compare = cmp) (hk : ValidKind o.kind) (hs : o.Sorted)
    (s : SetImpl T) (hw : s.WF cmp) (vs ws : List T) :
    (∃ o1 o2, o.Add vs = .ok (o1, vs.length) ∧ o1.Add ws = .ok (o2, ws.length) ∧
      o.Add (vs ++ ws) = .ok (o2, vs.length + ws.length) ∧
      vs.length + ws.length = (vs ++ ws).length) ∧
    (∃ s1 s2 n1 n2, s.Add vs = .ok (s1, n1) ∧ s1.Add ws = .ok (s2, n2) ∧
      s.Add (vs ++ ws) = .ok (s2, n1 + n2)) := by
  have hc2 : IsTotalOrder o.compare := ho ▸ hc
  constructor
  · obtain ⟨o1, h1, hc1, hk1, hs1, _⟩ := o.add_sorted vs hc2 hk hs
    obtain ⟨o2, h2, _, _, _, _⟩ := o1.add_sorted ws (hc1 ▸ hc2) (hk1 ▸ hk) hs1
    refine ⟨o1, o2, h1, h2, ?_, (List.length_append vs ws).symm⟩
    rw [o.add_append vs ws, h1]
    simp only [Except.bind, h2]
    rfl
  · obtain ⟨s1, n1, h1, hw1, _⟩ := SetImpl.add_spec hc s hw vs
    obtain ⟨s2, n2, h2, _, _⟩ := SetImpl.add_spec hc s1 hw1 ws
    refine ⟨s1, s2, n1, n2, h1, h2, ?_⟩
    rw [s.setAdd_append vs ws, h1]
    simp only [Except.bind, h2]
    rfl

/-- C32 at the order `[3,8]` and at the set `{1,..,5}` of the set tests with `Add(5,6)` then
`Add(6,7)`: counts 2 and 2 for the order, 1 and 1 for the set, and the same data as the
single call `Add(5,6,6,7)`. -/
theorem C32_add_splits_witness :
    ((OrderImpl.Add ⟨⟨[3, 8]⟩, CompareNumber, OrderKindIncreasing⟩ ([5, 6] ++ [6, 7])).map
        (fun r => (r.1.Data, r.2)) = .ok ([3, 5, 6, 6, 7, 8], 4) ∧
      (testSet0.Add ([5, 6] ++ [6, 7])).map (fun r => (r.1.Data, r.2)) =
        .ok ([1, 2, 3, 4, 5, 6, 7], 2) ∧
      (testSet0.Add [5, 6]).map (fun r => (r.1.Data, r.2)) = .ok ([1, 2, 3, 4, 5, 6], 1)) ∧
    ((∃ o1 o2, OrderImpl.Add ⟨⟨[3, 8]⟩, CompareNumber, OrderKindIncreasing⟩ [5, 6] =
        .ok (o1, 2) ∧ o1.Add [6, 7] = .ok (o2, 2) ∧
      OrderImpl.Add ⟨⟨[3, 8]⟩, CompareNumber, OrderKindIncreasing⟩ ([5, 6] ++ [6, 7]) =
        .ok (o2, 2 + 2) ∧ 2 + 2 = ([5, 6] ++ [6, (7 : Int)]).length) ∧
    (∃ s1 s2 n1 n2, testSet0.Add [5, 6] = .ok (s1, n1) ∧ s1.Add [6, 7] = .ok (s2, n2) ∧
      testSet0.Add ([5, 6] ++ [6, 7]) = .ok (s2, n1 + n2))) :=
  ⟨⟨rfl, rfl, rfl⟩,
    C32_add_splits CompareNumber CompareNumber_total
      ⟨⟨[3, 8]⟩, CompareNumber, OrderKindIncreasing⟩ rfl (Or.inl rfl)
      (by simp [OrderImpl.Sorted, OrderImpl.Data, Impl.Data, AdjOK, CompareNumber,
        OrderKindIncreasing, OrderKindDecreasing])
      testSet0 testSet0_WF [5, 6] [6, 7]⟩


end vector
